import Mathlib

/-!
# crnlib `tree_clusterizer` (crn_tree_clusterizer.h)

A shallow embedding of the template class `tree_clusterizer<VectorType>` and a
verification of its codebook generation.

* The template parameter `VectorType` is a type parameter `V`; the operations the class
  uses on it (crn_vec.h), the `matrix<N, N, float>` entries and the `float`/`double`
  scalars are collected in the record `Arith`.  Every structural theorem is proved for an
  arbitrary `Arith`, hence whatever the scalar arithmetic computes; `exactArith` is the
  instance in which scalars are read exactly, as rationals.
* `crnlib::vector` is a `List`; `uint` and `uint64` are `Nat`, `int` is `Int`.  The weights
  are machine numbers: the 32-bit aggregation saturates at `UINT_MAX` as coded and the 64-bit
  weight sums carry an explicit `% 2 ^ 64`.  Sizes and indices of containers are read as
  plain numbers, the conversions between `uint` and `int` of a node index preserving it.
* A call `obj.f(args)` is a function from the instance before the call to the instance
  after it (paired with the returned value, when there is one).
-/

namespace crnlib

/-! ## Data model -/

/-- The constant `UINT_MAX` of a 32-bit `uint`. -/
def UINT_MAX : Nat := 4294967295

/-- The number of values of a `uint64`. -/
def UINT64_SIZE : Nat := 18446744073709551616

/-- The number of values of a `uint`. -/
def UINT_SIZE : Nat := 4294967296

/-- The operations of `VectorType`, of `float`/`double` and of the covariance matrix entries
that `tree_clusterizer` relies on.  `V` is the vector type and `S` the scalars.  A comparison
`a > b` of the source is `lt b a`. -/
structure Arith (V S : Type) where
  /-- `VectorType::num_elements` -/
  num_elements : Nat
  /-- `VectorType(cClear)` -/
  vclear : V
  /-- `VectorType(s)`: every component set to `s` -/
  vsplat : S → V
  /-- `a + b` -/
  vadd : V → V → V
  /-- `a - b` -/
  vsub : V → V → V
  /-- `v * s` -/
  vscale : V → S → V
  /-- `a.dot(b)` -/
  dot : V → V → S
  /-- `a * b` on two vectors -/
  vmul : V → V → S
  /-- `a.squared_distance(b)` -/
  squared_distance : V → V → S
  /-- `v[i]` read -/
  vget : V → Nat → S
  /-- `v[i] = s` -/
  vset : V → Nat → S → V
  /-- `v.normalize()` -/
  normalize : V → V
  /-- `0.0f` -/
  zero : S
  /-- `1.0f` -/
  one : S
  /-- `-1.0f` -/
  neg_one : S
  /-- `.5f` -/
  half : S
  /-- `.00001f` -/
  tiny : S
  /-- `1e+10f` -/
  huge : S
  /-- conversion of a `uint` or `uint64` to a scalar -/
  ofNat : Nat → S
  add : S → S → S
  sub : S → S → S
  mul : S → S → S
  div : S → S → S
  /-- the cast `(float)x` of a `double` -/
  toFloat : S → S
  /-- `math::maximum` -/
  maximum : S → S → S
  /-- `a < b` -/
  lt : S → S → Bool
  /-- `a <= b` -/
  le : S → S → Bool
  /-- `a != b` -/
  ne : S → S → Bool
  /-- `-1.0f <= 0.0f` holds -/
  le_neg_one_zero : le neg_one zero = true

/-- `struct VectorInfo { uint index; uint weight; }` -/
structure VectorInfo where
  index : Nat
  weight : Nat
deriving DecidableEq, Repr

/-- `struct vq_node`. -/
structure vq_node (V S : Type) where
  m_centroid : V
  m_total_weight : Nat
  m_variance : S
  m_begin : Nat
  m_end : Nat
  m_left : Int
  m_right : Int
  m_codebook_index : Int
  m_unsplittable : Bool

/-- The constructor `vq_node()`.  It leaves `m_variance`, `m_begin` and `m_end`
uninitialised; every use below assigns them before they are read. -/
def vq_node.new {V S : Type} (A : Arith V S) : vq_node V S :=
  { m_centroid := A.vclear, m_total_weight := 0, m_variance := A.zero, m_begin := 0, m_end := 0,
    m_left := -1, m_right := -1, m_codebook_index := -1, m_unsplittable := false }

/-- The data members of `tree_clusterizer<VectorType>`. -/
structure tree_clusterizer (V S : Type) where
  m_hist : List (V × Nat)
  m_vectors : List V
  m_weightedVectors : List V
  m_weightedDotProducts : List S
  m_vectorsInfo : List VectorInfo
  m_vectorsInfoLeft : List VectorInfo
  m_vectorsInfoRight : List VectorInfo
  m_node_index_map : List (V × Nat)
  m_nodes : List (vq_node V S)
  m_codebook : List V

/-! ## Containers -/

/-- `crnlib::vector::resize(n)`: truncate, or grow with default elements `d`. -/
def resize {α : Type} (l : List α) (n : Nat) (d : α) : List α :=
  l.take n ++ List.replicate (n - l.length) d

/-- `memcpy(&dst[d], &src[o], n * sizeof(T))`. -/
def memcpy {α : Type} (dst : List α) (d : Nat) (src : List α) (o : Nat) (n : Nat) : List α :=
  dst.take d ++ (src.drop o).take n ++ dst.drop (d + n)

/-- The elements `l[b], ..., l[e - 1]` visited by `for (uint i = b; i < e; i++)`. -/
def slice {α : Type} (l : List α) (b e : Nat) : List α :=
  (l.take e).drop b

/-- Modelled from the spec: `crnlib::hash_map::insert` (crn_hash_map.h is not among the
sources); the newest binding of a key is the one a lookup returns. -/
def hash_map_insert {V : Type} (m : List (V × Nat)) (k : V) (x : Nat) : List (V × Nat) :=
  (k, x) :: m

/-- Modelled from the spec: `crnlib::hash_map::find`, `none` standing for `end()`. -/
def hash_map_find {V : Type} [DecidableEq V] (m : List (V × Nat)) (k : V) : Option Nat :=
  match m.find? (fun p => decide (p.1 = k)) with
  | some p => some p.2
  | none => none

/-! ## Construction, `clear`, `add_training_vec` -/

/-- The constructor `tree_clusterizer()`. -/
def tree_clusterizer.new {V S : Type} : tree_clusterizer V S :=
  { m_hist := [], m_vectors := [], m_weightedVectors := [], m_weightedDotProducts := [],
    m_vectorsInfo := [], m_vectorsInfoLeft := [], m_vectorsInfoRight := [],
    m_node_index_map := [], m_nodes := [], m_codebook := [] }

/-- `void clear()` -/
def clear {V S : Type} (s : tree_clusterizer V S) : tree_clusterizer V S :=
  { s with m_hist := [], m_vectors := [], m_vectorsInfo := [], m_codebook := [], m_nodes := [],
           m_node_index_map := [] }

/-- `void add_training_vec(const VectorType& v, uint weight)` -/
def add_training_vec {V S : Type} (s : tree_clusterizer V S) (v : V) (weight : Nat) :
    tree_clusterizer V S :=
  { s with m_hist := s.m_hist ++ [(v, weight)] }

/-- `uint get_codebook_size() const` -/
def get_codebook_size {V S : Type} (s : tree_clusterizer V S) : Nat := s.m_codebook.length

/-- `const VectorType& get_codebook_entry(uint index) const`; `none` outside the codebook. -/
def get_codebook_entry {V S : Type} (s : tree_clusterizer V S) (index : Nat) : Option V :=
  s.m_codebook.get? index

/-- `const vector_vec_type& get_codebook() const` -/
def get_codebook {V S : Type} (s : tree_clusterizer V S) : List V := s.m_codebook

/-- `uint get_node_index(const VectorType& v)`; `none` where the source dereferences `end()`. -/
def get_node_index {V S : Type} [DecidableEq V] (s : tree_clusterizer V S) (v : V) : Option Nat :=
  hash_map_find s.m_node_index_map v

/-! ## `split_node` -/

section split
variable {V S : Type}

/-- The loops `for (i = m_begin; i < m_end; i++) { v = m_vectors[m_vectorsInfo[i].index];
dist = v.squared_distance(target); if (dist > best_dist) { best_dist = dist; best = v; } }`
of lines 194-201 and 206-213, run over the members `ms` and started from `best`. -/
def furthest_from (A : Arith V S) (vectors : List V) (target : V) (best : V)
    (ms : List VectorInfo) : V :=
  (ms.foldl (fun (acc : S × V) vi =>
    let v := vectors.getD vi.index A.vclear
    let dist := A.squared_distance v target
    if A.lt acc.1 dist then (dist, v) else acc) (A.neg_one, best)).2

/-- Assignment `m[x][y] = val` in a `matrix<N, N, float>`. -/
def mat_set (m : Nat → Nat → S) (x y : Nat) (val : S) : Nat → Nat → S :=
  fun i j => if i = x ∧ j = y then val else m i j

/-- Lines 224-231: the accumulation of the upper triangle of the weighted covariance. -/
def covar_accumulate (A : Arith V S) (vectors : List V) (centroid : V) (ms : List VectorInfo) :
    Nat → Nat → S :=
  ms.foldl (fun covar vi =>
    let v := A.vsub (vectors.getD vi.index A.vclear) centroid
    let w := A.vscale v (A.ofNat vi.weight)
    (List.range A.num_elements).foldl (fun covar x =>
      (List.range' x (A.num_elements - x)).foldl (fun covar y =>
        mat_set covar x y (A.add (covar x y) (A.mul (A.vget v x) (A.vget w y)))) covar) covar)
    (fun _ _ => A.zero)

/-- Lines 233-239: division by the total weight and mirroring across the diagonal. -/
def covar_normalize (A : Arith V S) (divider : S) (covar : Nat → Nat → S) : Nat → Nat → S :=
  (List.range A.num_elements).foldl (fun covar x =>
    (List.range' x (A.num_elements - x)).foldl (fun covar y =>
      let c := mat_set covar x y (A.div (covar x y) divider)
      mat_set c y x (c x y)) covar) covar

/-- One pass of the loop of lines 246-266: `x = covar * axis`, rescaled by its largest
component.  The local `VectorType x;` has every component assigned by the loop; it starts
here from `vclear`. -/
def power_step (A : Arith V S) (covar : Nat → Nat → S) (axis : V) : V :=
  let r := (List.range A.num_elements).foldl (fun (acc : V × S) i =>
    let sum := (List.range A.num_elements).foldl
      (fun sum j => A.add sum (A.mul (A.vget axis j) (covar i j))) A.zero
    (A.vset acc.1 i (A.toFloat sum), if i ≠ 0 then A.maximum acc.2 sum else sum))
    (A.vclear, A.zero)
  if A.ne r.2 A.zero then A.vscale r.1 (A.toFloat (A.div A.one r.2)) else r.1

/-- Lines 241-268: ten passes of `power_step` from `VectorType(1.0f)`, then `normalize`. -/
def principal_axis (A : Arith V S) (covar : Nat → Nat → S) : V :=
  A.normalize ((List.range 10).foldl (fun axis _ => power_step A covar axis) (A.vsplat A.one))

/-- The accumulators of the loop of lines 276-287. -/
structure AxisSplit (V S : Type) where
  new_left_child : V
  new_right_child : V
  left_weight : S
  right_weight : S

/-- Lines 270-287: the members are divided by the sign of their projection on `axis`. -/
def axis_split (A : Arith V S) (vectors weightedVectors : List V) (centroid axis : V)
    (ms : List VectorInfo) : AxisSplit V S :=
  ms.foldl (fun acc vectorInfo =>
    let weight := A.ofNat vectorInfo.weight
    let t := A.vmul (A.vsub (vectors.getD vectorInfo.index A.vclear) centroid) axis
    if A.lt t A.zero then
      { acc with
        new_left_child := A.vadd acc.new_left_child (weightedVectors.getD vectorInfo.index A.vclear)
        left_weight := A.add acc.left_weight weight }
    else
      { acc with
        new_right_child :=
          A.vadd acc.new_right_child (weightedVectors.getD vectorInfo.index A.vclear)
        right_weight := A.add acc.right_weight weight })
    { new_left_child := A.vsplat A.zero, new_right_child := A.vsplat A.zero,
      left_weight := A.zero, right_weight := A.zero }

/-- Lines 191-293: the two seed centroids `(left_child, right_child)` of a node with the
members `ms`.  The local `VectorType opposite;` is assigned at the first member; it starts here
from `vclear`. -/
def seeds (A : Arith V S) (vectors weightedVectors : List V) (parent_node : vq_node V S)
    (ms : List VectorInfo) : V × V :=
  let furthest := furthest_from A vectors parent_node.m_centroid (A.vsplat A.zero) ms
  let opposite := furthest_from A vectors furthest A.vclear ms
  let left_child := A.vscale (A.vadd furthest parent_node.m_centroid) A.half
  let right_child := A.vscale (A.vadd opposite parent_node.m_centroid) A.half
  if parent_node.m_begin + 2 < parent_node.m_end then
    let covar := covar_normalize A (A.ofNat parent_node.m_total_weight)
      (covar_accumulate A vectors parent_node.m_centroid ms)
    let axis := principal_axis A covar
    let r := axis_split A vectors weightedVectors parent_node.m_centroid axis ms
    if A.lt A.zero r.left_weight && A.lt A.zero r.right_weight then
      (A.vscale r.new_left_child (A.toFloat (A.div A.one r.left_weight)),
       A.vscale r.new_right_child (A.toFloat (A.div A.one r.right_weight)))
    else (left_child, right_child)
  else (left_child, right_child)

/-- The variables of one pass of the relocation loop (lines 309-335), with the two staging
arrays it writes. -/
structure Round (V S : Type) where
  new_left_child : V
  new_right_child : V
  left_ttsum : S
  right_ttsum : S
  left_weight : Nat
  right_weight : Nat
  left_info_index : Nat
  right_info_index : Nat
  m_vectorsInfoLeft : List VectorInfo
  m_vectorsInfoRight : List VectorInfo

/-- Lines 321-334: the body of the member loop of a relocation pass. -/
def assign_member (A : Arith V S) (vectors weightedVectors : List V)
    (weightedDotProducts : List S) (left_child right_child : V) (r : Round V S)
    (vectorInfo : VectorInfo) : Round V S :=
  let left_dist2 := A.squared_distance left_child (vectors.getD vectorInfo.index A.vclear)
  let right_dist2 := A.squared_distance right_child (vectors.getD vectorInfo.index A.vclear)
  if A.lt left_dist2 right_dist2 then
    { r with
      new_left_child := A.vadd r.new_left_child (weightedVectors.getD vectorInfo.index A.vclear)
      left_ttsum := A.add r.left_ttsum (weightedDotProducts.getD vectorInfo.index A.zero)
      left_weight := (r.left_weight + vectorInfo.weight) % UINT64_SIZE
      m_vectorsInfoLeft := r.m_vectorsInfoLeft.set r.left_info_index vectorInfo
      left_info_index := r.left_info_index + 1 }
  else
    { r with
      new_right_child := A.vadd r.new_right_child (weightedVectors.getD vectorInfo.index A.vclear)
      right_ttsum := A.add r.right_ttsum (weightedDotProducts.getD vectorInfo.index A.zero)
      right_weight := (r.right_weight + vectorInfo.weight) % UINT64_SIZE
      m_vectorsInfoRight := r.m_vectorsInfoRight.set r.right_info_index vectorInfo
      right_info_index := r.right_info_index + 1 }

/-- Lines 309-335: one relocation pass over the members `ms` of the node starting at
`m_begin`. -/
def relocation_round (A : Arith V S) (vectors weightedVectors : List V)
    (weightedDotProducts : List S) (m_begin : Nat) (left_child right_child : V)
    (infoLeft infoRight : List VectorInfo) (ms : List VectorInfo) : Round V S :=
  ms.foldl (assign_member A vectors weightedVectors weightedDotProducts left_child right_child)
    { new_left_child := A.vclear, new_right_child := A.vclear, left_ttsum := A.zero,
      right_ttsum := A.zero, left_weight := 0, right_weight := 0, left_info_index := m_begin,
      right_info_index := m_begin, m_vectorsInfoLeft := infoLeft, m_vectorsInfoRight := infoRight }

/-- The variables declared before the relocation loop (lines 295-304) that are live across
its passes, together with the two staging arrays. -/
structure Relocation (V S : Type) where
  left_child : V
  right_child : V
  left_weight : Nat
  right_weight : Nat
  left_info_index : Nat
  right_info_index : Nat
  prev_total_variance : S
  left_variance : S
  right_variance : S
  m_vectorsInfoLeft : List VectorInfo
  m_vectorsInfoRight : List VectorInfo

/-- Lines 308-359: the relocation loop with `n` passes left of `cMaxLoops`.  The `Bool` is
`true` when the loop was left through `parent_node.m_unsplittable = true; return;`. -/
def relocation_loop (A : Arith V S) (vectors weightedVectors : List V)
    (weightedDotProducts : List S) (m_begin : Nat) (ms : List VectorInfo) :
    Nat → Relocation V S → Bool × Relocation V S
  | 0, st => (false, st)
  | n + 1, st =>
    let r := relocation_round A vectors weightedVectors weightedDotProducts m_begin
      st.left_child st.right_child st.m_vectorsInfoLeft st.m_vectorsInfoRight ms
    let st1 : Relocation V S :=
      { st with
        left_weight := r.left_weight, right_weight := r.right_weight
        left_info_index := r.left_info_index, right_info_index := r.right_info_index
        m_vectorsInfoLeft := r.m_vectorsInfoLeft, m_vectorsInfoRight := r.m_vectorsInfoRight }
    if r.left_weight = 0 ∨ r.right_weight = 0 then (true, st1)
    else
      let left_variance := A.toFloat (A.sub r.left_ttsum
        (A.div (A.dot r.new_left_child r.new_left_child) (A.ofNat r.left_weight)))
      let right_variance := A.toFloat (A.sub r.right_ttsum
        (A.div (A.dot r.new_right_child r.new_right_child) (A.ofNat r.right_weight)))
      let st2 : Relocation V S :=
        { st1 with
          left_variance := left_variance, right_variance := right_variance
          left_child := A.vscale r.new_left_child (A.div A.one (A.ofNat r.left_weight))
          right_child := A.vscale r.new_right_child (A.div A.one (A.ofNat r.right_weight)) }
      let total_variance := A.add left_variance right_variance
      if A.lt total_variance A.tiny then (false, st2)
      else if A.lt (A.div (A.sub st.prev_total_variance total_variance) total_variance) A.tiny
      then (false, st2)
      else relocation_loop A vectors weightedVectors weightedDotProducts m_begin ms n
        { st2 with prev_total_variance := total_variance }

/-- The constant `cMaxLoops`. -/
def cMaxLoops : Nat := 1024

/-- `void split_node(uint index)` -/
def split_node (A : Arith V S) (s : tree_clusterizer V S) (index : Nat) : tree_clusterizer V S :=
  let parent_node := s.m_nodes.getD index (vq_node.new A)
  if parent_node.m_begin + 1 = parent_node.m_end then s
  else
    let ms := slice s.m_vectorsInfo parent_node.m_begin parent_node.m_end
    let sd := seeds A s.m_vectors s.m_weightedVectors parent_node ms
    let res := relocation_loop A s.m_vectors s.m_weightedVectors s.m_weightedDotProducts
      parent_node.m_begin ms cMaxLoops
      { left_child := sd.1, right_child := sd.2, left_weight := 0, right_weight := 0,
        left_info_index := 0, right_info_index := 0, prev_total_variance := A.huge,
        left_variance := A.zero, right_variance := A.zero,
        m_vectorsInfoLeft := s.m_vectorsInfoLeft, m_vectorsInfoRight := s.m_vectorsInfoRight }
    let st := res.2
    if res.1 then
      { s with
        m_nodes := s.m_nodes.set index { parent_node with m_unsplittable := true }
        m_vectorsInfoLeft := st.m_vectorsInfoLeft
        m_vectorsInfoRight := st.m_vectorsInfoRight }
    else
      let left_child_index := s.m_nodes.length
      let right_child_index := s.m_nodes.length + 1
      let parent1 : vq_node V S :=
        { parent_node with m_left := (left_child_index : Int), m_right := (right_child_index : Int) }
      let left_child_node : vq_node V S :=
        { vq_node.new A with
          m_begin := parent_node.m_begin, m_end := st.left_info_index
          m_centroid := st.left_child, m_total_weight := st.left_weight
          m_variance := st.left_variance }
      let right_child_node : vq_node V S :=
        { vq_node.new A with
          m_begin := st.left_info_index, m_end := parent_node.m_end
          m_centroid := st.right_child, m_total_weight := st.right_weight
          m_variance := st.right_variance }
      let info1 := memcpy s.m_vectorsInfo left_child_node.m_begin st.m_vectorsInfoLeft
        parent_node.m_begin (left_child_node.m_end - left_child_node.m_begin)
      let info2 := memcpy info1 right_child_node.m_begin st.m_vectorsInfoRight
        parent_node.m_begin (right_child_node.m_end - right_child_node.m_begin)
      { s with
        m_nodes := s.m_nodes.set index parent1 ++ [left_child_node, right_child_node]
        m_vectorsInfo := info2
        m_vectorsInfoLeft := st.m_vectorsInfoLeft
        m_vectorsInfoRight := st.m_vectorsInfoRight }

end split

/-! ## `generate_codebook` -/

section generate
variable {V S : Type} [LinearOrder V]

/-- `operator<` of `std::pair<VectorType, uint>`. -/
def pair_lt (a b : V × Nat) : Prop :=
  a.1 < b.1 ∨ (¬ b.1 < a.1 ∧ a.2 < b.2)

instance pair_lt_decidable : DecidableRel (pair_lt : V × Nat → V × Nat → Prop) :=
  fun a b => by unfold pair_lt; infer_instance

/-- The order `!(b < a)` in which `std::sort` leaves consecutive elements. -/
def pair_le (a b : V × Nat) : Prop := ¬ pair_lt b a

instance pair_le_decidable : DecidableRel (pair_le : V × Nat → V × Nat → Prop) :=
  fun a b => by unfold pair_le; infer_instance

/-- `std::sort(m_hist.begin(), m_hist.end())`: the arrangement of the pairs in ascending
order (pairs that compare equivalent are equal, so there is only one). -/
def sort_hist (hist : List (V × Nat)) : List (V × Nat) :=
  hist.insertionSort pair_le

/-- Lines 47-51: the update of `m_vectorsInfo.back().weight` by the weight `w`. -/
def saturating_add (weight w : Nat) : Nat :=
  if weight > UINT_MAX - w then UINT_MAX else weight + w

/-- `m_vectorsInfo.back().weight = f(m_vectorsInfo.back().weight)` -/
def update_back_weight (infos : List VectorInfo) (f : Nat → Nat) : List VectorInfo :=
  match infos.getLast? with
  | some b => infos.dropLast ++ [{ b with weight := f b.weight }]
  | none => infos

/-- Lines 40-52: the loop over the sorted `m_hist`; `prev` is `m_hist[i - 1].first`, `none`
when `i` is `0`, and `rest` is `m_hist[i], m_hist[i + 1], ...`. -/
def aggregate_loop : Option V → List (V × Nat) → List V × List VectorInfo →
    List V × List VectorInfo
  | _, [], acc => acc
  | prev, (v, w) :: rest, acc =>
    if prev ≠ some v then
      aggregate_loop (some v) rest
        (acc.1 ++ [v], acc.2 ++ [{ index := acc.1.length, weight := w }])
    else
      aggregate_loop (some v) rest (acc.1, update_back_weight acc.2 (fun x => saturating_add x w))

/-- Lines 36-52 of `generate_codebook`: the aggregation step. -/
def aggregate (s : tree_clusterizer V S) : tree_clusterizer V S :=
  let hist := sort_hist s.m_hist
  let r := aggregate_loop none hist (s.m_vectors, s.m_vectorsInfo)
  { s with m_hist := hist, m_vectors := r.1, m_vectorsInfo := r.2 }

/-- The variables of the loop of lines 63-71. -/
structure RootAcc (V S : Type) where
  root : vq_node V S
  ttsum : S
  m_weightedVectors : List V
  m_weightedDotProducts : List S

/-- Lines 64-70: the body of the loop over `i < m_vectors.size()`. -/
def root_step (A : Arith V S) (vectors : List V) (infos : List VectorInfo) (r : RootAcc V S)
    (i : Nat) : RootAcc V S :=
  let v := vectors.getD i A.vclear
  let weight := (infos.getD i { index := 0, weight := 0 }).weight
  let wv := A.vscale v (A.ofNat weight)
  let wd := A.mul (A.dot v v) (A.ofNat weight)
  { root := { r.root with
              m_centroid := A.vadd r.root.m_centroid wv
              m_total_weight := (r.root.m_total_weight + weight) % UINT64_SIZE }
    ttsum := A.add r.ttsum wd
    m_weightedVectors := r.m_weightedVectors.set i wv
    m_weightedDotProducts := r.m_weightedDotProducts.set i wd }

/-- Lines 54-80 of `generate_codebook`: the scratch arrays are resized and the root node is
computed and becomes the only node. -/
def build_root (A : Arith V S) (s : tree_clusterizer V S) : tree_clusterizer V S :=
  let n := s.m_vectors.length
  let root0 : vq_node V S := { vq_node.new A with m_begin := 0, m_end := s.m_vectorsInfo.length }
  let r := (List.range n).foldl (root_step A s.m_vectors s.m_vectorsInfo)
    { root := root0, ttsum := A.zero
      m_weightedVectors := resize s.m_weightedVectors n A.vclear
      m_weightedDotProducts := resize s.m_weightedDotProducts n A.zero }
  let variance := A.toFloat (A.sub r.ttsum
    (A.div (A.dot r.root.m_centroid r.root.m_centroid) (A.ofNat r.root.m_total_weight)))
  let root : vq_node V S :=
    { r.root with
      m_variance := variance
      m_centroid := A.vscale r.root.m_centroid (A.div A.one (A.ofNat r.root.m_total_weight)) }
  { s with
    m_weightedVectors := r.m_weightedVectors
    m_weightedDotProducts := r.m_weightedDotProducts
    m_vectorsInfoLeft := resize s.m_vectorsInfoLeft n { index := 0, weight := 0 }
    m_vectorsInfoRight := resize s.m_vectorsInfoRight n { index := 0, weight := 0 }
    m_nodes := [root] }

/-- Lines 87-101: the scan for the leaf to split; `i` is the index of the first node of the
list, and the pair is `(worst_node_index, worst_variance)`. -/
def find_worst (A : Arith V S) : List (vq_node V S) → Nat → Int × S → Int × S
  | [], _, acc => acc
  | node :: rest, i, acc =>
    if node.m_left ≠ -1 ∨ node.m_unsplittable = true then find_worst A rest (i + 1) acc
    else if A.lt acc.2 node.m_variance then find_worst A rest (i + 1) ((i : Int), node.m_variance)
    else find_worst A rest (i + 1) acc

/-- Lines 86-108: the loop `while (total_leaves < max_size)`, with `n` passes left before
`total_leaves` reaches `max_size`.  It returns the final `total_leaves` and instance.  The
argument `worst_node_index` of `split_node` is never `-1` (`find_worst_valid` below). -/
def growth_loop (A : Arith V S) (max_size : Nat) :
    Nat → Nat → tree_clusterizer V S → Nat × tree_clusterizer V S
  | 0, total_leaves, s => (total_leaves, s)
  | n + 1, total_leaves, s =>
    if total_leaves < max_size then
      let worst := find_worst A s.m_nodes 0 (-1, A.neg_one)
      if A.le worst.2 A.zero then (total_leaves, s)
      else growth_loop A max_size n (total_leaves + 1) (split_node A s worst.1.toNat)
    else (total_leaves, s)

/-- Lines 124-127: the insertions of the members of a leaf in the reverse map. -/
def map_members (A : Arith V S) (vectors : List V) (codebook_index : Nat)
    (m : List (V × Nat)) (ms : List VectorInfo) : List (V × Nat) :=
  ms.foldl (fun m vi => hash_map_insert m (vectors.getD vi.index A.vclear) codebook_index) m

/-- Lines 112-128: the walk over the nodes, from the nodes not yet visited, the codebook and
the reverse map so far, to the visited nodes, the codebook and the reverse map. -/
def extract_loop (A : Arith V S) (vectors : List V) (infos : List VectorInfo)
    (generate_node_index_map : Bool) :
    List (vq_node V S) → List V → List (V × Nat) → List (vq_node V S) × List V × List (V × Nat)
  | [], codebook, m => ([], codebook, m)
  | node :: rest, codebook, m =>
    if node.m_left ≠ -1 then
      let r := extract_loop A vectors infos generate_node_index_map rest codebook m
      (node :: r.1, r.2)
    else
      let node1 : vq_node V S := { node with m_codebook_index := (codebook.length : Int) }
      let m1 :=
        if generate_node_index_map then
          map_members A vectors codebook.length m (slice infos node.m_begin node.m_end)
        else m
      let r := extract_loop A vectors infos generate_node_index_map rest
        (codebook ++ [node.m_centroid]) m1
      (node1 :: r.1, r.2)

/-- Lines 110-128 of `generate_codebook`. -/
def extract (A : Arith V S) (generate_node_index_map : Bool) (s : tree_clusterizer V S) :
    tree_clusterizer V S :=
  let r := extract_loop A s.m_vectors s.m_vectorsInfo generate_node_index_map s.m_nodes []
    s.m_node_index_map
  { s with m_nodes := r.1, m_codebook := r.2.1, m_node_index_map := r.2.2 }

/-- Lines 84-108 of `generate_codebook`: the growth of the tree from the root. -/
def grow (A : Arith V S) (max_size : Nat) (s : tree_clusterizer V S) : tree_clusterizer V S :=
  (growth_loop A max_size (max_size - 1) 1 s).2

/-- `bool generate_codebook(uint max_size, bool generate_node_index_map = false)`: the
returned value and the instance after the call. -/
def generate_codebook (A : Arith V S) (s : tree_clusterizer V S) (max_size : Nat)
    (generate_node_index_map : Bool) : Bool × tree_clusterizer V S :=
  if s.m_hist = [] then (false, s)
  else (true, extract A generate_node_index_map (grow A max_size (build_root A (aggregate s))))

end generate

/-! ## The exact reading of the arithmetic -/

/-- Modelled from the spec: the collaborator vector type (crn_vec.h is not among the sources),
a vector of `N` scalars, here rationals, ordered lexicographically. -/
abbrev Vec (N : Nat) : Type := { l : List ℚ // l.length = N }

/-- Component-wise combination of two vectors. -/
def Vec.zipWith {N : Nat} (f : ℚ → ℚ → ℚ) (a b : Vec N) : Vec N :=
  ⟨List.zipWith f a.1 b.1, by simp [a.2, b.2]⟩

/-- Component-wise image of a vector. -/
def Vec.map {N : Nat} (f : ℚ → ℚ) (a : Vec N) : Vec N :=
  ⟨List.map f a.1, by simp [a.2]⟩

/-- The vector with every component `c`. -/
def Vec.splat (N : Nat) (c : ℚ) : Vec N :=
  ⟨List.replicate N c, by simp⟩

/-- Modelled from the spec: dot product, component-wise subtraction, scalar scaling and
squared Euclidean distance of the collaborator vector type, with `float` and `double` read as
rationals, every cast being the identity.  The unit-length scaling `normalize` needs a square
root and stays a parameter. -/
def exactArith (N : Nat) (normalize : Vec N → Vec N) : Arith (Vec N) ℚ :=
  { num_elements := N
    vclear := Vec.splat N 0
    vsplat := Vec.splat N
    vadd := Vec.zipWith (fun x y => x + y)
    vsub := Vec.zipWith (fun x y => x - y)
    vscale := fun v c => Vec.map (fun x => x * c) v
    dot := fun a b => (List.zipWith (fun x y => x * y) a.1 b.1).sum
    vmul := fun a b => (List.zipWith (fun x y => x * y) a.1 b.1).sum
    squared_distance := fun a b => (List.zipWith (fun x y => (x - y) * (x - y)) a.1 b.1).sum
    vget := fun v i => v.1.getD i 0
    vset := fun v i x => ⟨v.1.set i x, by simp [v.2]⟩
    normalize := normalize
    zero := 0
    one := 1
    neg_one := -1
    half := 1 / 2
    tiny := 1 / 100000
    huge := 10000000000
    ofNat := fun n => (n : ℚ)
    add := fun x y => x + y
    sub := fun x y => x - y
    mul := fun x y => x * y
    div := fun x y => x / y
    toFloat := fun x => x
    maximum := fun x y => if y < x then x else y
    lt := fun x y => decide (x < y)
    le := fun x y => decide (x ≤ y)
    ne := fun x y => decide (x ≠ y)
    le_neg_one_zero := by norm_num }

/-! ## Vocabulary of the statements -/

section vocabulary
variable {V S : Type} [LinearOrder V]

/-- The instance after the observations `hist` were added one by one, in that order. -/
def train (s : tree_clusterizer V S) (hist : List (V × Nat)) : tree_clusterizer V S :=
  hist.foldl (fun s p => add_training_vec s p.1 p.2) s

/-- A call of one of the public operations that modify the instance. -/
inductive Call (V : Type) where
  | clear
  | add_training_vec (v : V) (weight : Nat)
  | generate_codebook (max_size : Nat) (generate_node_index_map : Bool)

/-- The instance after a call. -/
def Call.apply (A : Arith V S) (s : tree_clusterizer V S) : Call V → tree_clusterizer V S
  | .clear => crnlib.clear s
  | .add_training_vec v weight => crnlib.add_training_vec s v weight
  | .generate_codebook max_size flag => (crnlib.generate_codebook A s max_size flag).2

/-- The instance reached from construction by a sequence of calls. -/
def run (A : Arith V S) (calls : List (Call V)) : tree_clusterizer V S :=
  calls.foldl (Call.apply A) tree_clusterizer.new

/-- Whether the call is an `add_training_vec`. -/
def Call.is_add : Call V → Bool
  | .add_training_vec _ _ => true
  | _ => false

/-- Whether an observation was added since construction or since the last `clear()`. -/
def added_since_clear (calls : List (Call V)) : Bool :=
  calls.foldl (fun b c =>
    match c with
    | .clear => false
    | .add_training_vec _ _ => true
    | .generate_codebook _ _ => b) false

/-- A leaf: the test `(node.m_left == -1) && (node.m_right == -1)` of line 119. -/
def vq_node.is_leaf (node : vq_node V S) : Prop := node.m_left = -1 ∧ node.m_right = -1

instance vq_node.is_leaf_decidable (node : vq_node V S) : Decidable node.is_leaf := by
  unfold vq_node.is_leaf; infer_instance

/-- The number of leaf nodes of the tree. -/
def leaf_count (nodes : List (vq_node V S)) : Nat :=
  nodes.countP (fun node => decide node.is_leaf)

/-- The growth loop without its counter: `n` passes, or fewer when the loop is left through
`break`. -/
def growth_passes (A : Arith V S) : Nat → tree_clusterizer V S → tree_clusterizer V S
  | 0, s => s
  | n + 1, s =>
    let worst := find_worst A s.m_nodes 0 (-1, A.neg_one)
    if A.le worst.2 A.zero then s else growth_passes A n (split_node A s worst.1.toNat)

end vocabulary

section vocabulary_round
variable {V S : Type}

/-- Successive assignments `l[i] = x0; l[i + 1] = x1; ...`. -/
def write_seq {α : Type} : List α → Nat → List α → List α
  | l, _, [] => l
  | l, i, x :: xs => write_seq (l.set i x) (i + 1) xs

/-- The test of line 324 for the member `vi`: whether it is assigned to the left side when
the seed centroids are `left_child` and `right_child`. -/
def goes_left (A : Arith V S) (vectors : List V) (left_child right_child : V)
    (vi : VectorInfo) : Bool :=
  A.lt (A.squared_distance left_child (vectors.getD vi.index A.vclear))
    (A.squared_distance right_child (vectors.getD vi.index A.vclear))

/-- The sum of the weights of a list of members. -/
def weight_sum (ms : List VectorInfo) : Nat := (ms.map VectorInfo.weight).sum

/-- The outcome `st` of the relocation loop holds the results of a pass in which both sides
received weight: the members of `ms` that went left and right are staged from `m_begin` on. -/
def FromRound (A : Arith V S) (vectors : List V) (m_begin : Nat) (ms : List VectorInfo)
    (st : Relocation V S) : Prop :=
  ∃ lc rc : V, ∃ L0 R0 : List VectorInfo,
    st.left_info_index = m_begin + (ms.filter (goes_left A vectors lc rc)).length ∧
    st.m_vectorsInfoLeft = write_seq L0 m_begin (ms.filter (goes_left A vectors lc rc)) ∧
    st.m_vectorsInfoRight
      = write_seq R0 m_begin (ms.filter (fun vi => !goes_left A vectors lc rc vi)) ∧
    st.left_weight = weight_sum (ms.filter (goes_left A vectors lc rc)) % UINT64_SIZE ∧
    st.right_weight
      = weight_sum (ms.filter (fun vi => !goes_left A vectors lc rc vi)) % UINT64_SIZE ∧
    st.left_weight ≠ 0 ∧ st.right_weight ≠ 0

end vocabulary_round

section vocabulary_split
variable {V S : Type}

/-- The node `m_nodes[i]`. -/
def node_at (A : Arith V S) (s : tree_clusterizer V S) (i : Nat) : vq_node V S :=
  s.m_nodes.getD i (vq_node.new A)

/-- The members of a node: the entries of its range of the live array. -/
def members (s : tree_clusterizer V S) (p : vq_node V S) : List VectorInfo :=
  slice s.m_vectorsInfo p.m_begin p.m_end

/-- The members of `p` that a relocation pass with the seed centroids `lc`, `rc` assigns to
the left side, in their order. -/
def lefts (A : Arith V S) (s : tree_clusterizer V S) (p : vq_node V S) (lc rc : V) :
    List VectorInfo :=
  (members s p).filter (goes_left A s.m_vectors lc rc)

/-- The members of `p` that a relocation pass with the seed centroids `lc`, `rc` assigns to
the right side, in their order. -/
def rights (A : Arith V S) (s : tree_clusterizer V S) (p : vq_node V S) (lc rc : V) :
    List VectorInfo :=
  (members s p).filter (fun vi => !goes_left A s.m_vectors lc rc vi)

/-- A child node as `split_node` fills it in (lines 371-387). -/
def child (A : Arith V S) (b e : Nat) (centroid : V) (w : Nat) (variance : S) : vq_node V S :=
  { vq_node.new A with
    m_begin := b, m_end := e, m_centroid := centroid, m_total_weight := w, m_variance := variance }

/-- What a call of `split_node` leaves alone. -/
def Frame (s t : tree_clusterizer V S) : Prop :=
  t.m_hist = s.m_hist ∧ t.m_vectors = s.m_vectors ∧
  t.m_weightedVectors = s.m_weightedVectors ∧
  t.m_weightedDotProducts = s.m_weightedDotProducts ∧
  t.m_node_index_map = s.m_node_index_map ∧ t.m_codebook = s.m_codebook ∧
  t.m_vectorsInfoLeft.length = s.m_vectorsInfoLeft.length ∧
  t.m_vectorsInfoRight.length = s.m_vectorsInfoRight.length

/-- The instance `t` is `s` after `split_node(i)` marked the node unsplittable. -/
def Unsplit (A : Arith V S) (s t : tree_clusterizer V S) (i : Nat) : Prop :=
  (node_at A s i).m_begin + 1 ≠ (node_at A s i).m_end ∧
  t.m_nodes = s.m_nodes.set i { node_at A s i with m_unsplittable := true } ∧
  t.m_vectorsInfo = s.m_vectorsInfo

/-- The instance `t` is `s` after `split_node(i)` committed two children: for the seed
centroids `lc`, `rc` of the last relocation pass, both sides have a non-zero weight sum, the
node got two children holding the two sides, and the range of the node in the live array
holds the left side followed by the right side. -/
def Committed (A : Arith V S) (s t : tree_clusterizer V S) (i : Nat) : Prop :=
  (node_at A s i).m_begin + 1 ≠ (node_at A s i).m_end ∧
  ∃ lc rc cl cr : V, ∃ lv rv : S,
    weight_sum (lefts A s (node_at A s i) lc rc) % UINT64_SIZE ≠ 0 ∧
    weight_sum (rights A s (node_at A s i) lc rc) % UINT64_SIZE ≠ 0 ∧
    t.m_nodes
      = s.m_nodes.set i { node_at A s i with
          m_left := (s.m_nodes.length : Int), m_right := ((s.m_nodes.length + 1 : Nat) : Int) }
        ++ [child A (node_at A s i).m_begin
              ((node_at A s i).m_begin + (lefts A s (node_at A s i) lc rc).length) cl
              (weight_sum (lefts A s (node_at A s i) lc rc) % UINT64_SIZE) lv,
            child A ((node_at A s i).m_begin + (lefts A s (node_at A s i) lc rc).length)
              (node_at A s i).m_end cr
              (weight_sum (rights A s (node_at A s i) lc rc) % UINT64_SIZE) rv] ∧
    t.m_vectorsInfo
      = s.m_vectorsInfo.take (node_at A s i).m_begin ++ lefts A s (node_at A s i) lc rc
        ++ rights A s (node_at A s i) lc rc ++ s.m_vectorsInfo.drop (node_at A s i).m_end

end vocabulary_split

section vocabulary_relocate
variable {V S : Type}

/-- The outcome of the relocation loop in `split_node(i)`. -/
def relocate (A : Arith V S) (s : tree_clusterizer V S) (i : Nat) : Bool × Relocation V S :=
  relocation_loop A s.m_vectors s.m_weightedVectors s.m_weightedDotProducts
    (node_at A s i).m_begin (members s (node_at A s i)) cMaxLoops
    { left_child := (seeds A s.m_vectors s.m_weightedVectors (node_at A s i)
        (members s (node_at A s i))).1,
      right_child := (seeds A s.m_vectors s.m_weightedVectors (node_at A s i)
        (members s (node_at A s i))).2,
      left_weight := 0, right_weight := 0,
      left_info_index := 0, right_info_index := 0, prev_total_variance := A.huge,
      left_variance := A.zero, right_variance := A.zero,
      m_vectorsInfoLeft := s.m_vectorsInfoLeft, m_vectorsInfoRight := s.m_vectorsInfoRight }

end vocabulary_relocate

section invariants
variable {V S : Type}

/-- Whether position `j` of the live array is in the range of the leaf `node`. -/
def covers (j : Nat) (node : vq_node V S) : Bool :=
  decide (node.is_leaf ∧ node.m_begin ≤ j ∧ j < node.m_end)

/-- The partition invariant of the tree: the live array and the two staging arrays are as
long as the unique-vector array, every node has a range inside the live array, has both
child links or none, and every position of the live array is in the range of exactly one
leaf. -/
structure Partitioned (s : tree_clusterizer V S) : Prop where
  info_len : s.m_vectorsInfo.length = s.m_vectors.length
  left_len : s.m_vectorsInfoLeft.length = s.m_vectors.length
  right_len : s.m_vectorsInfoRight.length = s.m_vectors.length
  range : ∀ node ∈ s.m_nodes, node.m_begin ≤ node.m_end ∧ node.m_end ≤ s.m_vectors.length
  links : ∀ node ∈ s.m_nodes, (node.m_left = -1 ↔ node.m_right = -1)
  cover : ∀ j, s.m_nodes.countP (covers j) = if j < s.m_vectors.length then 1 else 0

/-- The weight invariant of the tree: the weights are `uint` values, few enough for their
sum to fit 64 bits, a leaf carries the sum of the weights of its members, and the weights of
the two children of an internal node add up to its weight, every weight being a `uint64`
value. -/
structure Weighted (s : tree_clusterizer V S) : Prop where
  bound : ∀ vi ∈ s.m_vectorsInfo, vi.weight ≤ UINT_MAX
  size : s.m_vectorsInfo.length ≤ UINT_SIZE
  total : ∀ node ∈ s.m_nodes, node.m_total_weight < UINT64_SIZE
  leaf : ∀ node ∈ s.m_nodes, node.is_leaf → node.m_total_weight = weight_sum (members s node)
  inner : ∀ node ∈ s.m_nodes, node.m_left ≠ -1 →
    ∃ l r : Nat, ∃ nl nr : vq_node V S, node.m_left = (l : Int) ∧ node.m_right = (r : Int) ∧
      s.m_nodes.get? l = some nl ∧ s.m_nodes.get? r = some nr ∧
      nl.m_total_weight + nr.m_total_weight = node.m_total_weight

end invariants

section invariants_links
variable {V S : Type}

/-- Every node has both child links or none. -/
def Linked (nodes : List (vq_node V S)) : Prop :=
  ∀ node ∈ nodes, (node.m_left = -1 ↔ node.m_right = -1)

end invariants_links

/-! ## Concrete inputs -/

/-- The vector `(x)` of dimension 1. -/
def vec1 (x : ℚ) : Vec 1 := ⟨[x], rfl⟩

/-- The vector `(x, y)` of dimension 2. -/
def vec2 (x y : ℚ) : Vec 2 := ⟨[x, y], rfl⟩

/-- The exact arithmetic in dimension 1; `normalize` of a non-zero `(x)` is `(x / |x|)`. -/
def exact1 : Arith (Vec 1) ℚ :=
  exactArith 1 (fun v => Vec.map (fun x => if x < 0 then -1 else if 0 < x then 1 else 0) v)

/-- A freshly constructed instance of dimension 1. -/
def fresh1 : tree_clusterizer (Vec 1) ℚ := tree_clusterizer.new

section aggregation
variable {V : Type} [LinearOrder V]

/-- The sum of the weights of the observations of the vector `v` among `hist`. -/
def obs_weight (hist : List (V × Nat)) (v : V) : Nat :=
  ((hist.filter (fun p => decide (p.1 = v))).map Prod.snd).sum

/-- The arrays `vs` and `infos` hold the aggregation of the observations `hist`: the
distinct vectors in increasing order, and for the `i`-th of them the entry with index `i` and
the saturated sum of the weights of its observations (the weights being `uint` values). -/
structure Aggregated (hist : List (V × Nat)) (vs : List V) (infos : List VectorInfo) :
    Prop where
  sorted : vs.Sorted (fun a b => a < b)
  mem : ∀ v, v ∈ vs ↔ v ∈ hist.map Prod.fst
  last : vs.getLast? = hist.getLast?.map Prod.fst
  index : infos.map VectorInfo.index = List.range vs.length
  weight : (∀ p ∈ hist, p.2 ≤ UINT_MAX) →
    infos.map VectorInfo.weight = vs.map (fun v => min (obs_weight hist v) UINT_MAX)

end aggregation

section vocabulary_extract
variable {V S : Type}

/-- The node without its codebook index, the one field the extraction loop assigns. -/
def vq_node.erase_index (node : vq_node V S) : vq_node V S :=
  { node with m_codebook_index := -1 }

end vocabulary_extract

section vocabulary_reach
variable {V S : Type}

/-- A freshly constructed or cleared instance: everything `clear()` empties is empty. -/
def Fresh (s : tree_clusterizer V S) : Prop :=
  s.m_hist = [] ∧ s.m_vectors = [] ∧ s.m_vectorsInfo = [] ∧ s.m_codebook = [] ∧
  s.m_nodes = [] ∧ s.m_node_index_map = []

/-- What holds of every instance the public operations can reach when the weights passed to
`add_training_vec` are `uint` values: the live array runs parallel to the unique-vector
array, all weights are `uint` values, and without observations there is no tree. -/
def Sane (s : tree_clusterizer V S) : Prop :=
  s.m_vectorsInfo.length = s.m_vectors.length ∧
  (∀ vi ∈ s.m_vectorsInfo, vi.weight ≤ UINT_MAX) ∧
  (∀ p ∈ s.m_hist, p.2 ≤ UINT_MAX) ∧
  (s.m_hist = [] → s.m_nodes = [])

/-- Whether every weight passed to `add_training_vec` in `calls` is a `uint` value. -/
def uint_weights (calls : List (Call V)) : Prop :=
  ∀ c ∈ calls, ∀ v w, c = Call.add_training_vec v w → w ≤ UINT_MAX

end vocabulary_reach

section vocabulary_passes
variable {V S : Type}

/-- The seed centroids `(left_child, right_child)` of the successive passes of the relocation
loop (lines 308-359): the loop of `relocation_loop`, recording the seeds each pass it runs
starts from. -/
def relocation_passes (A : Arith V S) (vectors weightedVectors : List V)
    (weightedDotProducts : List S) (m_begin : Nat) (ms : List VectorInfo) :
    Nat → Relocation V S → List (V × V)
  | 0, _ => []
  | n + 1, st =>
    let r := relocation_round A vectors weightedVectors weightedDotProducts m_begin
      st.left_child st.right_child st.m_vectorsInfoLeft st.m_vectorsInfoRight ms
    let st1 : Relocation V S :=
      { st with
        left_weight := r.left_weight, right_weight := r.right_weight
        left_info_index := r.left_info_index, right_info_index := r.right_info_index
        m_vectorsInfoLeft := r.m_vectorsInfoLeft, m_vectorsInfoRight := r.m_vectorsInfoRight }
    if r.left_weight = 0 ∨ r.right_weight = 0 then [(st.left_child, st.right_child)]
    else
      let left_variance := A.toFloat (A.sub r.left_ttsum
        (A.div (A.dot r.new_left_child r.new_left_child) (A.ofNat r.left_weight)))
      let right_variance := A.toFloat (A.sub r.right_ttsum
        (A.div (A.dot r.new_right_child r.new_right_child) (A.ofNat r.right_weight)))
      let st2 : Relocation V S :=
        { st1 with
          left_variance := left_variance, right_variance := right_variance
          left_child := A.vscale r.new_left_child (A.div A.one (A.ofNat r.left_weight))
          right_child := A.vscale r.new_right_child (A.div A.one (A.ofNat r.right_weight)) }
      let total_variance := A.add left_variance right_variance
      if A.lt total_variance A.tiny then [(st.left_child, st.right_child)]
      else if A.lt (A.div (A.sub st.prev_total_variance total_variance) total_variance) A.tiny
      then [(st.left_child, st.right_child)]
      else (st.left_child, st.right_child) ::
        relocation_passes A vectors weightedVectors weightedDotProducts m_begin ms n
          { st2 with prev_total_variance := total_variance }

/-- The seed centroids of the passes of the relocation loop in `split_node(i)`. -/
def passes (A : Arith V S) (s : tree_clusterizer V S) (i : Nat) : List (V × V) :=
  relocation_passes A s.m_vectors s.m_weightedVectors s.m_weightedDotProducts
    (node_at A s i).m_begin (members s (node_at A s i)) cMaxLoops
    { left_child := (seeds A s.m_vectors s.m_weightedVectors (node_at A s i)
        (members s (node_at A s i))).1,
      right_child := (seeds A s.m_vectors s.m_weightedVectors (node_at A s i)
        (members s (node_at A s i))).2,
      left_weight := 0, right_weight := 0,
      left_info_index := 0, right_info_index := 0, prev_total_variance := A.huge,
      left_variance := A.zero, right_variance := A.zero,
      m_vectorsInfoLeft := s.m_vectorsInfoLeft, m_vectorsInfoRight := s.m_vectorsInfoRight }

/-- The outcome `st` of the relocation loop holds the results of the pass run with the seed
centroids `lc`, `rc`: the members of `ms` that went left and right are staged from `m_begin`
on, and the two weights are their 64-bit weight sums. -/
def Staged (A : Arith V S) (vectors : List V) (m_begin : Nat) (ms : List VectorInfo)
    (lc rc : V) (st : Relocation V S) : Prop :=
  ∃ L0 R0 : List VectorInfo,
    st.left_info_index = m_begin + (ms.filter (goes_left A vectors lc rc)).length ∧
    st.m_vectorsInfoLeft = write_seq L0 m_begin (ms.filter (goes_left A vectors lc rc)) ∧
    st.m_vectorsInfoRight
      = write_seq R0 m_begin (ms.filter (fun vi => !goes_left A vectors lc rc vi)) ∧
    st.left_weight = weight_sum (ms.filter (goes_left A vectors lc rc)) % UINT64_SIZE ∧
    st.right_weight
      = weight_sum (ms.filter (fun vi => !goes_left A vectors lc rc vi)) % UINT64_SIZE

/-- The instance `t` is `s` after `split_node(i)` committed two children from a last
relocation pass with the seed centroids `lc`, `rc`. -/
def CommittedAt (A : Arith V S) (s t : tree_clusterizer V S) (i : Nat) (lc rc : V) : Prop :=
  ∃ cl cr : V, ∃ lv rv : S,
    weight_sum (lefts A s (node_at A s i) lc rc) % UINT64_SIZE ≠ 0 ∧
    weight_sum (rights A s (node_at A s i) lc rc) % UINT64_SIZE ≠ 0 ∧
    t.m_nodes
      = s.m_nodes.set i { node_at A s i with
          m_left := (s.m_nodes.length : Int), m_right := ((s.m_nodes.length + 1 : Nat) : Int) }
        ++ [child A (node_at A s i).m_begin
              ((node_at A s i).m_begin + (lefts A s (node_at A s i) lc rc).length) cl
              (weight_sum (lefts A s (node_at A s i) lc rc) % UINT64_SIZE) lv,
            child A ((node_at A s i).m_begin + (lefts A s (node_at A s i) lc rc).length)
              (node_at A s i).m_end cr
              (weight_sum (rights A s (node_at A s i) lc rc) % UINT64_SIZE) rv] ∧
    t.m_vectorsInfo
      = s.m_vectorsInfo.take (node_at A s i).m_begin ++ lefts A s (node_at A s i) lc rc
        ++ rights A s (node_at A s i) lc rc ++ s.m_vectorsInfo.drop (node_at A s i).m_end

end vocabulary_passes

section vocabulary_populated
variable {V S : Type}

/-- Every node has a non-empty range, and every node but the root (the node of index 0) has a
total weight above zero. -/
def Populated (s : tree_clusterizer V S) : Prop :=
  (∀ node ∈ s.m_nodes, node.m_begin < node.m_end) ∧
  (∀ k node, 0 < k → s.m_nodes.get? k = some node → 0 < node.m_total_weight)

end vocabulary_populated

section vocabulary_asserts
variable {V S : Type}

/-- The two `CRNLIB_ASSERT`s of the extraction loop at the node it visits: line 115 when the
node has a left child, line 119 otherwise. -/
def extract_asserts (node : vq_node V S) : Prop :=
  if node.m_left ≠ -1 then node.m_right ≠ -1 else node.m_left = -1 ∧ node.m_right = -1

end vocabulary_asserts

section vocabulary_lookup
variable {V S : Type}

/-- The node `node` holds the unique-vector entry `i`: a position of its range of the live
array refers to `m_vectors[i]`. -/
def holds (s : tree_clusterizer V S) (node : vq_node V S) (i : Nat) : Prop :=
  ∃ j, node.m_begin ≤ j ∧ j < node.m_end ∧
    ∃ vi, s.m_vectorsInfo.get? j = some vi ∧ vi.index = i

end vocabulary_lookup

section vocabulary_scratch
variable {V S : Type}

/-- The variables of a relocation pass without the two staging arrays. -/
def Round.core (r : Round V S) : Round V S :=
  { r with m_vectorsInfoLeft := [], m_vectorsInfoRight := [] }

/-- The variables of the relocation loop without the two staging arrays. -/
def Relocation.core (st : Relocation V S) : Relocation V S :=
  { st with m_vectorsInfoLeft := [], m_vectorsInfoRight := [] }

/-- The instances `s` and `t` agree on the six data members `clear()` empties: the
observations, the unique-vector array, the live array, the codebook, the nodes and the
reverse map.  They may differ in the four scratch arrays. -/
def Alike (s t : tree_clusterizer V S) : Prop :=
  s.m_hist = t.m_hist ∧ s.m_vectors = t.m_vectors ∧ s.m_vectorsInfo = t.m_vectorsInfo ∧
  s.m_codebook = t.m_codebook ∧ s.m_nodes = t.m_nodes ∧
  s.m_node_index_map = t.m_node_index_map

/-- The instances `s` and `t` agree on every data member but the contents of the two staging
arrays, which have the same lengths. -/
def Twin (s t : tree_clusterizer V S) : Prop :=
  Alike s t ∧ s.m_weightedVectors = t.m_weightedVectors ∧
  s.m_weightedDotProducts = t.m_weightedDotProducts ∧
  s.m_vectorsInfoLeft.length = t.m_vectorsInfoLeft.length ∧
  s.m_vectorsInfoRight.length = t.m_vectorsInfoRight.length

/-- The live array runs parallel to the unique-vector array. -/
def Parallel (s : tree_clusterizer V S) : Prop :=
  s.m_vectorsInfo.length = s.m_vectors.length

end vocabulary_scratch

/-! ## More concrete inputs -/

/-! The exact reading in dimension 2. -/

/-- The square root of a rational that is the square of a rational. -/
def exact_sqrt (q : ℚ) : Option ℚ :=
  let r : ℚ := (Nat.sqrt q.num.toNat : ℚ) / (Nat.sqrt q.den : ℚ)
  if r * r = q then some r else none

/-- Modelled from the spec: the scaling to unit length `normalize` of the collaborator vector
type (crn_vec.h is not among the sources), where the exact reading has it: a vector of
rational length is divided by its length; the zero vector, which has no direction, and a
vector of irrational length are left as they are. -/
def unit_length {N : Nat} (v : Vec N) : Vec N :=
  let n := (v.1.map (fun x => x * x)).sum
  if n = 0 then v
  else
    match exact_sqrt n with
    | some r => Vec.map (fun x => x * (1 / r)) v
    | none => v

/-- The exact arithmetic in dimension 2. -/
def exact2 : Arith (Vec 2) ℚ := exactArith 2 unit_length

/-- The observations `(0, 0)` of weight 0 and `(10, -10)`, `(12, -12)` of weight 1. -/
def diagonal_hist : List (Vec 2 × Nat) :=
  [(vec2 0 0, 0), (vec2 10 (-10), 1), (vec2 12 (-12), 1)]

/-- The instance of the observations `(5)` of weight 5 and `(12)` of weight 1 when the growth
loop starts: the root node alone. -/
def two_points_root : tree_clusterizer (Vec 1) ℚ :=
  build_root exact1 (aggregate (train fresh1 [(vec1 5, 5), (vec1 12, 1)]))

/-- The variables of a relocation pass of a node at position 0 when its member loop starts,
the staging arrays having one entry. -/
def pass_start : Round (Vec 1) ℚ :=
  relocation_round exact1 [vec1 1] [vec1 1] [1] 0 (vec1 0) (vec1 2)
    [{ index := 0, weight := 0 }] [{ index := 0, weight := 0 }] []

/-- Three observations of the two vectors `(5)` and `(12)`. -/
def three_obs : List (Vec 1 × Nat) := [(vec1 5, 5), (vec1 12, 1), (vec1 5, 2)]

/-- The instance trained with `three_obs` after `generate_codebook(2, true)`. -/
def three_obs_tree : tree_clusterizer (Vec 1) ℚ :=
  (generate_codebook exact1 (train fresh1 three_obs) 2 true).2

/-- The tree of the observations `(0)` and `(10)` of weight 1 and `(20)` of weight 0 after
`generate_codebook(2, false)`: the root and the leaves holding `(0)` and `(10), (20)`. -/
def zero_weight_tree : tree_clusterizer (Vec 1) ℚ :=
  (generate_codebook exact1 (train fresh1 [(vec1 0, 1), (vec1 10, 1), (vec1 20, 0)]) 2 false).2

section vocabulary_centered
variable {V S : Type}

end vocabulary_centered

section vocabulary_exact
variable {N : Nat}

/-- The component `i` of a vector of the exact reading (zero past its last component). -/
def Vec.comp (v : Vec N) (i : Nat) : ℚ := v.1.getD i 0

end vocabulary_exact

/-! ## Lists -/

section lists
variable {α : Type}

theorem countP_set (q : α → Bool) (l : List α) (i : Nat) (x : α) (h : i < l.length) :
    (l.set i x).countP q + (if q (l.get ⟨i, h⟩) then 1 else 0)
      = l.countP q + (if q x then 1 else 0) := by
  induction l generalizing i with
  | nil => simp at h
  | cons a t ih =>
    cases i with
    | zero => simp [List.countP_cons]; omega
    | succ j =>
      have hj : j < t.length := by simpa using h
      have := ih j hj
      simp only [List.set_cons_succ, List.countP_cons, List.get_cons_succ] at this ⊢
      omega

theorem write_seq_length (l : List α) (i : Nat) (xs : List α) :
    (write_seq l i xs).length = l.length := by
  induction xs generalizing l i with
  | nil => rfl
  | cons x xs ih => simp [write_seq, ih]

theorem write_seq_eq (l : List α) (i : Nat) (xs : List α) (h : i + xs.length ≤ l.length) :
    write_seq l i xs = l.take i ++ xs ++ l.drop (i + xs.length) := by
  induction xs generalizing l i with
  | nil => simp [write_seq]
  | cons x xs ih =>
    have hi : i < l.length := by simp at h; omega
    have h2 : i + 1 + xs.length ≤ (l.set i x).length := by simp at h ⊢; omega
    rw [write_seq, ih _ _ h2]
    simp only [List.length_cons]
    rw [List.drop_set_of_lt x l (by omega : i < i + 1 + xs.length)]
    have e : l.set i x = l.take i ++ x :: l.drop (i + 1) := by
      rw [List.set_eq_take_append_cons_drop, if_pos hi]
    have len : (l.take i).length = i := by simp; omega
    have t : (l.set i x).take (i + 1) = l.take i ++ [x] := by
      rw [e, List.take_append_eq_append_take, len]
      simp
    rw [t, show i + 1 + xs.length = i + (xs.length + 1) by omega]
    simp

theorem slice_length (l : List α) (b e : Nat) (he : e ≤ l.length) :
    (slice l b e).length = e - b := by
  simp [slice, Nat.min_eq_left he]

theorem slice_decompose (l : List α) (b e : Nat) (hb : b ≤ e) :
    l = l.take b ++ slice l b e ++ l.drop e := by
  have h1 : l.take b = (l.take e).take b := by
    rw [List.take_take, Nat.min_eq_left hb]
  rw [slice, h1, List.take_append_drop, List.take_append_drop]

theorem memcpy_commit (infos L R lefts rights : List α) (b e : Nat) (hb : b ≤ e)
    (he : e ≤ infos.length) (hlen : lefts.length + rights.length = e - b)
    (hL : (L.drop b).take lefts.length = lefts) (hR : (R.drop b).take rights.length = rights) :
    memcpy (memcpy infos b L b lefts.length) (b + lefts.length) R b (e - (b + lefts.length))
      = infos.take b ++ lefts ++ rights ++ infos.drop e := by
  have hr : e - (b + lefts.length) = rights.length := by omega
  have hlb : (infos.take b).length = b := by simp; omega
  have h1 : (infos.take b ++ lefts).length = b + lefts.length := by simp [hlb]
  unfold memcpy
  rw [hL, hr, hR]
  rw [List.take_left' h1]
  congr 1
  rw [show b + lefts.length + rights.length = (infos.take b ++ lefts).length + rights.length by
    rw [h1]]
  rw [List.drop_append, List.drop_drop]
  congr 1; omega

theorem filter_length_add {α : Type} (q : α → Bool) (l : List α) :
    (l.filter q).length + (l.filter (fun x => !q x)).length = l.length := by
  induction l with
  | nil => rfl
  | cons a t ih =>
    cases h : q a <;> simp [List.filter_cons, h] <;> omega

theorem take_drop_write_seq {α : Type} (L xs : List α) (b : Nat)
    (h : b + xs.length ≤ L.length) :
    ((write_seq L b xs).drop b).take xs.length = xs := by
  have hb : (L.take b).length = b := by simp; omega
  rw [write_seq_eq L b xs h, List.append_assoc, List.drop_left' hb, List.take_left]

theorem slice_outside (l mid : List α) (b e b' e' : Nat) (hb : b ≤ e) (he : e ≤ l.length)
    (hmid : mid.length = e - b) (h : e' ≤ b ∨ e ≤ b') :
    slice (l.take b ++ mid ++ l.drop e) b' e' = slice l b' e' := by
  have hlb : (l.take b).length = b := by simp; omega
  rcases h with h | h
  · unfold slice
    congr 1
    rw [List.append_assoc, List.take_append_of_le_length (by omega), List.take_take,
      Nat.min_eq_left h]
  · unfold slice
    have hlen : (l.take b ++ mid).length = e := by simp [hlb, hmid]; omega
    rw [List.drop_take, List.drop_take]
    congr 1
    have e1 : b' = (l.take b ++ mid).length + (b' - e) := by omega
    rw [e1, List.drop_append, List.drop_drop, hlen]

theorem slice_left (pre lefts rest : List α) (b : Nat) (hb : pre.length = b) :
    slice (pre ++ lefts ++ rest) b (b + lefts.length) = lefts := by
  unfold slice
  have h : (pre ++ lefts).length = b + lefts.length := by simp [hb]
  rw [List.take_left' h, List.drop_left' hb]

theorem filter_perm_slice (q : α → Bool) (l : List α) (b e : Nat) (hb : b ≤ e) :
    (l.take b ++ (slice l b e).filter q ++ (slice l b e).filter (fun x => !q x) ++ l.drop e).Perm
      l := by
  have h := slice_decompose l b e hb
  have hp : ((slice l b e).filter q ++ (slice l b e).filter (fun x => !q x)).Perm
      (slice l b e) := List.filter_append_perm q (slice l b e)
  conv_rhs => rw [h]
  rw [List.append_assoc (l.take b)]
  exact List.Perm.append_right _ (List.Perm.append_left _ hp)

theorem two_le_countP (q : α → Bool) (l : List α) (i k : Nat) (hi : i < l.length)
    (hk : k < l.length) (hne : i ≠ k) (qi : q (l.get ⟨i, hi⟩) = true)
    (qk : q (l.get ⟨k, hk⟩) = true) : 2 ≤ l.countP q := by
  induction l generalizing i k with
  | nil => simp at hi
  | cons a t ih =>
    rw [List.countP_cons]
    cases i with
    | zero =>
      cases k with
      | zero => exact absurd rfl hne
      | succ k' =>
        have hk' : k' < t.length := by simpa using hk
        have qa : q a = true := qi
        have : 0 < t.countP q :=
          List.countP_pos_iff.mpr ⟨t.get ⟨k', hk'⟩, List.get_mem _ _ _, qk⟩
        rw [if_pos qa]; omega
    | succ i' =>
      cases k with
      | zero =>
        have hi' : i' < t.length := by simpa using hi
        have qa : q a = true := qk
        have : 0 < t.countP q :=
          List.countP_pos_iff.mpr ⟨t.get ⟨i', hi'⟩, List.get_mem _ _ _, qi⟩
        rw [if_pos qa]; omega
      | succ k' =>
        have hi' : i' < t.length := by simpa using hi
        have hk' : k' < t.length := by simpa using hk
        have := ih i' k' hi' hk' (by omega) qi qk
        omega

theorem weight_sum_append (a b : List VectorInfo) :
    weight_sum (a ++ b) = weight_sum a + weight_sum b := by
  simp [weight_sum]

theorem weight_sum_filter (q : VectorInfo → Bool) (l : List VectorInfo) :
    weight_sum (l.filter q) + weight_sum (l.filter (fun x => !q x)) = weight_sum l := by
  induction l with
  | nil => rfl
  | cons a t ih =>
    cases h : q a <;> simp [List.filter_cons, h, weight_sum] at ih ⊢ <;> omega

theorem weight_sum_le (l : List VectorInfo) (h : ∀ vi ∈ l, vi.weight ≤ UINT_MAX) :
    weight_sum l ≤ l.length * UINT_MAX := by
  induction l with
  | nil => simp [weight_sum]
  | cons a t ih =>
    have h1 := h a (List.mem_cons_self _ _)
    have h2 := ih (fun vi hv => h vi (List.mem_cons_of_mem _ hv))
    simp only [weight_sum, List.map_cons, List.sum_cons, List.length_cons] at h2 ⊢
    rw [Nat.add_mul]
    omega

theorem weight_sum_lt (l : List VectorInfo) (h : ∀ vi ∈ l, vi.weight ≤ UINT_MAX)
    (hl : l.length ≤ UINT_SIZE) : weight_sum l < UINT64_SIZE := by
  have h1 := weight_sum_le l h
  have h2 : l.length * UINT_MAX ≤ UINT_SIZE * UINT_MAX := Nat.mul_le_mul_right _ hl
  have h3 : UINT_SIZE * UINT_MAX < UINT64_SIZE := by decide
  omega

theorem slice_self {α : Type} (l : List α) (b : Nat) : slice l b b = [] := by
  unfold slice
  rw [List.drop_eq_nil_iff]
  simp

theorem mem_set_cases {α : Type} (l : List α) (i : Nat) (x a : α) (h : a ∈ l.set i x) :
    (a = x ∧ i < l.length) ∨ ∃ k, ∃ hk : k < l.length, k ≠ i ∧ l.get ⟨k, hk⟩ = a := by
  obtain ⟨k, hk, e⟩ := List.mem_iff_getElem.mp h
  have hk' : k < l.length := by simpa using hk
  rw [List.getElem_set] at e
  by_cases c : i = k
  · rw [if_pos c] at e
    exact Or.inl ⟨e.symm, by omega⟩
  · rw [if_neg c] at e
    exact Or.inr ⟨k, hk', fun hc => c hc.symm, e⟩

theorem slice_full {α : Type} (l : List α) : slice l 0 l.length = l := by
  simp [slice]

theorem getElem_of_map_eq {β : Type} (f : α → β) (l : List α) (l2 : List β)
    (h : l.map f = l2) (i : Nat) (hi : i < l.length) (hi2 : i < l2.length) :
    f l[i] = l2[i] := by
  subst h
  simp

theorem nodup_map_index_inj {β : Type} (f : α → β) (l : List α) (h : (l.map f).Nodup)
    (i j : Nat) (hi : i < l.length) (hj : j < l.length) (e : f l[i] = f l[j]) : i = j := by
  have hi2 : i < (l.map f).length := by simpa using hi
  have hj2 : j < (l.map f).length := by simpa using hj
  have e2 : (l.map f)[i] = (l.map f)[j] := by simpa using e
  exact (h.getElem_inj_iff).mp e2

end lists

/-! ## The splitter -/

section splitter
variable {V S : Type}

theorem assign_member_left (A : Arith V S) (vectors weightedVectors : List V)
    (weightedDotProducts : List S) (lc rc : V) (r0 : Round V S) (vi : VectorInfo)
    (hg : goes_left A vectors lc rc vi = true) :
    let r := assign_member A vectors weightedVectors weightedDotProducts lc rc r0 vi
    r.left_info_index = r0.left_info_index + 1 ∧
    r.right_info_index = r0.right_info_index ∧
    r.m_vectorsInfoLeft = r0.m_vectorsInfoLeft.set r0.left_info_index vi ∧
    r.m_vectorsInfoRight = r0.m_vectorsInfoRight ∧
    r.left_weight = (r0.left_weight + vi.weight) % UINT64_SIZE ∧
    r.right_weight = r0.right_weight := by
  have hg1 : A.lt (A.squared_distance lc (vectors.getD vi.index A.vclear))
      (A.squared_distance rc (vectors.getD vi.index A.vclear)) = true := hg
  simp only [assign_member, hg1, if_true, and_self]

theorem assign_member_right (A : Arith V S) (vectors weightedVectors : List V)
    (weightedDotProducts : List S) (lc rc : V) (r0 : Round V S) (vi : VectorInfo)
    (hg : goes_left A vectors lc rc vi = false) :
    let r := assign_member A vectors weightedVectors weightedDotProducts lc rc r0 vi
    r.left_info_index = r0.left_info_index ∧
    r.right_info_index = r0.right_info_index + 1 ∧
    r.m_vectorsInfoLeft = r0.m_vectorsInfoLeft ∧
    r.m_vectorsInfoRight = r0.m_vectorsInfoRight.set r0.right_info_index vi ∧
    r.left_weight = r0.left_weight ∧
    r.right_weight = (r0.right_weight + vi.weight) % UINT64_SIZE := by
  have hg1 : A.lt (A.squared_distance lc (vectors.getD vi.index A.vclear))
      (A.squared_distance rc (vectors.getD vi.index A.vclear)) = false := hg
  simp only [assign_member, hg1, Bool.false_eq_true, if_false, and_self]

theorem assign_fold (A : Arith V S) (vectors weightedVectors : List V)
    (weightedDotProducts : List S) (lc rc : V) (ms : List VectorInfo) (r0 : Round V S) :
    let r := ms.foldl (assign_member A vectors weightedVectors weightedDotProducts lc rc) r0
    let lefts := ms.filter (goes_left A vectors lc rc)
    let rights := ms.filter (fun vi => !goes_left A vectors lc rc vi)
    r.left_info_index = r0.left_info_index + lefts.length ∧
    r.right_info_index = r0.right_info_index + rights.length ∧
    r.m_vectorsInfoLeft = write_seq r0.m_vectorsInfoLeft r0.left_info_index lefts ∧
    r.m_vectorsInfoRight = write_seq r0.m_vectorsInfoRight r0.right_info_index rights ∧
    r.left_weight % UINT64_SIZE = (r0.left_weight + weight_sum lefts) % UINT64_SIZE ∧
    r.right_weight % UINT64_SIZE = (r0.right_weight + weight_sum rights) % UINT64_SIZE ∧
    (r0.left_weight < UINT64_SIZE → r.left_weight < UINT64_SIZE) ∧
    (r0.right_weight < UINT64_SIZE → r.right_weight < UINT64_SIZE) := by
  induction ms generalizing r0 with
  | nil => simp [write_seq, weight_sum]
  | cons vi rest ih =>
    have hpos : 0 < UINT64_SIZE := by decide
    simp only [List.foldl_cons]
    obtain ⟨h1, h2, h3, h4, h5, h6, h7, h8⟩ :=
      ih (assign_member A vectors weightedVectors weightedDotProducts lc rc r0 vi)
    by_cases hg : goes_left A vectors lc rc vi = true
    · obtain ⟨e1, e2, e3, e4, e5, e6⟩ :=
        assign_member_left A vectors weightedVectors weightedDotProducts lc rc r0 vi hg
      rw [e1] at h1 h3; rw [e2] at h2 h4; rw [e3] at h3; rw [e4] at h4
      rw [e5] at h5 h7; rw [e6] at h6 h8
      simp only [List.filter_cons, hg, if_true, Bool.not_true, Bool.false_eq_true, if_false,
        List.length_cons, write_seq, weight_sum, List.map_cons, List.sum_cons]
      refine ⟨by omega, h2, h3, h4, ?_, h6, fun _ => h7 (Nat.mod_lt _ hpos), h8⟩
      rw [h5, Nat.mod_add_mod, Nat.add_assoc]; rfl
    · have hg0 : goes_left A vectors lc rc vi = false := by simpa using hg
      obtain ⟨e1, e2, e3, e4, e5, e6⟩ :=
        assign_member_right A vectors weightedVectors weightedDotProducts lc rc r0 vi hg0
      rw [e1] at h1 h3; rw [e2] at h2 h4; rw [e3] at h3; rw [e4] at h4
      rw [e5] at h5 h7; rw [e6] at h6 h8
      simp only [List.filter_cons, hg0, Bool.false_eq_true, if_false, Bool.not_false, if_true,
        List.length_cons, write_seq, weight_sum, List.map_cons, List.sum_cons]
      refine ⟨h1, by omega, h3, h4, h5, ?_, h7, fun _ => h8 (Nat.mod_lt _ hpos)⟩
      rw [h6, Nat.mod_add_mod, Nat.add_assoc]; rfl

theorem relocation_round_spec (A : Arith V S) (vectors weightedVectors : List V)
    (weightedDotProducts : List S) (m_begin : Nat) (lc rc : V) (L R ms : List VectorInfo) :
    let r := relocation_round A vectors weightedVectors weightedDotProducts m_begin lc rc L R ms
    r.left_info_index = m_begin + (ms.filter (goes_left A vectors lc rc)).length ∧
    r.m_vectorsInfoLeft = write_seq L m_begin (ms.filter (goes_left A vectors lc rc)) ∧
    r.m_vectorsInfoRight
      = write_seq R m_begin (ms.filter (fun vi => !goes_left A vectors lc rc vi)) ∧
    r.left_weight = weight_sum (ms.filter (goes_left A vectors lc rc)) % UINT64_SIZE ∧
    r.right_weight
      = weight_sum (ms.filter (fun vi => !goes_left A vectors lc rc vi)) % UINT64_SIZE := by
  have hpos : 0 < UINT64_SIZE := by decide
  obtain ⟨h1, _, h3, h4, h5, h6, h7, h8⟩ :=
    assign_fold A vectors weightedVectors weightedDotProducts lc rc ms
      { new_left_child := A.vclear, new_right_child := A.vclear, left_ttsum := A.zero,
        right_ttsum := A.zero, left_weight := 0, right_weight := 0, left_info_index := m_begin,
        right_info_index := m_begin, m_vectorsInfoLeft := L, m_vectorsInfoRight := R }
  have e5 := Nat.mod_eq_of_lt (h7 hpos)
  have e6 := Nat.mod_eq_of_lt (h8 hpos)
  rw [h5] at e5
  rw [h6] at e6
  simp only [Nat.zero_add] at e5 e6
  exact ⟨h1, h3, h4, e5.symm, e6.symm⟩

theorem relocation_loop_spec (A : Arith V S) (vectors weightedVectors : List V)
    (weightedDotProducts : List S) (m_begin : Nat) (ms : List VectorInfo) (n : Nat)
    (st : Relocation V S) :
    let res := relocation_loop A vectors weightedVectors weightedDotProducts m_begin ms n st
    res.2.m_vectorsInfoLeft.length = st.m_vectorsInfoLeft.length ∧
    res.2.m_vectorsInfoRight.length = st.m_vectorsInfoRight.length ∧
    (res.1 = false → (n = 0 ∧ res.2 = st) ∨ FromRound A vectors m_begin ms res.2) := by
  induction n generalizing st with
  | zero => simp [relocation_loop]
  | succ n ih =>
    obtain ⟨r1, r2, r3, r4, r5⟩ := relocation_round_spec A vectors weightedVectors
      weightedDotProducts m_begin st.left_child st.right_child st.m_vectorsInfoLeft
      st.m_vectorsInfoRight ms
    simp only [relocation_loop]
    split_ifs with h0 h1 h2
    · refine ⟨?_, ?_, ?_⟩
      · simp only [r2, write_seq_length]
      · simp only [r3, write_seq_length]
      · intro h; simp at h
    · refine ⟨?_, ?_, fun _ => Or.inr ?_⟩
      · simp only [r2, write_seq_length]
      · simp only [r3, write_seq_length]
      · refine ⟨st.left_child, st.right_child, st.m_vectorsInfoLeft, st.m_vectorsInfoRight,
          r1, r2, r3, r4, r5, ?_, ?_⟩
        · exact fun h => h0 (Or.inl h)
        · exact fun h => h0 (Or.inr h)
    · refine ⟨?_, ?_, fun _ => Or.inr ?_⟩
      · simp only [r2, write_seq_length]
      · simp only [r3, write_seq_length]
      · refine ⟨st.left_child, st.right_child, st.m_vectorsInfoLeft, st.m_vectorsInfoRight,
          r1, r2, r3, r4, r5, ?_, ?_⟩
        · exact fun h => h0 (Or.inl h)
        · exact fun h => h0 (Or.inr h)
    · obtain ⟨i1, i2, i3⟩ := ih _
      refine ⟨?_, ?_, fun hres => Or.inr ?_⟩
      · rw [i1]; simp only [r2, write_seq_length]
      · rw [i2]; simp only [r3, write_seq_length]
      · rcases i3 hres with ⟨_, h⟩ | h
        · rw [h]
          refine ⟨st.left_child, st.right_child, st.m_vectorsInfoLeft, st.m_vectorsInfoRight,
            r1, r2, r3, r4, r5, ?_, ?_⟩
          · exact fun h => h0 (Or.inl h)
          · exact fun h => h0 (Or.inr h)
        · exact h

theorem split_node_nodes (A : Arith V S) (s : tree_clusterizer V S) (i : Nat) :
    (split_node A s i).m_nodes = s.m_nodes ∨
    (split_node A s i).m_nodes
      = s.m_nodes.set i { s.m_nodes.getD i (vq_node.new A) with m_unsplittable := true } ∨
    ∃ l r : vq_node V S, l.is_leaf ∧ r.is_leaf ∧
      (split_node A s i).m_nodes
        = s.m_nodes.set i { s.m_nodes.getD i (vq_node.new A) with
            m_left := (s.m_nodes.length : Int), m_right := ((s.m_nodes.length + 1 : Nat) : Int) }
          ++ [l, r] := by
  unfold split_node
  simp only []
  split_ifs with h1 h2
  · exact Or.inl rfl
  · exact Or.inr (Or.inl rfl)
  · refine Or.inr (Or.inr ⟨_, _, ?_, ?_, rfl⟩) <;> simp [vq_node.is_leaf, vq_node.new]

theorem find_worst_cases (A : Arith V S) (nodes : List (vq_node V S)) (i : Nat) (acc : Int × S) :
    find_worst A nodes i acc = acc ∨
    ∃ k, ∃ h : k < nodes.length,
      find_worst A nodes i acc = (((i + k : Nat) : Int), (nodes.get ⟨k, h⟩).m_variance) ∧
      (nodes.get ⟨k, h⟩).m_left = -1 ∧ (nodes.get ⟨k, h⟩).m_unsplittable = false := by
  induction nodes generalizing i acc with
  | nil => exact Or.inl rfl
  | cons node rest ih =>
    have lift : ∀ acc1 : Int × S,
        (∃ k, ∃ h : k < rest.length,
          find_worst A rest (i + 1) acc1
            = (((i + 1 + k : Nat) : Int), (rest.get ⟨k, h⟩).m_variance) ∧
          (rest.get ⟨k, h⟩).m_left = -1 ∧ (rest.get ⟨k, h⟩).m_unsplittable = false) →
        ∃ k, ∃ h : k < (node :: rest).length,
          find_worst A rest (i + 1) acc1
            = (((i + k : Nat) : Int), ((node :: rest).get ⟨k, h⟩).m_variance) ∧
          ((node :: rest).get ⟨k, h⟩).m_left = -1 ∧
          ((node :: rest).get ⟨k, h⟩).m_unsplittable = false := by
      rintro acc1 ⟨k, hk, h1, h2, h3⟩
      refine ⟨k + 1, by simpa using hk, ?_, ?_, ?_⟩
      · rw [h1]; simp only [List.get_cons_succ]; congr 2; omega
      · simpa using h2
      · simpa using h3
    unfold find_worst
    split_ifs with h1 h2
    · rcases ih (i + 1) acc with h | h
      · exact Or.inl h
      · exact Or.inr (lift acc h)
    · rcases ih (i + 1) ((i : Int), node.m_variance) with h | h
      · refine Or.inr ⟨0, by simp, ?_, ?_, ?_⟩
        · rw [h]; simp
        · show node.m_left = -1
          by_contra hc; exact h1 (Or.inl hc)
        · show node.m_unsplittable = false
          cases hu : node.m_unsplittable with
          | false => rfl
          | true => exact absurd (Or.inr hu) h1
      · exact Or.inr (lift _ h)
    · rcases ih (i + 1) acc with h | h
      · exact Or.inl h
      · exact Or.inr (lift acc h)

theorem split_node_eq (A : Arith V S) (s : tree_clusterizer V S) (i : Nat) :
    split_node A s i =
      if (node_at A s i).m_begin + 1 = (node_at A s i).m_end then s
      else if (relocate A s i).1 = true then
        { s with
          m_nodes := s.m_nodes.set i { node_at A s i with m_unsplittable := true }
          m_vectorsInfoLeft := (relocate A s i).2.m_vectorsInfoLeft
          m_vectorsInfoRight := (relocate A s i).2.m_vectorsInfoRight }
      else
        { s with
          m_nodes := s.m_nodes.set i { node_at A s i with
              m_left := (s.m_nodes.length : Int),
              m_right := ((s.m_nodes.length + 1 : Nat) : Int) }
            ++ [child A (node_at A s i).m_begin (relocate A s i).2.left_info_index
                  (relocate A s i).2.left_child (relocate A s i).2.left_weight
                  (relocate A s i).2.left_variance,
                child A (relocate A s i).2.left_info_index (node_at A s i).m_end
                  (relocate A s i).2.right_child (relocate A s i).2.right_weight
                  (relocate A s i).2.right_variance]
          m_vectorsInfo :=
            memcpy
              (memcpy s.m_vectorsInfo (node_at A s i).m_begin
                (relocate A s i).2.m_vectorsInfoLeft (node_at A s i).m_begin
                ((relocate A s i).2.left_info_index - (node_at A s i).m_begin))
              (relocate A s i).2.left_info_index (relocate A s i).2.m_vectorsInfoRight
              (node_at A s i).m_begin
              ((node_at A s i).m_end - (relocate A s i).2.left_info_index)
          m_vectorsInfoLeft := (relocate A s i).2.m_vectorsInfoLeft
          m_vectorsInfoRight := (relocate A s i).2.m_vectorsInfoRight } := rfl

theorem relocate_spec (A : Arith V S) (s : tree_clusterizer V S) (i : Nat) :
    (relocate A s i).2.m_vectorsInfoLeft.length = s.m_vectorsInfoLeft.length ∧
    (relocate A s i).2.m_vectorsInfoRight.length = s.m_vectorsInfoRight.length ∧
    ((relocate A s i).1 = false →
      FromRound A s.m_vectors (node_at A s i).m_begin (members s (node_at A s i))
        (relocate A s i).2) := by
  obtain ⟨l1, l2, l3⟩ := relocation_loop_spec A s.m_vectors s.m_weightedVectors
    s.m_weightedDotProducts (node_at A s i).m_begin (members s (node_at A s i)) cMaxLoops
    { left_child := (seeds A s.m_vectors s.m_weightedVectors (node_at A s i)
        (members s (node_at A s i))).1,
      right_child := (seeds A s.m_vectors s.m_weightedVectors (node_at A s i)
        (members s (node_at A s i))).2,
      left_weight := 0, right_weight := 0,
      left_info_index := 0, right_info_index := 0, prev_total_variance := A.huge,
      left_variance := A.zero, right_variance := A.zero,
      m_vectorsInfoLeft := s.m_vectorsInfoLeft, m_vectorsInfoRight := s.m_vectorsInfoRight }
  refine ⟨l1, l2, fun h => ?_⟩
  rcases l3 h with ⟨h0, _⟩ | h
  · exact absurd h0 (by decide)
  · exact h

theorem split_node_frame (A : Arith V S) (s : tree_clusterizer V S) (i : Nat) :
    Frame s (split_node A s i) := by
  obtain ⟨l1, l2, _⟩ := relocate_spec A s i
  rw [split_node_eq]
  unfold Frame
  split_ifs with h1 h2
  · simp
  · exact ⟨rfl, rfl, rfl, rfl, rfl, rfl, l1, l2⟩
  · exact ⟨rfl, rfl, rfl, rfl, rfl, rfl, l1, l2⟩

theorem split_node_spec (A : Arith V S) (s : tree_clusterizer V S) (i : Nat)
    (hb : (node_at A s i).m_begin ≤ (node_at A s i).m_end)
    (he : (node_at A s i).m_end ≤ s.m_vectorsInfo.length)
    (hL : (node_at A s i).m_end ≤ s.m_vectorsInfoLeft.length)
    (hR : (node_at A s i).m_end ≤ s.m_vectorsInfoRight.length) :
    split_node A s i = s ∨ Unsplit A s (split_node A s i) i ∨
      Committed A s (split_node A s i) i := by
  obtain ⟨l1, l2, l3⟩ := relocate_spec A s i
  rw [split_node_eq]
  split_ifs with h1 h2
  · exact Or.inl rfl
  · exact Or.inr (Or.inl ⟨h1, rfl, rfl⟩)
  · right; right
    have h2f := Bool.eq_false_iff.mpr h2
    obtain ⟨lc, rc, L0, R0, f1, f2, f3, f4, f5, f6, f7⟩ := l3 h2f
    replace f1 : (relocate A s i).2.left_info_index
        = (node_at A s i).m_begin + (lefts A s (node_at A s i) lc rc).length := f1
    replace f2 : (relocate A s i).2.m_vectorsInfoLeft
        = write_seq L0 (node_at A s i).m_begin (lefts A s (node_at A s i) lc rc) := f2
    replace f3 : (relocate A s i).2.m_vectorsInfoRight
        = write_seq R0 (node_at A s i).m_begin (rights A s (node_at A s i) lc rc) := f3
    replace f4 : (relocate A s i).2.left_weight
        = weight_sum (lefts A s (node_at A s i) lc rc) % UINT64_SIZE := f4
    replace f5 : (relocate A s i).2.right_weight
        = weight_sum (rights A s (node_at A s i) lc rc) % UINT64_SIZE := f5
    have hms : (members s (node_at A s i)).length
        = (node_at A s i).m_end - (node_at A s i).m_begin := slice_length _ _ _ he
    have hsum : (lefts A s (node_at A s i) lc rc).length
        + (rights A s (node_at A s i) lc rc).length = (members s (node_at A s i)).length :=
      filter_length_add (goes_left A s.m_vectors lc rc) (members s (node_at A s i))
    have hL0 : L0.length = s.m_vectorsInfoLeft.length := by
      rw [← l1, f2, write_seq_length]
    have hR0 : R0.length = s.m_vectorsInfoRight.length := by
      rw [← l2, f3, write_seq_length]
    refine ⟨h1, lc, rc, (relocate A s i).2.left_child, (relocate A s i).2.right_child,
      (relocate A s i).2.left_variance, (relocate A s i).2.right_variance, ?_, ?_, ?_, ?_⟩
    · rw [← f4]; exact f6
    · rw [← f5]; exact f7
    · simp only [f1, f4, f5]
    · simp only [f1, f2, f3]
      have e1 : (node_at A s i).m_begin + (lefts A s (node_at A s i) lc rc).length
          - (node_at A s i).m_begin = (lefts A s (node_at A s i) lc rc).length := by
        omega
      rw [e1]
      exact memcpy_commit s.m_vectorsInfo _ _ _ _ _ _ hb he (by omega)
        (take_drop_write_seq _ _ _ (by omega)) (take_drop_write_seq _ _ _ (by omega))

theorem node_at_mem (A : Arith V S) (s : tree_clusterizer V S) (i : Nat)
    (hi : i < s.m_nodes.length) : node_at A s i ∈ s.m_nodes := by
  unfold node_at
  rw [List.getD_eq_getElem _ _ hi]
  exact List.getElem_mem hi

theorem node_at_get (A : Arith V S) (s : tree_clusterizer V S) (i : Nat)
    (hi : i < s.m_nodes.length) : s.m_nodes.get ⟨i, hi⟩ = node_at A s i := by
  unfold node_at
  rw [List.getD_eq_getElem _ _ hi]
  rfl

theorem committed_lengths (A : Arith V S) (s : tree_clusterizer V S) (p : vq_node V S)
    (lc rc : V) (he : p.m_end ≤ s.m_vectorsInfo.length) :
    (lefts A s p lc rc).length + (rights A s p lc rc).length = p.m_end - p.m_begin := by
  have h := filter_length_add (goes_left A s.m_vectors lc rc) (members s p)
  have h2 : (members s p).length = p.m_end - p.m_begin := slice_length _ _ _ he
  unfold lefts rights
  omega

theorem weight_sum_pos_length (l : List VectorInfo) (h : weight_sum l % UINT64_SIZE ≠ 0) :
    0 < l.length := by
  cases l with
  | nil => simp [weight_sum] at h
  | cons a t => simp

theorem split_node_partitioned (A : Arith V S) (s : tree_clusterizer V S) (i : Nat)
    (h : Partitioned s) (hi : i < s.m_nodes.length) (hleaf : (node_at A s i).m_left = -1) :
    Partitioned (split_node A s i) := by
  have hmem := node_at_mem A s i hi
  obtain ⟨hb, he⟩ := h.range _ hmem
  have hright : (node_at A s i).m_right = -1 := (h.links _ hmem).mp hleaf
  obtain ⟨f1, f2, f3, f4, f5, f6, f7, f8⟩ := split_node_frame A s i
  have hspec := split_node_spec A s i hb (by rw [h.info_len]; exact he)
    (by rw [h.left_len]; exact he) (by rw [h.right_len]; exact he)
  rcases hspec with hs | ⟨_, hn, hinfo⟩ | ⟨_, lc, rc, cl, cr, lv, rv, hwl, hwr, hn, hinfo⟩
  · rw [hs]; exact h
  · refine ⟨?_, ?_, ?_, ?_, ?_, ?_⟩
    · rw [hinfo, f2]; exact h.info_len
    · rw [f7, f2]; exact h.left_len
    · rw [f8, f2]; exact h.right_len
    · intro node hnode
      rw [hn] at hnode
      rw [f2]
      rcases List.mem_or_eq_of_mem_set hnode with h1 | h1
      · exact h.range _ h1
      · rw [h1]; exact ⟨hb, he⟩
    · intro node hnode
      rw [hn] at hnode
      rcases List.mem_or_eq_of_mem_set hnode with h1 | h1
      · exact h.links _ h1
      · rw [h1]
        show (node_at A s i).m_left = -1 ↔ (node_at A s i).m_right = -1
        exact h.links _ hmem
    · intro j
      rw [hn, f2, ← h.cover j]
      have hc := countP_set (covers j) s.m_nodes i
        { node_at A s i with m_unsplittable := true } hi
      rw [node_at_get A s i hi] at hc
      have e : covers j { node_at A s i with m_unsplittable := true } = covers j (node_at A s i) :=
        rfl
      rw [e] at hc
      omega
  · have hlen := committed_lengths A s (node_at A s i) lc rc (by rw [h.info_len]; exact he)
    have hl1 := weight_sum_pos_length _ hwl
    have hr1 := weight_sum_pos_length _ hwr
    refine ⟨?_, ?_, ?_, ?_, ?_, ?_⟩
    · rw [hinfo, f2, ← h.info_len]
      have : (List.take (node_at A s i).m_begin s.m_vectorsInfo).length
          = (node_at A s i).m_begin := by
        rw [List.length_take, h.info_len]; omega
      simp only [List.length_append, List.length_drop, this]
      rw [h.info_len]
      omega
    · rw [f7, f2]; exact h.left_len
    · rw [f8, f2]; exact h.right_len
    · intro node hnode
      rw [hn] at hnode
      rw [f2]
      rcases List.mem_append.mp hnode with h1 | h1
      · rcases List.mem_or_eq_of_mem_set h1 with h2 | h2
        · exact h.range _ h2
        · rw [h2]; exact ⟨hb, he⟩
      · simp only [List.mem_cons, List.mem_singleton, List.not_mem_nil, or_false] at h1
        rcases h1 with h1 | h1
        · rw [h1]; simp only [child]; omega
        · rw [h1]; simp only [child]; omega
    · intro node hnode
      rw [hn] at hnode
      rcases List.mem_append.mp hnode with h1 | h1
      · rcases List.mem_or_eq_of_mem_set h1 with h2 | h2
        · exact h.links _ h2
        · rw [h2]
          constructor
          · intro hx
            have hx' : (s.m_nodes.length : Int) = -1 := hx
            omega
          · intro hx
            have hx' : ((s.m_nodes.length + 1 : Nat) : Int) = -1 := hx
            omega
      · simp only [List.mem_cons, List.mem_singleton, List.not_mem_nil, or_false] at h1
        rcases h1 with h1 | h1
        · rw [h1]; simp [child, vq_node.new]
        · rw [h1]; simp [child, vq_node.new]
    · intro j
      rw [hn, f2, ← h.cover j]
      have hc := countP_set (covers j) s.m_nodes i
        { node_at A s i with
          m_left := (s.m_nodes.length : Int), m_right := ((s.m_nodes.length + 1 : Nat) : Int) } hi
      rw [node_at_get A s i hi] at hc
      have e1 : covers j { node_at A s i with
          m_left := (s.m_nodes.length : Int), m_right := ((s.m_nodes.length + 1 : Nat) : Int) }
          = false := by
        simp only [covers, vq_node.is_leaf, decide_eq_false_iff_not]
        rintro ⟨⟨hx, _⟩, _⟩
        omega
      have e2 : covers j (node_at A s i)
          = decide ((node_at A s i).m_begin ≤ j ∧ j < (node_at A s i).m_end) := by
        simp [covers, vq_node.is_leaf, hleaf, hright]
      have e3 : ∀ b e : Nat, ∀ c : V, ∀ w : Nat, ∀ v : S,
          covers j (child A b e c w v) = decide (b ≤ j ∧ j < e) := by
        intro b e c w v
        simp [covers, vq_node.is_leaf, child, vq_node.new]
      rw [e1, e2] at hc
      rw [List.countP_append]
      simp only [List.countP_cons, List.countP_nil, e3]
      simp only [Nat.zero_add, decide_eq_true_eq] at hc ⊢
      simp only [Bool.false_eq_true, if_false, Nat.add_zero] at hc
      rw [← hc]
      by_cases c1 : (node_at A s i).m_begin ≤ j <;>
      by_cases c2 : j < (node_at A s i).m_end <;>
      by_cases c3 : j < (node_at A s i).m_begin + (lefts A s (node_at A s i) lc rc).length <;>
      simp [c1, c2, c3] <;> omega

theorem split_node_perm (A : Arith V S) (s : tree_clusterizer V S) (i : Nat)
    (h : Partitioned s) (hi : i < s.m_nodes.length) :
    (split_node A s i).m_vectorsInfo.Perm s.m_vectorsInfo := by
  have hmem := node_at_mem A s i hi
  obtain ⟨hb, he⟩ := h.range _ hmem
  have hspec := split_node_spec A s i hb (by rw [h.info_len]; exact he)
    (by rw [h.left_len]; exact he) (by rw [h.right_len]; exact he)
  rcases hspec with hs | ⟨_, _, hinfo⟩ | ⟨_, lc, rc, cl, cr, lv, rv, _, _, _, hinfo⟩
  · rw [hs]
  · rw [hinfo]
  · rw [hinfo]
    exact filter_perm_slice (goes_left A s.m_vectors lc rc) s.m_vectorsInfo _ _ hb

theorem get?_set_weight (nodes : List (vq_node V S)) (i : Nat) (x p : vq_node V S)
    (hp : nodes.get? i = some p) (hx : x.m_total_weight = p.m_total_weight)
    (l : Nat) (nl : vq_node V S) (hl : nodes.get? l = some nl) (tail : List (vq_node V S)) :
    ∃ nl', (nodes.set i x ++ tail).get? l = some nl' ∧ nl'.m_total_weight = nl.m_total_weight := by
  have hlen : l < nodes.length := by
    rw [List.get?_eq_some] at hl
    exact hl.1
  have hlen' : l < (nodes.set i x).length := by simpa using hlen
  rw [List.get?_eq_getElem?, List.getElem?_append_left hlen', List.getElem?_set]
  by_cases e : i = l
  · rw [if_pos e]
    have : i < nodes.length := by omega
    rw [if_pos this]
    refine ⟨x, rfl, ?_⟩
    rw [hx]
    rw [e] at hp
    rw [hp] at hl
    injection hl with hl
    rw [hl]
  · rw [if_neg e]
    rw [List.get?_eq_getElem?] at hl
    exact ⟨nl, hl, rfl⟩

theorem leaf_range_disjoint (A : Arith V S) (s : tree_clusterizer V S) (h : Partitioned s)
    (i k : Nat) (hi : i < s.m_nodes.length) (hk : k < s.m_nodes.length) (hne : k ≠ i)
    (hli : (node_at A s i).is_leaf) (hlk : (node_at A s k).is_leaf)
    (hnonempty : (node_at A s i).m_begin < (node_at A s i).m_end) :
    (node_at A s k).m_begin = (node_at A s k).m_end ∨
    (node_at A s k).m_end ≤ (node_at A s i).m_begin ∨
    (node_at A s i).m_end ≤ (node_at A s k).m_begin := by
  by_contra hc
  rw [not_or, not_or] at hc
  obtain ⟨c1, c2, c3⟩ := hc
  obtain ⟨hbk, hek⟩ := h.range _ (node_at_mem A s k hk)
  obtain ⟨hbi, hei⟩ := h.range _ (node_at_mem A s i hi)
  have hcov : ∀ (x : Nat) (hx : x < s.m_nodes.length) (j : Nat), (node_at A s x).is_leaf →
      (node_at A s x).m_begin ≤ j → j < (node_at A s x).m_end →
      covers j (s.m_nodes.get ⟨x, hx⟩) = true := by
    intro x hx j h1 h2 h3
    rw [node_at_get A s x hx]
    simp [covers, h1, h2, h3]
  have h2 := two_le_countP (covers (max (node_at A s i).m_begin (node_at A s k).m_begin))
    s.m_nodes i k hi hk (Ne.symm hne)
    (hcov i hi _ hli (by omega) (by omega)) (hcov k hk _ hlk (by omega) (by omega))
  have h3 := h.cover (max (node_at A s i).m_begin (node_at A s k).m_begin)
  split_ifs at h3 <;> omega

theorem split_node_weighted (A : Arith V S) (s : tree_clusterizer V S) (i : Nat)
    (h : Partitioned s) (hw : Weighted s) (hi : i < s.m_nodes.length)
    (hleaf : (node_at A s i).m_left = -1) : Weighted (split_node A s i) := by
  have hmem := node_at_mem A s i hi
  obtain ⟨hb, he⟩ := h.range _ hmem
  have hright : (node_at A s i).m_right = -1 := (h.links _ hmem).mp hleaf
  have hpleaf : (node_at A s i).is_leaf := ⟨hleaf, hright⟩
  have hget : s.m_nodes.get? i = some (node_at A s i) := by
    rw [List.get?_eq_get hi, node_at_get A s i hi]
  have hspec := split_node_spec A s i hb (by rw [h.info_len]; exact he)
    (by rw [h.left_len]; exact he) (by rw [h.right_len]; exact he)
  rcases hspec with hs | ⟨_, hn, hinfo⟩ | ⟨_, lc, rc, cl, cr, lv, rv, hwl, hwr, hn, hinfo⟩
  · rw [hs]; exact hw
  · refine ⟨?_, ?_, ?_, ?_, ?_⟩
    · rw [hinfo]; exact hw.bound
    · rw [hinfo]; exact hw.size
    · intro node hnode
      rw [hn] at hnode
      rcases List.mem_or_eq_of_mem_set hnode with h1 | h1
      · exact hw.total node h1
      · rw [h1]
        exact hw.total (node_at A s i) hmem
    · intro node hnode hl
      have hm : members (split_node A s i) node = members s node := by
        unfold members; rw [hinfo]
      rw [hm]
      rw [hn] at hnode
      rcases List.mem_or_eq_of_mem_set hnode with h1 | h1
      · exact hw.leaf node h1 hl
      · rw [h1]
        exact hw.leaf (node_at A s i) hmem hpleaf
    · intro node hnode hl
      rw [hn] at hnode
      rcases List.mem_or_eq_of_mem_set hnode with h1 | h1
      · obtain ⟨l, r, nl, nr, e1, e2, e3, e4, e5⟩ := hw.inner node h1 hl
        obtain ⟨nl', g1, g2⟩ := get?_set_weight s.m_nodes i
          { node_at A s i with m_unsplittable := true } _ hget rfl l nl e3 []
        obtain ⟨nr', g3, g4⟩ := get?_set_weight s.m_nodes i
          { node_at A s i with m_unsplittable := true } _ hget rfl r nr e4 []
        rw [List.append_nil] at g1 g3
        refine ⟨l, r, nl', nr', e1, e2, ?_, ?_, ?_⟩
        · rw [hn]; exact g1
        · rw [hn]; exact g3
        · rw [g2, g4]; exact e5
      · rw [h1] at hl
        exact absurd hleaf hl
  · have hilen : s.m_vectorsInfo.length = s.m_vectors.length := h.info_len
    have hlen := committed_lengths A s (node_at A s i) lc rc (by rw [hilen]; exact he)
    have hl1 := weight_sum_pos_length _ hwl
    have hr1 := weight_sum_pos_length _ hwr
    have hperm : (split_node A s i).m_vectorsInfo.Perm s.m_vectorsInfo :=
      split_node_perm A s i h hi
    have hpre : (List.take (node_at A s i).m_begin s.m_vectorsInfo).length
        = (node_at A s i).m_begin := by
      rw [List.length_take, hilen]; omega
    have hsub : ∀ q : VectorInfo → Bool,
        weight_sum ((members s (node_at A s i)).filter q) < UINT64_SIZE := by
      intro q
      apply weight_sum_lt
      · intro vi hvi
        have h1 : vi ∈ members s (node_at A s i) := List.mem_of_mem_filter hvi
        have h2 : vi ∈ s.m_vectorsInfo :=
          List.mem_of_mem_take (List.mem_of_mem_drop h1)
        exact hw.bound vi h2
      · have h1 := List.length_filter_le q (members s (node_at A s i))
        have h2 : (members s (node_at A s i)).length
            = (node_at A s i).m_end - (node_at A s i).m_begin :=
          slice_length _ _ _ (by rw [hilen]; exact he)
        have h3 := hw.size
        omega
    have hwl' : weight_sum (lefts A s (node_at A s i) lc rc) % UINT64_SIZE
        = weight_sum (lefts A s (node_at A s i) lc rc) := Nat.mod_eq_of_lt (hsub _)
    have hwr' : weight_sum (rights A s (node_at A s i) lc rc) % UINT64_SIZE
        = weight_sum (rights A s (node_at A s i) lc rc) := Nat.mod_eq_of_lt (hsub _)
    have hsum : weight_sum (lefts A s (node_at A s i) lc rc)
        + weight_sum (rights A s (node_at A s i) lc rc)
        = (node_at A s i).m_total_weight := by
      rw [hw.leaf _ hmem hpleaf]
      exact weight_sum_filter _ _
    have hlenset : (s.m_nodes.set i { node_at A s i with
        m_left := (s.m_nodes.length : Int),
        m_right := ((s.m_nodes.length + 1 : Nat) : Int) }).length = s.m_nodes.length := by
      simp
    refine ⟨?_, ?_, ?_, ?_, ?_⟩
    · intro vi hvi
      exact hw.bound vi (hperm.mem_iff.mp hvi)
    · rw [hperm.length_eq]; exact hw.size
    · intro node hnode
      rw [hn] at hnode
      rcases List.mem_append.mp hnode with h1 | h1
      · rcases List.mem_or_eq_of_mem_set h1 with h2 | h2
        · exact hw.total node h2
        · rw [h2]
          exact hw.total (node_at A s i) hmem
      · simp only [List.mem_cons, List.mem_singleton, List.not_mem_nil, or_false] at h1
        rcases h1 with h1 | h1
        · rw [h1]; exact Nat.mod_lt _ (by decide)
        · rw [h1]; exact Nat.mod_lt _ (by decide)
    · intro node hnode hl
      rw [hn] at hnode
      rcases List.mem_append.mp hnode with h1 | h1
      · rcases mem_set_cases _ _ _ _ h1 with ⟨h2, _⟩ | ⟨k, hk, hki, h2⟩
        · rw [h2] at hl
          have : (s.m_nodes.length : Int) = -1 := hl.1
          omega
        · rw [node_at_get A s k hk] at h2
          have hlk : (node_at A s k).is_leaf := by rw [h2]; exact hl
          have hd := leaf_range_disjoint A s h i k hi hk hki hpleaf hlk (by omega)
          have hm : members (split_node A s i) node = members s node := by
            unfold members
            rw [hinfo, ← h2]
            rcases hd with d | d
            · rw [d, slice_self, slice_self]
            · rw [List.append_assoc (List.take _ _)]
              exact slice_outside _ _ _ _ _ _ hb (by rw [hilen]; exact he)
                (by rw [List.length_append]; exact hlen) d
          rw [hm]
          exact hw.leaf node (by rw [← h2]; exact node_at_mem A s k hk) hl
      · simp only [List.mem_cons, List.mem_singleton, List.not_mem_nil, or_false] at h1
        rcases h1 with h1 | h1
        · rw [h1]
          unfold members
          rw [hinfo]
          simp only [child]
          rw [List.append_assoc (List.take _ _ ++ _), slice_left _ _ _ _ hpre, hwl']
        · rw [h1]
          unfold members
          rw [hinfo]
          simp only [child]
          have e : (node_at A s i).m_end = (node_at A s i).m_begin
              + (lefts A s (node_at A s i) lc rc).length
              + (rights A s (node_at A s i) lc rc).length := by omega
          conv_lhs => rw [hwr']
          conv_rhs => rw [e]
          rw [slice_left _ _ _ _ (by rw [List.length_append, hpre])]
    · intro node hnode hl
      rw [hn] at hnode
      rcases List.mem_append.mp hnode with h1 | h1
      · rcases mem_set_cases _ _ _ _ h1 with ⟨h2, _⟩ | ⟨k, hk, hki, h2⟩
        · rw [h2]
          refine ⟨s.m_nodes.length, s.m_nodes.length + 1,
            child A (node_at A s i).m_begin
              ((node_at A s i).m_begin + (lefts A s (node_at A s i) lc rc).length) cl
              (weight_sum (lefts A s (node_at A s i) lc rc) % UINT64_SIZE) lv,
            child A ((node_at A s i).m_begin + (lefts A s (node_at A s i) lc rc).length)
              (node_at A s i).m_end cr
              (weight_sum (rights A s (node_at A s i) lc rc) % UINT64_SIZE) rv,
            rfl, rfl, ?_, ?_, ?_⟩
          · rw [hn, List.get?_eq_getElem?, List.getElem?_append_right (by rw [hlenset]),
              hlenset, Nat.sub_self]
            rfl
          · rw [hn, List.get?_eq_getElem?, List.getElem?_append_right (by rw [hlenset]; omega),
              hlenset, Nat.add_sub_cancel_left]
            rfl
          · simp only [child]
            rw [hwl', hwr']
            exact hsum
        · have hnm : node ∈ s.m_nodes := by rw [← h2]; exact List.get_mem _ _ _
          obtain ⟨l, r, nl, nr, e1, e2, e3, e4, e5⟩ := hw.inner node hnm hl
          obtain ⟨nl', g1, g2⟩ := get?_set_weight s.m_nodes i
            { node_at A s i with
              m_left := (s.m_nodes.length : Int),
              m_right := ((s.m_nodes.length + 1 : Nat) : Int) } _ hget rfl l nl e3
            [child A (node_at A s i).m_begin
              ((node_at A s i).m_begin + (lefts A s (node_at A s i) lc rc).length) cl
              (weight_sum (lefts A s (node_at A s i) lc rc) % UINT64_SIZE) lv,
            child A ((node_at A s i).m_begin + (lefts A s (node_at A s i) lc rc).length)
              (node_at A s i).m_end cr
              (weight_sum (rights A s (node_at A s i) lc rc) % UINT64_SIZE) rv]
          obtain ⟨nr', g3, g4⟩ := get?_set_weight s.m_nodes i
            { node_at A s i with
              m_left := (s.m_nodes.length : Int),
              m_right := ((s.m_nodes.length + 1 : Nat) : Int) } _ hget rfl r nr e4
            [child A (node_at A s i).m_begin
              ((node_at A s i).m_begin + (lefts A s (node_at A s i) lc rc).length) cl
              (weight_sum (lefts A s (node_at A s i) lc rc) % UINT64_SIZE) lv,
            child A ((node_at A s i).m_begin + (lefts A s (node_at A s i) lc rc).length)
              (node_at A s i).m_end cr
              (weight_sum (rights A s (node_at A s i) lc rc) % UINT64_SIZE) rv]
          refine ⟨l, r, nl', nr', e1, e2, ?_, ?_, ?_⟩
          · rw [hn]; exact g1
          · rw [hn]; exact g3
          · rw [g2, g4]; exact e5
      · simp only [List.mem_cons, List.mem_singleton, List.not_mem_nil, or_false] at h1
        rcases h1 with h1 | h1
        · rw [h1] at hl; exact absurd rfl hl
        · rw [h1] at hl; exact absurd rfl hl

end splitter

/-! ## The growth loop -/

section growth
variable {V S : Type}

theorem find_worst_valid (A : Arith V S) (s : tree_clusterizer V S)
    (h : ¬ A.le (find_worst A s.m_nodes 0 (-1, A.neg_one)).2 A.zero = true) :
    (find_worst A s.m_nodes 0 (-1, A.neg_one)).1.toNat < s.m_nodes.length ∧
    (node_at A s (find_worst A s.m_nodes 0 (-1, A.neg_one)).1.toNat).m_left = -1 ∧
    (node_at A s (find_worst A s.m_nodes 0 (-1, A.neg_one)).1.toNat).m_unsplittable = false ∧
    (find_worst A s.m_nodes 0 (-1, A.neg_one)).2
      = (node_at A s (find_worst A s.m_nodes 0 (-1, A.neg_one)).1.toNat).m_variance := by
  rcases find_worst_cases A s.m_nodes 0 (-1, A.neg_one) with hc | ⟨k, hk, hc, hl, hu⟩
  · rw [hc] at h
    exact absurd A.le_neg_one_zero h
  · rw [hc]
    have e : (((0 + k : Nat) : Int)).toNat = k := by simp
    simp only [e]
    rw [← node_at_get A s k hk]
    exact ⟨hk, hl, hu, rfl⟩

theorem growth_passes_induct (A : Arith V S) (P : tree_clusterizer V S → Prop)
    (hstep : ∀ s i, P s → i < s.m_nodes.length → (node_at A s i).m_left = -1 →
      (node_at A s i).m_unsplittable = false → P (split_node A s i))
    (n : Nat) (s : tree_clusterizer V S) (h : P s) : P (growth_passes A n s) := by
  induction n generalizing s with
  | zero => exact h
  | succ n ih =>
    unfold growth_passes
    simp only []
    split_ifs with hle
    · exact h
    · obtain ⟨h1, h2, h3, _⟩ := find_worst_valid A s hle
      exact ih _ (hstep s _ h h1 h2 h3)

theorem growth_loop_eq (A : Arith V S) (max_size n total_leaves : Nat)
    (s : tree_clusterizer V S) :
    (growth_loop A max_size n total_leaves s).2
      = growth_passes A (min n (max_size - total_leaves)) s := by
  induction n generalizing total_leaves s with
  | zero => simp [growth_loop, growth_passes]
  | succ n ih =>
    unfold growth_loop
    simp only []
    split_ifs with h1 h2
    · have e : min (n + 1) (max_size - total_leaves)
          = min n (max_size - (total_leaves + 1)) + 1 := by omega
      rw [e]
      unfold growth_passes
      simp only []
      rw [if_pos h2]
    · have e : min (n + 1) (max_size - total_leaves)
          = min n (max_size - (total_leaves + 1)) + 1 := by omega
      rw [e]
      unfold growth_passes
      simp only []
      rw [if_neg h2]
      exact ih _ _
    · have e : min (n + 1) (max_size - total_leaves) = 0 := by omega
      rw [e]
      rfl

theorem grow_eq (A : Arith V S) (max_size : Nat) (s : tree_clusterizer V S) :
    grow A max_size s = growth_passes A (max_size - 1) s := by
  unfold grow
  rw [growth_loop_eq]
  congr 1
  omega

theorem growth_passes_succ (A : Arith V S) (n : Nat) (s : tree_clusterizer V S) :
    growth_passes A (n + 1) s =
      if A.le (find_worst A s.m_nodes 0 (-1, A.neg_one)).2 A.zero = true then s
      else growth_passes A n (split_node A s (find_worst A s.m_nodes 0 (-1, A.neg_one)).1.toNat) :=
  rfl

theorem growth_passes_stop (A : Arith V S) (n : Nat) (s : tree_clusterizer V S)
    (h : A.le (find_worst A s.m_nodes 0 (-1, A.neg_one)).2 A.zero = true) :
    growth_passes A n s = s := by
  cases n with
  | zero => rfl
  | succ n => rw [growth_passes_succ, if_pos h]

theorem growth_passes_add (A : Arith V S) (a b : Nat) (s : tree_clusterizer V S) :
    growth_passes A (a + b) s = growth_passes A b (growth_passes A a s) := by
  induction a generalizing s with
  | zero => simp [growth_passes]
  | succ a ih =>
    rw [show a + 1 + b = (a + b) + 1 by omega, growth_passes_succ, growth_passes_succ]
    split_ifs with h
    · exact (growth_passes_stop A b s h).symm
    · exact ih _

theorem split_node_leaf_count (A : Arith V S) (s : tree_clusterizer V S) (i : Nat)
    (h : Linked s.m_nodes) (hi : i < s.m_nodes.length) (hleaf : (node_at A s i).m_left = -1) :
    Linked (split_node A s i).m_nodes ∧
    (leaf_count (split_node A s i).m_nodes = leaf_count s.m_nodes ∨
      leaf_count (split_node A s i).m_nodes = leaf_count s.m_nodes + 1) := by
  have hmem := node_at_mem A s i hi
  have hright : (node_at A s i).m_right = -1 := (h _ hmem).mp hleaf
  rcases split_node_nodes A s i with hn | hn | ⟨l, r, hl, hr, hn⟩
  · rw [hn]; exact ⟨h, Or.inl rfl⟩
  · rw [hn]
    constructor
    · intro node hnode
      rcases List.mem_or_eq_of_mem_set hnode with h1 | h1
      · exact h _ h1
      · rw [h1]
        show (node_at A s i).m_left = -1 ↔ (node_at A s i).m_right = -1
        exact h _ hmem
    · left
      have hc := countP_set (fun node : vq_node V S => decide node.is_leaf) s.m_nodes i
        { s.m_nodes.getD i (vq_node.new A) with m_unsplittable := true } hi
      rw [node_at_get A s i hi] at hc
      have e : (decide ({ s.m_nodes.getD i (vq_node.new A) with
          m_unsplittable := true } : vq_node V S).is_leaf) = decide (node_at A s i).is_leaf := rfl
      simp only [e] at hc
      exact Nat.add_right_cancel hc
  · rw [hn]
    constructor
    · intro node hnode
      rcases List.mem_append.mp hnode with h1 | h1
      · rcases List.mem_or_eq_of_mem_set h1 with h2 | h2
        · exact h _ h2
        · rw [h2]
          constructor
          · intro hx
            have hx' : (s.m_nodes.length : Int) = -1 := hx
            omega
          · intro hx
            have hx' : ((s.m_nodes.length + 1 : Nat) : Int) = -1 := hx
            omega
      · simp only [List.mem_cons, List.mem_singleton, List.not_mem_nil, or_false] at h1
        rcases h1 with h1 | h1
        · rw [h1]; exact ⟨fun _ => hl.2, fun _ => hl.1⟩
        · rw [h1]; exact ⟨fun _ => hr.2, fun _ => hr.1⟩
    · right
      have hc := countP_set (fun node : vq_node V S => decide node.is_leaf) s.m_nodes i
        { s.m_nodes.getD i (vq_node.new A) with
          m_left := (s.m_nodes.length : Int), m_right := ((s.m_nodes.length + 1 : Nat) : Int) } hi
      rw [node_at_get A s i hi] at hc
      have e1 : (decide ({ s.m_nodes.getD i (vq_node.new A) with
          m_left := (s.m_nodes.length : Int),
          m_right := ((s.m_nodes.length + 1 : Nat) : Int) } : vq_node V S).is_leaf) = false := by
        simp only [vq_node.is_leaf, decide_eq_false_iff_not]
        rintro ⟨hx, _⟩
        omega
      have e2 : decide (node_at A s i).is_leaf = true := by
        simp [vq_node.is_leaf, hleaf, hright]
      simp only [e1, e2] at hc
      unfold leaf_count
      rw [List.countP_append]
      simp only [List.countP_cons, List.countP_nil, hl, hr, decide_True, if_true]
      simp only [Bool.false_eq_true, if_false, if_true] at hc
      omega

theorem growth_passes_leaf_count (A : Arith V S) (n : Nat) (s : tree_clusterizer V S)
    (h : Linked s.m_nodes) :
    Linked (growth_passes A n s).m_nodes ∧
    leaf_count s.m_nodes ≤ leaf_count (growth_passes A n s).m_nodes ∧
    leaf_count (growth_passes A n s).m_nodes ≤ leaf_count s.m_nodes + n := by
  induction n generalizing s with
  | zero => exact ⟨h, Nat.le_refl _, Nat.le_refl _⟩
  | succ n ih =>
    rw [growth_passes_succ]
    split_ifs with hle
    · exact ⟨h, Nat.le_refl _, by omega⟩
    · obtain ⟨h1, h2, _, _⟩ := find_worst_valid A s hle
      obtain ⟨k1, k2⟩ := split_node_leaf_count A s _ h h1 h2
      obtain ⟨i1, i2, i3⟩ := ih _ k1
      refine ⟨i1, ?_, ?_⟩ <;> omega

theorem extract_loop_inner (A : Arith V S) (vectors : List V) (infos : List VectorInfo)
    (flag : Bool) (node : vq_node V S) (rest : List (vq_node V S)) (codebook : List V)
    (m : List (V × Nat)) (h : node.m_left ≠ -1) :
    extract_loop A vectors infos flag (node :: rest) codebook m
      = (node :: (extract_loop A vectors infos flag rest codebook m).1,
         (extract_loop A vectors infos flag rest codebook m).2) := by
  rw [extract_loop, if_pos h]

theorem extract_loop_leaf (A : Arith V S) (vectors : List V) (infos : List VectorInfo)
    (flag : Bool) (node : vq_node V S) (rest : List (vq_node V S)) (codebook : List V)
    (m : List (V × Nat)) (h : node.m_left = -1) :
    extract_loop A vectors infos flag (node :: rest) codebook m
      = ({ node with m_codebook_index := (codebook.length : Int) } ::
          (extract_loop A vectors infos flag rest (codebook ++ [node.m_centroid])
            (if flag = true then
              map_members A vectors codebook.length m (slice infos node.m_begin node.m_end)
            else m)).1,
         (extract_loop A vectors infos flag rest (codebook ++ [node.m_centroid])
            (if flag = true then
              map_members A vectors codebook.length m (slice infos node.m_begin node.m_end)
            else m)).2) := by
  rw [extract_loop, if_neg (by simpa using h)]

theorem extract_loop_spec (A : Arith V S) (vectors : List V) (infos : List VectorInfo)
    (flag : Bool) (nodes : List (vq_node V S)) (codebook : List V) (m : List (V × Nat)) :
    (extract_loop A vectors infos flag nodes codebook m).2.1.length
      = codebook.length + nodes.countP (fun node => decide (node.m_left = -1)) ∧
    leaf_count (extract_loop A vectors infos flag nodes codebook m).1 = leaf_count nodes := by
  induction nodes generalizing codebook m with
  | nil => simp [extract_loop, leaf_count]
  | cons node rest ih =>
    by_cases h : node.m_left = -1
    · rw [extract_loop_leaf A vectors infos flag node rest codebook m h]
      obtain ⟨i1, i2⟩ := ih (codebook ++ [node.m_centroid])
        (if flag = true then
          map_members A vectors codebook.length m (slice infos node.m_begin node.m_end)
        else m)
      constructor
      · show (extract_loop A vectors infos flag rest (codebook ++ [node.m_centroid]) _).2.1.length
          = _
        rw [i1, List.countP_cons]
        simp only [List.length_append, List.length_singleton, h, decide_True, if_true]
        omega
      · simp only [leaf_count] at i2 ⊢
        rw [List.countP_cons, List.countP_cons, i2]
        rfl
    · rw [extract_loop_inner A vectors infos flag node rest codebook m h]
      obtain ⟨i1, i2⟩ := ih codebook m
      simp only [leaf_count] at i2 ⊢
      simp only [List.countP_cons, i1, i2]
      simp [vq_node.is_leaf, h]

theorem countP_left_eq_leaf_count (nodes : List (vq_node V S)) (h : Linked nodes) :
    nodes.countP (fun node => decide (node.m_left = -1)) = leaf_count nodes := by
  unfold leaf_count
  apply List.countP_congr
  intro node hnode
  have := h node hnode
  simp only [vq_node.is_leaf, decide_eq_true_eq]
  tauto

theorem growth_passes_single (A : Arith V S) (n : Nat) (s : tree_clusterizer V S)
    (root : vq_node V S) (hn : s.m_nodes = [root]) (hr : root.m_begin + 1 = root.m_end) :
    growth_passes A n s = s := by
  induction n with
  | zero => rfl
  | succ n ih =>
    rw [growth_passes_succ]
    split_ifs with hle
    · rfl
    · obtain ⟨h1, _, _, _⟩ := find_worst_valid A s hle
      have h0 : (find_worst A s.m_nodes 0 (-1, A.neg_one)).1.toNat = 0 := by
        have hlen : s.m_nodes.length = 1 := by rw [hn]; rfl
        omega
      have hs : split_node A s (find_worst A s.m_nodes 0 (-1, A.neg_one)).1.toNat = s := by
        rw [h0, split_node_eq]
        have : node_at A s 0 = root := by
          unfold node_at; rw [hn]; rfl
        rw [this, if_pos hr]
      rw [hs]
      exact ih

end growth

/-! ## The root -/

section root
variable {V S : Type}

theorem map_range_getD {α : Type} (l : List α) (d : α) (n : Nat) (h : n ≤ l.length) :
    (List.range n).map (fun i => l.getD i d) = l.take n := by
  induction n with
  | zero => simp
  | succ n ih =>
    have hn : n < l.length := by omega
    rw [List.range_succ, List.map_append, ih (by omega), List.take_succ]
    simp [List.getD_eq_getElem _ _ hn, List.getElem?_eq_getElem hn]

theorem root_fold (A : Arith V S) (vectors : List V) (infos : List VectorInfo)
    (is : List Nat) (r0 : RootAcc V S) :
    let r := is.foldl (root_step A vectors infos) r0
    r.root.m_begin = r0.root.m_begin ∧ r.root.m_end = r0.root.m_end ∧
    r.root.m_left = r0.root.m_left ∧ r.root.m_right = r0.root.m_right ∧
    r.root.m_unsplittable = r0.root.m_unsplittable ∧
    r.m_weightedVectors.length = r0.m_weightedVectors.length ∧
    r.m_weightedDotProducts.length = r0.m_weightedDotProducts.length ∧
    r.root.m_total_weight % UINT64_SIZE
      = (r0.root.m_total_weight
          + (is.map (fun i => (infos.getD i { index := 0, weight := 0 }).weight)).sum)
        % UINT64_SIZE ∧
    (r0.root.m_total_weight < UINT64_SIZE → r.root.m_total_weight < UINT64_SIZE) := by
  induction is generalizing r0 with
  | nil => simp
  | cons i rest ih =>
    have hpos : 0 < UINT64_SIZE := by decide
    simp only [List.foldl_cons]
    obtain ⟨h1, h2, h3, h4, h5, h6, h7, h8, h9⟩ := ih (root_step A vectors infos r0 i)
    refine ⟨h1, h2, h3, h4, h5, ?_, ?_, ?_, ?_⟩
    · rw [h6]; simp [root_step]
    · rw [h7]; simp [root_step]
    · rw [h8]
      simp only [root_step, List.map_cons, List.sum_cons]
      rw [Nat.mod_add_mod, Nat.add_assoc]
    · intro _
      exact h9 (Nat.mod_lt _ hpos)

theorem build_root_spec (A : Arith V S) (s : tree_clusterizer V S) :
    ∃ root : vq_node V S,
      (build_root A s).m_nodes = [root] ∧ root.m_begin = 0 ∧
      root.m_end = s.m_vectorsInfo.length ∧ root.m_left = -1 ∧ root.m_right = -1 ∧
      root.m_unsplittable = false ∧
      (s.m_vectors.length ≤ s.m_vectorsInfo.length →
        root.m_total_weight = weight_sum (s.m_vectorsInfo.take s.m_vectors.length) % UINT64_SIZE) ∧
      (build_root A s).m_hist = s.m_hist ∧ (build_root A s).m_vectors = s.m_vectors ∧
      (build_root A s).m_vectorsInfo = s.m_vectorsInfo ∧
      (build_root A s).m_codebook = s.m_codebook ∧
      (build_root A s).m_node_index_map = s.m_node_index_map ∧
      (build_root A s).m_vectorsInfoLeft.length = s.m_vectors.length ∧
      (build_root A s).m_vectorsInfoRight.length = s.m_vectors.length ∧
      (build_root A s).m_weightedVectors.length = s.m_vectors.length ∧
      (build_root A s).m_weightedDotProducts.length = s.m_vectors.length := by
  have hpos : 0 < UINT64_SIZE := by decide
  have hres : ∀ {α : Type} (l : List α) (n : Nat) (d : α), (resize l n d).length = n := by
    intro α l n d
    simp only [resize, List.length_append, List.length_take, List.length_replicate]
    omega
  obtain ⟨h1, h2, h3, h4, h5, h6, h7, h8, h9⟩ := root_fold A s.m_vectors s.m_vectorsInfo
    (List.range s.m_vectors.length)
    { root := { vq_node.new A with m_begin := 0, m_end := s.m_vectorsInfo.length },
      ttsum := A.zero
      m_weightedVectors := resize s.m_weightedVectors s.m_vectors.length A.vclear
      m_weightedDotProducts := resize s.m_weightedDotProducts s.m_vectors.length A.zero }
  refine ⟨_, rfl, h1, h2, h3, h4, h5, ?_, rfl, rfl, rfl, rfl, rfl, ?_, ?_, ?_, ?_⟩
  · intro hle
    have e := Nat.mod_eq_of_lt (h9 hpos)
    rw [h8] at e
    have e2 : (List.range s.m_vectors.length).map
        (fun i => (s.m_vectorsInfo.getD i { index := 0, weight := 0 }).weight)
        = (s.m_vectorsInfo.take s.m_vectors.length).map VectorInfo.weight := by
      rw [← map_range_getD s.m_vectorsInfo { index := 0, weight := 0 } _ hle, List.map_map]
      rfl
    rw [e2] at e
    simp only [vq_node.new, Nat.zero_add] at e
    exact e.symm
  · exact hres _ _ _
  · exact hres _ _ _
  · exact h6.trans (hres _ _ _)
  · exact h7.trans (hres _ _ _)

theorem build_root_partitioned (A : Arith V S) (s : tree_clusterizer V S)
    (hlen : s.m_vectorsInfo.length = s.m_vectors.length) : Partitioned (build_root A s) := by
  obtain ⟨root, r1, r2, r3, r4, r5, r6, r7, r8, r9, r10, r11, r12, r13, r14, r15, r16⟩ :=
    build_root_spec A s
  refine ⟨?_, ?_, ?_, ?_, ?_, ?_⟩
  · rw [r10, r9]; exact hlen
  · rw [r13, r9]
  · rw [r14, r9]
  · intro node hnode
    rw [r1] at hnode
    rw [List.mem_singleton.mp hnode, r2, r3, r9, hlen]
    exact ⟨Nat.zero_le _, Nat.le_refl _⟩
  · intro node hnode
    rw [r1] at hnode
    rw [List.mem_singleton.mp hnode]
    exact ⟨fun _ => r5, fun _ => r4⟩
  · intro j
    rw [r1, r9]
    simp only [List.countP_cons, List.countP_nil, covers, vq_node.is_leaf, r2, r3, r4, r5, hlen]
    simp

theorem build_root_single (A : Arith V S) (s : tree_clusterizer V S) (v : V) (W : Nat)
    (hv : s.m_vectors = [v]) (hi : s.m_vectorsInfo = [{ index := 0, weight := W }]) :
    ∃ root : vq_node V S, (build_root A s).m_nodes = [root] ∧ root.m_begin = 0 ∧
      root.m_end = 1 ∧ root.m_left = -1 ∧
      root.m_centroid = A.vscale (A.vadd A.vclear (A.vscale v (A.ofNat W)))
        (A.div A.one (A.ofNat (W % UINT64_SIZE))) := by
  refine ⟨_, rfl, ?_, ?_, ?_, ?_⟩ <;>
    simp [hv, hi, root_step, vq_node.new, List.range_succ]

end root

/-! ## Reachable instances -/

section reachable
variable {V S : Type} [LinearOrder V]

theorem sort_hist_length (hist : List (V × Nat)) : (sort_hist hist).length = hist.length := by
  unfold sort_hist
  exact List.length_insertionSort _ _

theorem sort_hist_eq_nil (hist : List (V × Nat)) : sort_hist hist = [] ↔ hist = [] := by
  rw [← List.length_eq_zero, sort_hist_length, List.length_eq_zero]

theorem generate_codebook_hist (A : Arith V S) (s : tree_clusterizer V S) (max_size : Nat)
    (flag : Bool) :
    (generate_codebook A s max_size flag).2.m_hist = sort_hist s.m_hist := by
  unfold generate_codebook
  split_ifs with h
  · rw [h]; rfl
  · simp only [extract]
    rw [grow_eq]
    have hf : ∀ t : tree_clusterizer V S,
        (growth_passes A (max_size - 1) t).m_hist = t.m_hist := by
      intro t
      exact growth_passes_induct A (fun u => u.m_hist = t.m_hist)
        (fun u i hu _ _ _ => (split_node_frame A u i).1.trans hu) _ t rfl
    rw [hf]
    obtain ⟨_, _, _, _, _, _, _, _, h1, _⟩ := build_root_spec A (aggregate s)
    rw [h1]
    rfl

theorem run_concat (A : Arith V S) (calls : List (Call V)) (c : Call V) :
    run A (calls ++ [c]) = Call.apply A (run A calls) c := by
  simp [run, List.foldl_append]

omit [LinearOrder V] in
theorem added_since_clear_concat (calls : List (Call V)) (c : Call V) :
    added_since_clear (calls ++ [c]) =
      match c with
      | .clear => false
      | .add_training_vec _ _ => true
      | .generate_codebook _ _ => added_since_clear calls := by
  cases c <;> simp [added_since_clear, List.foldl_append]

omit [LinearOrder V] in
theorem added_since_clear_of_no_add (calls : List (Call V))
    (h : ∀ c ∈ calls, c.is_add = false) : added_since_clear calls = false := by
  induction calls using List.reverseRecOn with
  | nil => rfl
  | append_singleton calls c ih =>
    rw [added_since_clear_concat]
    have hc := h c (by simp)
    cases c with
    | clear => rfl
    | add_training_vec v w => simp [Call.is_add] at hc
    | generate_codebook k f => exact ih (fun c hc => h c (List.mem_append_left _ hc))

theorem run_hist (A : Arith V S) (calls : List (Call V)) :
    ((run A calls).m_hist = [] ↔ added_since_clear calls = false) ∧
    ((∀ c ∈ calls, c.is_add = false) → (run A calls).m_codebook = []) := by
  induction calls using List.reverseRecOn with
  | nil => simp [run, added_since_clear, tree_clusterizer.new]
  | append_singleton calls c ih =>
    rw [run_concat, added_since_clear_concat]
    obtain ⟨ih1, ih2⟩ := ih
    cases c with
    | clear =>
      simp [Call.apply, clear]
    | add_training_vec v w =>
      constructor
      · simp [Call.apply, add_training_vec]
      · intro h
        have := h (Call.add_training_vec v w) (by simp)
        simp [Call.is_add] at this
    | generate_codebook k f =>
      constructor
      · simp only [Call.apply]
        rw [generate_codebook_hist, sort_hist_eq_nil]
        exact ih1
      · intro h
        have h1 : ∀ c ∈ calls, c.is_add = false :=
          fun c hc => h c (List.mem_append_left _ hc)
        have h2 : added_since_clear calls = false := added_since_clear_of_no_add calls h1
        have h3 := ih1.mpr h2
        simp only [Call.apply, generate_codebook, h3, if_true]
        exact ih2 h1

end reachable

/-! ## The aggregation -/

section aggregate
variable {V : Type} [LinearOrder V]

theorem pair_le_iff (a b : V × Nat) : pair_le a b ↔ a.1 < b.1 ∨ (a.1 = b.1 ∧ a.2 ≤ b.2) := by
  unfold pair_le pair_lt
  constructor
  · intro h
    rw [not_or] at h
    obtain ⟨h1, h2⟩ := h
    rcases lt_trichotomy a.1 b.1 with c | c | c
    · exact Or.inl c
    · right
      refine ⟨c, ?_⟩
      by_contra hc
      exact h2 ⟨by rw [c]; exact lt_irrefl _, by omega⟩
    · exact absurd c h1
  · rintro (h | ⟨h1, h2⟩)
    · rw [not_or]
      exact ⟨not_lt.mpr (le_of_lt h), fun hc => hc.1 h⟩
    · rw [not_or]
      exact ⟨by rw [h1]; exact lt_irrefl _, fun hc => by omega⟩

instance pair_le_total : IsTotal (V × Nat) pair_le :=
  ⟨fun a b => by
    rw [pair_le_iff, pair_le_iff]
    rcases lt_trichotomy a.1 b.1 with c | c | c
    · exact Or.inl (Or.inl c)
    · rcases Nat.le_total a.2 b.2 with d | d
      · exact Or.inl (Or.inr ⟨c, d⟩)
      · exact Or.inr (Or.inr ⟨c.symm, d⟩)
    · exact Or.inr (Or.inl c)⟩

instance pair_le_trans : IsTrans (V × Nat) pair_le :=
  ⟨fun a b c => by
    rw [pair_le_iff, pair_le_iff, pair_le_iff]
    rintro (h1 | ⟨h1, h2⟩) (h3 | ⟨h3, h4⟩)
    · exact Or.inl (lt_trans h1 h3)
    · exact Or.inl (by rw [← h3]; exact h1)
    · exact Or.inl (by rw [h1]; exact h3)
    · exact Or.inr ⟨h1.trans h3, Nat.le_trans h2 h4⟩⟩

instance pair_le_antisymm : IsAntisymm (V × Nat) pair_le :=
  ⟨fun a b => by
    rw [pair_le_iff, pair_le_iff]
    rintro (h1 | ⟨h1, h2⟩) (h3 | ⟨h3, h4⟩)
    · exact absurd h3 (not_lt.mpr (le_of_lt h1))
    · rw [h3] at h1; exact absurd h1 (lt_irrefl _)
    · rw [h1] at h3; exact absurd h3 (lt_irrefl _)
    · exact Prod.ext h1 (Nat.le_antisymm h2 h4)⟩

theorem sort_hist_sorted (hist : List (V × Nat)) : (sort_hist hist).Sorted pair_le :=
  List.sorted_insertionSort pair_le hist

theorem sort_hist_perm (hist : List (V × Nat)) : (sort_hist hist).Perm hist :=
  List.perm_insertionSort pair_le hist

theorem sort_hist_congr (hist1 hist2 : List (V × Nat)) (h : hist1.Perm hist2) :
    sort_hist hist1 = sort_hist hist2 :=
  List.eq_of_perm_of_sorted
    (((sort_hist_perm hist1).trans h).trans (sort_hist_perm hist2).symm)
    (sort_hist_sorted hist1) (sort_hist_sorted hist2)

theorem sort_hist_fst_sorted (hist : List (V × Nat)) :
    (sort_hist hist).Sorted (fun a b => a.1 ≤ b.1) := by
  refine List.Pairwise.imp ?_ (sort_hist_sorted hist)
  intro a b h
  rcases (pair_le_iff a b).mp h with c | ⟨c, _⟩
  · exact le_of_lt c
  · exact le_of_eq c

theorem saturating_add_min (x w : Nat) (hw : w ≤ UINT_MAX) :
    saturating_add (min x UINT_MAX) w = min (x + w) UINT_MAX := by
  unfold saturating_add
  simp only [UINT_MAX] at *
  split_ifs <;> omega

theorem saturating_add_le (x w : Nat) (hw : w ≤ UINT_MAX) :
    saturating_add x w ≤ UINT_MAX := by
  unfold saturating_add
  simp only [UINT_MAX] at *
  split_ifs <;> omega

theorem obs_weight_concat (hist : List (V × Nat)) (v : V) (w : Nat) (x : V) :
    obs_weight (hist ++ [(v, w)]) x = obs_weight hist x + (if v = x then w else 0) := by
  unfold obs_weight
  rw [List.filter_append, List.map_append, List.sum_append]
  by_cases h : v = x <;> simp [List.filter_cons, h]

theorem obs_weight_of_not_mem (hist : List (V × Nat)) (x : V) (h : x ∉ hist.map Prod.fst) :
    obs_weight hist x = 0 := by
  unfold obs_weight
  have : hist.filter (fun p => decide (p.1 = x)) = [] := by
    rw [List.filter_eq_nil_iff]
    intro p hp hc
    exact h (List.mem_map.mpr ⟨p, hp, by simpa using hc⟩)
  rw [this]
  rfl

theorem update_back_weight_concat (infos : List VectorInfo) (b : VectorInfo) (f : Nat → Nat) :
    update_back_weight (infos ++ [b]) f = infos ++ [{ b with weight := f b.weight }] := by
  unfold update_back_weight
  rw [List.getLast?_concat]
  simp

theorem aggregated_new (done : List (V × Nat)) (vs : List V) (infos : List VectorInfo)
    (v : V) (w : Nat) (h : Aggregated done vs infos)
    (hle : ∀ p ∈ done, p.1 ≤ v)
    (hprev : done.getLast?.map Prod.fst ≠ some v) :
    Aggregated (done ++ [(v, w)]) (vs ++ [v]) (infos ++ [{ index := vs.length, weight := w }]) := by
  have hle' : ∀ x ∈ vs, x ≤ v := by
    intro x hx
    obtain ⟨p, hp, e⟩ := List.mem_map.mp ((h.mem x).mp hx)
    rw [← e]; exact hle p hp
  have hnot : v ∉ vs := by
    intro hv
    rcases List.eq_nil_or_concat vs with e | ⟨vs0, u, e⟩
    · rw [e] at hv; simp at hv
    · rw [List.concat_eq_append] at e
      rw [e] at hv
      have hl := h.last
      rw [e, List.getLast?_concat] at hl
      have hs := h.sorted
      rw [e] at hs
      have hu : u ≤ v := hle' u (by rw [e]; simp)
      rcases List.mem_append.mp hv with hv0 | hv1
      · have := (List.pairwise_append.mp hs).2.2 v hv0 u (by simp)
        exact absurd hu (not_le.mpr this)
      · have : v = u := by simpa using hv1
        rw [this] at hprev
        exact hprev hl.symm
  have hlt : ∀ x ∈ vs, x < v := fun x hx =>
    lt_of_le_of_ne (hle' x hx) (fun e => hnot (e ▸ hx))
  refine ⟨?_, ?_, ?_, ?_, ?_⟩
  · refine List.pairwise_append.mpr ⟨h.sorted, List.pairwise_singleton _ _, ?_⟩
    intro a ha b hb
    rw [List.mem_singleton.mp hb]
    exact hlt a ha
  · intro x
    simp only [List.mem_append, List.mem_singleton, List.map_append, List.map_cons,
      List.map_nil, h.mem x]
  · simp
  · simp [h.index, List.range_succ]
  · intro hb
    have hw : w ≤ UINT_MAX := hb (v, w) (by simp)
    rw [List.map_append, List.map_append,
      h.weight (fun p hp => hb p (List.mem_append_left _ hp))]
    congr 1
    · apply List.map_congr_left
      intro x hx
      rw [obs_weight_concat, if_neg (fun (e : v = x) => hnot (e ▸ hx)), Nat.add_zero]
    · simp only [List.map_cons, List.map_nil]
      rw [obs_weight_concat, if_pos rfl,
        obs_weight_of_not_mem done v (fun hc => hnot ((h.mem v).mpr hc)), Nat.zero_add,
        Nat.min_eq_left hw]

theorem aggregated_merge (done : List (V × Nat)) (vs : List V) (infos : List VectorInfo)
    (v : V) (w : Nat) (h : Aggregated done vs infos)
    (hprev : done.getLast?.map Prod.fst = some v) :
    Aggregated (done ++ [(v, w)]) vs
      (update_back_weight infos (fun x => saturating_add x w)) := by
  have hl := h.last
  rw [hprev] at hl
  obtain ⟨vs0, e⟩ := List.getLast?_eq_some_iff.mp hl
  have hlen : infos.length = vs.length := by
    have := congrArg List.length h.index
    simpa using this
  have hne : infos ≠ [] := by
    intro hc
    rw [hc, e] at hlen
    simp at hlen
  rcases List.eq_nil_or_concat infos with hc | ⟨infos0, b, e2⟩
  · exact absurd hc hne
  · rw [List.concat_eq_append] at e2
    have hlen0 : infos0.length = vs0.length := by
      rw [e, e2] at hlen
      simpa using hlen
    have hs := h.sorted
    rw [e] at hs
    have hlt : ∀ x ∈ vs0, x < v := fun x hx =>
      (List.pairwise_append.mp hs).2.2 x hx v (by simp)
    refine ⟨h.sorted, ?_, ?_, ?_, ?_⟩
    · intro x
      rw [h.mem x]
      simp only [List.map_append, List.map_cons, List.map_nil, List.mem_append,
        List.mem_singleton]
      constructor
      · exact Or.inl
      · rintro (hx | hx)
        · exact hx
        · rw [hx, ← h.mem v, e]; simp
    · rw [hl]; simp
    · rw [e2, update_back_weight_concat, ← h.index, e2]
      simp
    · intro hbd
      have hw : w ≤ UINT_MAX := hbd (v, w) (by simp)
      have hwt := h.weight (fun p hp => hbd p (List.mem_append_left _ hp))
      rw [e, e2, List.map_append, List.map_append] at hwt
      obtain ⟨hw0, hw1⟩ := List.append_inj hwt (by simp [hlen0])
      have hb : b.weight = min (obs_weight done v) UINT_MAX := by simpa using hw1
      rw [e2, update_back_weight_concat, e, List.map_append, List.map_append, hw0]
      congr 1
      · apply List.map_congr_left
        intro x hx
        rw [obs_weight_concat, if_neg (fun (e : v = x) => (ne_of_lt (hlt x hx)) e.symm),
          Nat.add_zero]
      · simp only [List.map_cons, List.map_nil]
        rw [obs_weight_concat, if_pos rfl, hb, saturating_add_min _ _ hw]

theorem aggregate_loop_spec (done rest : List (V × Nat)) (vs : List V)
    (infos : List VectorInfo) (hs : (done ++ rest).Sorted (fun a b => a.1 ≤ b.1))
    (h : Aggregated done vs infos) :
    Aggregated (done ++ rest)
      (aggregate_loop (done.getLast?.map Prod.fst) rest (vs, infos)).1
      (aggregate_loop (done.getLast?.map Prod.fst) rest (vs, infos)).2 := by
  induction rest generalizing done vs infos with
  | nil =>
    rw [List.append_nil]
    exact h
  | cons p rest ih =>
    obtain ⟨v, w⟩ := p
    have hle : ∀ q ∈ done, q.1 ≤ v := fun q hq =>
      (List.pairwise_append.mp hs).2.2 q hq (v, w) (by simp)
    have hs' : ((done ++ [(v, w)]) ++ rest).Sorted (fun a b => a.1 ≤ b.1) := by
      rw [List.append_assoc]; exact hs
    have hlast : (done ++ [(v, w)]).getLast?.map Prod.fst = some v := by simp
    rw [show done ++ (v, w) :: rest = (done ++ [(v, w)]) ++ rest by simp]
    unfold aggregate_loop
    split_ifs with hp
    · have := ih (done ++ [(v, w)]) _ _ hs' (aggregated_new done vs infos v w h hle hp)
      rw [hlast] at this
      exact this
    · have hp' : done.getLast?.map Prod.fst = some v := by simpa using hp
      have := ih (done ++ [(v, w)]) _ _ hs' (aggregated_merge done vs infos v w h hp')
      rw [hlast] at this
      exact this

theorem update_back_weight_length (infos : List VectorInfo) (f : Nat → Nat) :
    (update_back_weight infos f).length = infos.length := by
  rcases List.eq_nil_or_concat infos with e | ⟨l, b, e⟩
  · rw [e]; rfl
  · rw [List.concat_eq_append] at e
    rw [e, update_back_weight_concat]
    simp

theorem update_back_weight_bound (infos : List VectorInfo) (w : Nat) (hw : w ≤ UINT_MAX)
    (h : ∀ vi ∈ infos, vi.weight ≤ UINT_MAX) :
    ∀ vi ∈ update_back_weight infos (fun x => saturating_add x w), vi.weight ≤ UINT_MAX := by
  rcases List.eq_nil_or_concat infos with e | ⟨l, b, e⟩
  · rw [e]; intro vi hvi; simp [update_back_weight] at hvi
  · rw [List.concat_eq_append] at e
    rw [e, update_back_weight_concat]
    intro vi hvi
    rcases List.mem_append.mp hvi with h1 | h1
    · exact h vi (by rw [e]; exact List.mem_append_left _ h1)
    · rw [List.mem_singleton.mp h1]
      exact saturating_add_le _ _ hw

theorem aggregate_loop_sane (prev : Option V) (rest : List (V × Nat)) (vs : List V)
    (infos : List VectorInfo) (hlen : infos.length = vs.length)
    (hb : ∀ vi ∈ infos, vi.weight ≤ UINT_MAX) (hw : ∀ p ∈ rest, p.2 ≤ UINT_MAX) :
    (aggregate_loop prev rest (vs, infos)).2.length
      = (aggregate_loop prev rest (vs, infos)).1.length ∧
    (∀ vi ∈ (aggregate_loop prev rest (vs, infos)).2, vi.weight ≤ UINT_MAX) ∧
    (aggregate_loop prev rest (vs, infos)).1.length ≤ vs.length + rest.length := by
  induction rest generalizing prev vs infos with
  | nil => exact ⟨hlen, hb, by simp [aggregate_loop]⟩
  | cons p rest ih =>
    obtain ⟨v, w⟩ := p
    have hw1 : w ≤ UINT_MAX := hw (v, w) (by simp)
    have hw' : ∀ q ∈ rest, q.2 ≤ UINT_MAX := fun q hq => hw q (List.mem_cons_of_mem _ hq)
    unfold aggregate_loop
    split_ifs with hp
    · obtain ⟨i1, i2, i3⟩ := ih (some v) (vs ++ [v])
        (infos ++ [{ index := vs.length, weight := w }]) (by simp [hlen])
        (by
          intro vi hvi
          rcases List.mem_append.mp hvi with h1 | h1
          · exact hb vi h1
          · rw [List.mem_singleton.mp h1]; exact hw1) hw'
      refine ⟨i1, i2, ?_⟩
      simp only [List.length_append, List.length_singleton, List.length_cons,
        List.length_nil] at i3 ⊢
      omega
    · obtain ⟨i1, i2, i3⟩ := ih (some v) vs
        (update_back_weight infos (fun x => saturating_add x w))
        (by rw [update_back_weight_length]; exact hlen)
        (update_back_weight_bound infos w hw1 hb) hw'
      refine ⟨i1, i2, ?_⟩
      simp only [List.length_cons] at i3 ⊢
      omega

theorem obs_weight_perm (h1 h2 : List (V × Nat)) (h : h1.Perm h2) (v : V) :
    obs_weight h1 v = obs_weight h2 v := by
  unfold obs_weight
  exact ((h.filter _).map _).sum_eq

theorem aggregated_entry (hist : List (V × Nat)) (vs : List V) (infos : List VectorInfo)
    (h : Aggregated hist vs infos) (hw : ∀ p ∈ hist, p.2 ≤ UINT_MAX) :
    (∀ vi ∈ infos, ∃ v, vs.get? vi.index = some v ∧
      vi.weight = min (obs_weight hist v) UINT_MAX) ∧
    (∀ v ∈ vs, ∃ vi ∈ infos, vs.get? vi.index = some v) := by
  have hlen : infos.length = vs.length := by
    have := congrArg List.length h.index
    simpa using this
  have hidx : ∀ (i : Nat) (hi : i < infos.length), infos[i].index = i := by
    intro i hi
    have h1 := getElem_of_map_eq VectorInfo.index infos (List.range vs.length) h.index i hi
      (by simp; omega)
    simpa using h1
  constructor
  · intro vi hvi
    obtain ⟨i, hi, e⟩ := List.mem_iff_getElem.mp hvi
    have hi' : i < vs.length := by omega
    refine ⟨vs[i], ?_, ?_⟩
    · rw [← e, hidx i hi, List.get?_eq_getElem?, List.getElem?_eq_getElem hi']
    · have h1 := getElem_of_map_eq VectorInfo.weight infos
        (vs.map (fun v => min (obs_weight hist v) UINT_MAX)) (h.weight hw) i hi
        (by simpa using hi')
      rw [← e]
      simpa using h1
  · intro v hv
    obtain ⟨i, hi, e⟩ := List.mem_iff_getElem.mp hv
    have hi' : i < infos.length := by omega
    refine ⟨infos[i], List.getElem_mem hi', ?_⟩
    rw [hidx i hi', List.get?_eq_getElem?, List.getElem?_eq_getElem hi, e]

end aggregate

section aggregate_fresh_instance
variable {V S : Type} [LinearOrder V]

theorem aggregate_fresh (s : tree_clusterizer V S) (hv : s.m_vectors = [])
    (hi : s.m_vectorsInfo = []) :
    Aggregated (sort_hist s.m_hist) (aggregate s).m_vectors (aggregate s).m_vectorsInfo := by
  have h0 : Aggregated ([] : List (V × Nat)) [] [] :=
    ⟨List.sorted_nil, by simp, rfl, rfl, fun _ => rfl⟩
  have := aggregate_loop_spec [] (sort_hist s.m_hist) [] []
    (by rw [List.nil_append]; exact sort_hist_fst_sorted _) h0
  simp only [List.nil_append, List.getLast?_nil, Option.map_none'] at this
  unfold aggregate
  simp only [hv, hi]
  exact this

end aggregate_fresh_instance

/-! ## The arrays across `generate_codebook` -/

section arrays
variable {V S : Type}

theorem growth_passes_arrays (A : Arith V S) (n : Nat) (s : tree_clusterizer V S)
    (h : Partitioned s) :
    Partitioned (growth_passes A n s) ∧ (growth_passes A n s).m_vectors = s.m_vectors ∧
    (growth_passes A n s).m_vectorsInfo.Perm s.m_vectorsInfo ∧
    (growth_passes A n s).m_hist = s.m_hist ∧
    (growth_passes A n s).m_node_index_map = s.m_node_index_map := by
  refine growth_passes_induct A
    (fun t => Partitioned t ∧ t.m_vectors = s.m_vectors ∧ t.m_vectorsInfo.Perm s.m_vectorsInfo ∧
      t.m_hist = s.m_hist ∧ t.m_node_index_map = s.m_node_index_map) ?_ n s
    ⟨h, rfl, List.Perm.refl _, rfl, rfl⟩
  rintro t i ⟨h1, h2, h3, h4, h5⟩ hi hleaf _
  obtain ⟨f1, f2, _, _, f5, _⟩ := split_node_frame A t i
  exact ⟨split_node_partitioned A t i h1 hi hleaf, f2.trans h2,
    (split_node_perm A t i h1 hi).trans h3, f1.trans h4, f5.trans h5⟩

theorem extract_loop_erase (A : Arith V S) (vectors : List V) (infos : List VectorInfo)
    (flag : Bool) (nodes : List (vq_node V S)) (codebook : List V) (m : List (V × Nat)) :
    (extract_loop A vectors infos flag nodes codebook m).1.map vq_node.erase_index
      = nodes.map vq_node.erase_index := by
  induction nodes generalizing codebook m with
  | nil => rfl
  | cons node rest ih =>
    by_cases h : node.m_left = -1
    · rw [extract_loop_leaf A vectors infos flag node rest codebook m h]
      simp only [List.map_cons, ih]
      rfl
    · rw [extract_loop_inner A vectors infos flag node rest codebook m h]
      simp only [List.map_cons, ih]

theorem mem_of_map_erase (nodes nodes' : List (vq_node V S))
    (h : nodes'.map vq_node.erase_index = nodes.map vq_node.erase_index)
    (node : vq_node V S) (hn : node ∈ nodes') :
    ∃ n0 ∈ nodes, n0.erase_index = node.erase_index := by
  have : node.erase_index ∈ nodes.map vq_node.erase_index := by
    rw [← h]; exact List.mem_map_of_mem _ hn
  obtain ⟨n0, h0, e⟩ := List.mem_map.mp this
  exact ⟨n0, h0, e⟩

theorem erase_fields (a b : vq_node V S) (h : a.erase_index = b.erase_index) :
    a.m_left = b.m_left ∧ a.m_right = b.m_right ∧ a.m_begin = b.m_begin ∧ a.m_end = b.m_end ∧
    a.m_total_weight = b.m_total_weight ∧ a.m_centroid = b.m_centroid ∧
    a.m_unsplittable = b.m_unsplittable ∧ a.m_variance = b.m_variance := by
  unfold vq_node.erase_index at h
  injection h with h1 h2 h3 h4 h5 h6 h7 h8 h9
  exact ⟨h6, h7, h4, h5, h2, h1, h9, h3⟩

theorem partitioned_of_erase (s t : tree_clusterizer V S) (h : Partitioned s)
    (hn : t.m_nodes.map vq_node.erase_index = s.m_nodes.map vq_node.erase_index)
    (hv : t.m_vectors = s.m_vectors) (hi : t.m_vectorsInfo = s.m_vectorsInfo)
    (hl : t.m_vectorsInfoLeft = s.m_vectorsInfoLeft)
    (hr : t.m_vectorsInfoRight = s.m_vectorsInfoRight) : Partitioned t := by
  refine ⟨?_, ?_, ?_, ?_, ?_, ?_⟩
  · rw [hi, hv]; exact h.info_len
  · rw [hl, hv]; exact h.left_len
  · rw [hr, hv]; exact h.right_len
  · intro node hnode
    obtain ⟨n0, h0, e⟩ := mem_of_map_erase _ _ hn node hnode
    obtain ⟨_, _, e3, e4, _⟩ := erase_fields _ _ e
    rw [hv, ← e3, ← e4]
    exact h.range n0 h0
  · intro node hnode
    obtain ⟨n0, h0, e⟩ := mem_of_map_erase _ _ hn node hnode
    obtain ⟨e1, e2, _⟩ := erase_fields _ _ e
    rw [← e1, ← e2]
    exact h.links n0 h0
  · intro j
    have hc : ∀ l : List (vq_node V S),
        l.countP (covers j) = (l.map vq_node.erase_index).countP (covers j) := by
      intro l
      rw [List.countP_map]
      rfl
    rw [hc, hn, ← hc, hv]
    exact h.cover j

theorem extract_fields (A : Arith V S) (flag : Bool) (s : tree_clusterizer V S) :
    (extract A flag s).m_nodes.map vq_node.erase_index = s.m_nodes.map vq_node.erase_index ∧
    (extract A flag s).m_vectors = s.m_vectors ∧
    (extract A flag s).m_vectorsInfo = s.m_vectorsInfo ∧
    (extract A flag s).m_vectorsInfoLeft = s.m_vectorsInfoLeft ∧
    (extract A flag s).m_vectorsInfoRight = s.m_vectorsInfoRight ∧
    (extract A flag s).m_hist = s.m_hist :=
  ⟨extract_loop_erase A _ _ _ _ _ _, rfl, rfl, rfl, rfl, rfl⟩

theorem get?_of_map_erase (nodes nodes' : List (vq_node V S))
    (h : nodes'.map vq_node.erase_index = nodes.map vq_node.erase_index)
    (l : Nat) (nl : vq_node V S) (hl : nodes.get? l = some nl) :
    ∃ nl', nodes'.get? l = some nl' ∧ nl'.erase_index = nl.erase_index := by
  have h1 : (nodes'.map vq_node.erase_index).get? l = (nodes.map vq_node.erase_index).get? l := by
    rw [h]
  rw [List.get?_eq_getElem?, List.get?_eq_getElem?, List.getElem?_map, List.getElem?_map,
    ← List.get?_eq_getElem?, ← List.get?_eq_getElem?, hl] at h1
  cases hc : nodes'.get? l with
  | none => rw [hc] at h1; simp at h1
  | some nl' =>
    rw [hc] at h1
    exact ⟨nl', rfl, by simpa using h1⟩

theorem weighted_of_erase (s t : tree_clusterizer V S) (h : Weighted s)
    (hn : t.m_nodes.map vq_node.erase_index = s.m_nodes.map vq_node.erase_index)
    (hi : t.m_vectorsInfo = s.m_vectorsInfo) : Weighted t := by
  refine ⟨?_, ?_, ?_, ?_, ?_⟩
  · rw [hi]; exact h.bound
  · rw [hi]; exact h.size
  · intro node hnode
    obtain ⟨n0, h0, e⟩ := mem_of_map_erase _ _ hn node hnode
    rw [← (erase_fields _ _ e).2.2.2.2.1]
    exact h.total n0 h0
  · intro node hnode hl
    obtain ⟨n0, h0, e⟩ := mem_of_map_erase _ _ hn node hnode
    obtain ⟨e1, e2, e3, e4, e5, _⟩ := erase_fields _ _ e
    have := h.leaf n0 h0 ⟨e1.trans hl.1, e2.trans hl.2⟩
    unfold members at this ⊢
    rw [hi, ← e3, ← e4, ← e5]
    exact this
  · intro node hnode hl
    obtain ⟨n0, h0, e⟩ := mem_of_map_erase _ _ hn node hnode
    obtain ⟨e1, e2, _, _, e5, _⟩ := erase_fields _ _ e
    obtain ⟨l, r, nl, nr, g1, g2, g3, g4, g5⟩ := h.inner n0 h0 (by rw [e1]; exact hl)
    obtain ⟨nl', k1, k2⟩ := get?_of_map_erase _ _ hn l nl g3
    obtain ⟨nr', k3, k4⟩ := get?_of_map_erase _ _ hn r nr g4
    refine ⟨l, r, nl', nr', e1 ▸ g1, e2 ▸ g2, k1, k3, ?_⟩
    rw [(erase_fields _ _ k2).2.2.2.2.1, (erase_fields _ _ k4).2.2.2.2.1, g5, e5]

theorem build_root_weighted (A : Arith V S) (s : tree_clusterizer V S)
    (hlen : s.m_vectorsInfo.length = s.m_vectors.length)
    (hb : ∀ vi ∈ s.m_vectorsInfo, vi.weight ≤ UINT_MAX)
    (hsize : s.m_vectorsInfo.length ≤ UINT_SIZE) : Weighted (build_root A s) := by
  obtain ⟨root, r1, r2, r3, r4, r5, r6, r7, r8, r9, r10, r11, r12, r13, r14, r15, r16⟩ :=
    build_root_spec A s
  refine ⟨?_, ?_, ?_, ?_, ?_⟩
  · rw [r10]; exact hb
  · rw [r10]; exact hsize
  · intro node hnode
    rw [r1] at hnode
    rw [List.mem_singleton.mp hnode, r7 (by omega)]
    exact Nat.mod_lt _ (by decide)
  · intro node hnode _
    rw [r1] at hnode
    rw [List.mem_singleton.mp hnode]
    unfold members
    rw [r10, r2, r3, slice_full, r7 (by omega), ← hlen, List.take_length]
    exact Nat.mod_eq_of_lt (weight_sum_lt _ hb hsize)
  · intro node hnode hl
    rw [r1] at hnode
    rw [List.mem_singleton.mp hnode] at hl
    exact absurd r4 hl

theorem growth_passes_weighted (A : Arith V S) (n : Nat) (s : tree_clusterizer V S)
    (h : Partitioned s) (hw : Weighted s) : Weighted (growth_passes A n s) := by
  have := growth_passes_induct A (fun t => Partitioned t ∧ Weighted t)
    (fun t i ht hi hleaf _ =>
      ⟨split_node_partitioned A t i ht.1 hi hleaf, split_node_weighted A t i ht.1 ht.2 hi hleaf⟩)
    n s ⟨h, hw⟩
  exact this.2

theorem partitioned_disjoint (t : tree_clusterizer V S) (h : Partitioned t)
    (p q : Fin t.m_nodes.length) (hpq : p ≠ q) (hp : (t.m_nodes.get p).is_leaf)
    (hq : (t.m_nodes.get q).is_leaf) (j : Nat) :
    ¬ ((t.m_nodes.get p).m_begin ≤ j ∧ j < (t.m_nodes.get p).m_end ∧
       (t.m_nodes.get q).m_begin ≤ j ∧ j < (t.m_nodes.get q).m_end) := by
  rintro ⟨h1, h2, h3, h4⟩
  have c := two_le_countP (covers j) t.m_nodes p.1 q.1 p.2 q.2
    (fun e => hpq (Fin.ext e))
    (by simp only [covers, decide_eq_true_eq]; exact ⟨hp, h1, h2⟩)
    (by simp only [covers, decide_eq_true_eq]; exact ⟨hq, h3, h4⟩)
  have := h.cover j
  split_ifs at this <;> omega

theorem partitioned_cover (t : tree_clusterizer V S) (h : Partitioned t) (j : Nat) :
    j < t.m_vectors.length ↔
      ∃ node ∈ t.m_nodes, node.is_leaf ∧ node.m_begin ≤ j ∧ j < node.m_end := by
  have hc := h.cover j
  constructor
  · intro hj
    rw [if_pos hj] at hc
    have : 0 < t.m_nodes.countP (covers j) := by omega
    obtain ⟨node, hn, hcov⟩ := List.countP_pos_iff.mp this
    exact ⟨node, hn, by simpa [covers] using hcov⟩
  · rintro ⟨node, hn, hl⟩
    by_contra hj
    rw [if_neg hj] at hc
    have : 0 < t.m_nodes.countP (covers j) :=
      List.countP_pos_iff.mpr ⟨node, hn, by simpa [covers] using hl⟩
    omega

theorem partitioned_unique_leaf (t : tree_clusterizer V S) (h : Partitioned t)
    (hperm : (t.m_vectorsInfo.map VectorInfo.index).Perm (List.range t.m_vectors.length))
    (i : Nat) (hi : i < t.m_vectors.length) :
    ∃! p : Fin t.m_nodes.length, (t.m_nodes.get p).is_leaf ∧
      ∃ j, (t.m_nodes.get p).m_begin ≤ j ∧ j < (t.m_nodes.get p).m_end ∧
        ∃ vi, t.m_vectorsInfo.get? j = some vi ∧ vi.index = i := by
  have hnodup : (t.m_vectorsInfo.map VectorInfo.index).Nodup :=
    hperm.nodup_iff.mpr (List.nodup_range _)
  have hmem : i ∈ t.m_vectorsInfo.map VectorInfo.index :=
    hperm.mem_iff.mpr (List.mem_range.mpr hi)
  obtain ⟨vi, hvi, hidx⟩ := List.mem_map.mp hmem
  obtain ⟨j, hj, hget⟩ := List.mem_iff_getElem.mp hvi
  have hjn : j < t.m_vectors.length := by rw [← h.info_len]; exact hj
  obtain ⟨node, hnode, hleaf, hb, he⟩ := (partitioned_cover t h j).mp hjn
  obtain ⟨p, hp, hpe⟩ := List.mem_iff_getElem.mp hnode
  have hpget : t.m_nodes.get ⟨p, hp⟩ = node := hpe
  refine ⟨⟨p, hp⟩, ⟨by rw [hpget]; exact hleaf, j, by rw [hpget]; exact hb,
    by rw [hpget]; exact he, vi, by rw [List.get?_eq_getElem?, List.getElem?_eq_getElem hj, hget],
    hidx⟩, ?_⟩
  rintro q ⟨hql, j', hb', he', vi', hget', hidx'⟩
  have hj' : j' < t.m_vectorsInfo.length := by
    rw [List.get?_eq_some] at hget'
    exact hget'.1
  have hvi' : t.m_vectorsInfo[j'] = vi' := by
    rw [List.get?_eq_getElem?, List.getElem?_eq_getElem hj'] at hget'
    exact Option.some.inj hget'
  have hjj : j' = j := by
    exact nodup_map_index_inj VectorInfo.index t.m_vectorsInfo hnodup j' j hj' hj
      (by rw [hvi', hget, hidx, hidx'])
  by_contra hne
  refine partitioned_disjoint t h q ⟨p, hp⟩ hne hql (by rw [hpget]; exact hleaf) j ?_
  rw [hpget]
  rw [hjj] at hb' he'
  exact ⟨hb', he', hb, he⟩

end arrays

/-! ## The invariants after `generate_codebook` -/

section generated
variable {V S : Type} [LinearOrder V]

theorem generate_codebook_eq (A : Arith V S) (s : tree_clusterizer V S) (max_size : Nat)
    (flag : Bool) (hne : s.m_hist ≠ []) :
    (generate_codebook A s max_size flag).2
      = extract A flag (growth_passes A (max_size - 1) (build_root A (aggregate s))) := by
  unfold generate_codebook
  rw [if_neg hne, grow_eq]

omit [LinearOrder V] in
theorem build_root_fields (A : Arith V S) (s : tree_clusterizer V S) :
    (build_root A s).m_vectors = s.m_vectors ∧ (build_root A s).m_vectorsInfo = s.m_vectorsInfo ∧
    (build_root A s).m_hist = s.m_hist ∧
    (build_root A s).m_node_index_map = s.m_node_index_map :=
  ⟨rfl, rfl, rfl, rfl⟩

theorem generate_codebook_partitioned (A : Arith V S) (s : tree_clusterizer V S)
    (max_size : Nat) (flag : Bool) (hne : s.m_hist ≠ [])
    (hlen : (aggregate s).m_vectorsInfo.length = (aggregate s).m_vectors.length) :
    Partitioned (generate_codebook A s max_size flag).2 ∧
    (generate_codebook A s max_size flag).2.m_vectors = (aggregate s).m_vectors ∧
    (generate_codebook A s max_size flag).2.m_vectorsInfo.Perm (aggregate s).m_vectorsInfo := by
  rw [generate_codebook_eq A s max_size flag hne]
  have hp := build_root_partitioned A (aggregate s) hlen
  obtain ⟨g1, g2, g3, _, _⟩ := growth_passes_arrays A (max_size - 1) _ hp
  obtain ⟨x1, x2, x3, x4, x5, _⟩ := extract_fields A flag
    (growth_passes A (max_size - 1) (build_root A (aggregate s)))
  exact ⟨partitioned_of_erase _ _ g1 x1 x2 x3 x4 x5, x2.trans g2, x3 ▸ g3⟩

theorem generate_codebook_weighted (A : Arith V S) (s : tree_clusterizer V S)
    (max_size : Nat) (flag : Bool) (hne : s.m_hist ≠ [])
    (hlen : (aggregate s).m_vectorsInfo.length = (aggregate s).m_vectors.length)
    (hb : ∀ vi ∈ (aggregate s).m_vectorsInfo, vi.weight ≤ UINT_MAX)
    (hsize : (aggregate s).m_vectorsInfo.length ≤ UINT_SIZE) :
    Weighted (generate_codebook A s max_size flag).2 := by
  rw [generate_codebook_eq A s max_size flag hne]
  have hp := build_root_partitioned A (aggregate s) hlen
  have hw := build_root_weighted A (aggregate s) hlen hb hsize
  have gw := growth_passes_weighted A (max_size - 1) _ hp hw
  obtain ⟨x1, _, x3, _⟩ := extract_fields A flag
    (growth_passes A (max_size - 1) (build_root A (aggregate s)))
  exact weighted_of_erase _ _ gw x1 x3

theorem aggregate_sane (s : tree_clusterizer V S)
    (hlen : s.m_vectorsInfo.length = s.m_vectors.length)
    (hb : ∀ vi ∈ s.m_vectorsInfo, vi.weight ≤ UINT_MAX)
    (hw : ∀ p ∈ s.m_hist, p.2 ≤ UINT_MAX) :
    (aggregate s).m_vectorsInfo.length = (aggregate s).m_vectors.length ∧
    (∀ vi ∈ (aggregate s).m_vectorsInfo, vi.weight ≤ UINT_MAX) ∧
    (aggregate s).m_vectors.length ≤ s.m_vectors.length + s.m_hist.length := by
  have hw' : ∀ p ∈ sort_hist s.m_hist, p.2 ≤ UINT_MAX := fun p hp =>
    hw p ((sort_hist_perm s.m_hist).mem_iff.mp hp)
  have := aggregate_loop_sane none (sort_hist s.m_hist) s.m_vectors s.m_vectorsInfo hlen hb hw'
  rw [sort_hist_length] at this
  exact this

omit [LinearOrder V] in
theorem train_fields (s : tree_clusterizer V S) (hist : List (V × Nat)) :
    train s hist = { s with m_hist := s.m_hist ++ hist } := by
  induction hist generalizing s with
  | nil => simp [train]
  | cons p rest ih =>
    have : train s (p :: rest) = train (add_training_vec s p.1 p.2) rest := rfl
    rw [this, ih]
    simp [add_training_vec]

omit [LinearOrder V] in
theorem fresh_new : Fresh (tree_clusterizer.new : tree_clusterizer V S) :=
  ⟨rfl, rfl, rfl, rfl, rfl, rfl⟩

omit [LinearOrder V] in
theorem fresh_clear (s : tree_clusterizer V S) : Fresh (clear s) :=
  ⟨rfl, rfl, rfl, rfl, rfl, rfl⟩

theorem generate_codebook_sane (A : Arith V S) (s : tree_clusterizer V S) (max_size : Nat)
    (flag : Bool) (h : Sane s) : Sane (generate_codebook A s max_size flag).2 := by
  by_cases hne : s.m_hist = []
  · have : (generate_codebook A s max_size flag).2 = s := by
      unfold generate_codebook; rw [if_pos hne]
    rw [this]; exact h
  · obtain ⟨h1, h2, h3, _⟩ := h
    obtain ⟨a1, a2, _⟩ := aggregate_sane s h1 h2 h3
    obtain ⟨p1, p2, p3⟩ := generate_codebook_partitioned A s max_size flag hne a1
    have hh := generate_codebook_hist A s max_size flag
    refine ⟨p1.info_len, ?_, ?_, ?_⟩
    · intro vi hvi
      exact a2 vi (p3.mem_iff.mp hvi)
    · rw [hh]
      intro p hp
      exact h3 p ((sort_hist_perm s.m_hist).mem_iff.mp hp)
    · rw [hh, sort_hist_eq_nil]
      intro hc
      exact absurd hc hne

theorem run_sane (A : Arith V S) (calls : List (Call V)) (h : uint_weights calls) :
    Sane (run A calls) := by
  induction calls using List.reverseRecOn with
  | nil => exact ⟨rfl, by simp [run, tree_clusterizer.new], by simp [run, tree_clusterizer.new],
      fun _ => rfl⟩
  | append_singleton calls c ih =>
    have ih' := ih (fun c hc v w e => h c (List.mem_append_left _ hc) v w e)
    rw [run_concat]
    cases c with
    | clear =>
      exact ⟨rfl, by simp [Call.apply, clear], by simp [Call.apply, clear], fun _ => rfl⟩
    | add_training_vec v w =>
      obtain ⟨i1, i2, i3, _⟩ := ih'
      refine ⟨i1, i2, ?_, ?_⟩
      · intro p hp
        simp only [Call.apply, add_training_vec, List.mem_append, List.mem_singleton] at hp
        rcases hp with hp | hp
        · exact i3 p hp
        · rw [hp]
          exact h _ (by simp) v w rfl
      · intro hc
        simp [Call.apply, add_training_vec] at hc
    | generate_codebook k f =>
      exact generate_codebook_sane A _ k f ih'

theorem aggregate_single (s : tree_clusterizer V S) (hist : List (V × Nat)) (v : V)
    (hs : Fresh s) (hne : hist ≠ []) (hv : ∀ p ∈ hist, p.1 = v)
    (hw : ∀ p ∈ hist, p.2 ≤ UINT_MAX) :
    (aggregate (train s hist)).m_vectors = [v] ∧
    (aggregate (train s hist)).m_vectorsInfo
      = [{ index := 0, weight := min (obs_weight hist v) UINT_MAX }] := by
  obtain ⟨s1, s2, s3, _⟩ := hs
  have hh : (train s hist).m_hist = hist := by rw [train_fields]; simp [s1]
  have hagg := aggregate_fresh (train s hist) (by rw [train_fields]; exact s2)
    (by rw [train_fields]; exact s3)
  rw [hh] at hagg
  have hlen : (aggregate (train s hist)).m_vectorsInfo.length
      = (aggregate (train s hist)).m_vectors.length := by
    have := congrArg List.length hagg.index
    simpa using this
  have hw' : ∀ p ∈ sort_hist hist, p.2 ≤ UINT_MAX := fun p hp =>
    hw p ((sort_hist_perm hist).mem_iff.mp hp)
  have hobs : ∀ v, obs_weight (sort_hist hist) v = obs_weight hist v :=
    obs_weight_perm _ _ (sort_hist_perm hist)
  have hvs : (aggregate (train s hist)).m_vectors = [v] := by
    apply List.perm_singleton.mp
    rw [List.perm_ext_iff_of_nodup hagg.sorted.nodup (List.nodup_singleton v)]
    intro x
    rw [hagg.mem x, ((sort_hist_perm hist).map Prod.fst).mem_iff, List.mem_singleton]
    constructor
    · intro hx
      obtain ⟨p, hp, e⟩ := List.mem_map.mp hx
      rw [← e]; exact hv p hp
    · intro hx
      obtain ⟨p, rest, e⟩ := List.exists_cons_of_ne_nil hne
      rw [hx, e]
      have := hv p (by rw [e]; simp)
      simp [this]
  refine ⟨hvs, ?_⟩
  have hidx := hagg.index
  have hwt := hagg.weight hw'
  rw [hvs] at hidx hwt hlen
  obtain ⟨x, hx⟩ := List.length_eq_one.mp hlen
  rw [hx] at hidx hwt ⊢
  simp only [List.map_cons, List.map_nil, List.length_singleton, hobs] at hidx hwt
  have e1 : x.index = 0 := by
    have := List.head_eq_of_cons_eq hidx
    simpa using this
  have e2 : x.weight = min (obs_weight hist v) UINT_MAX := List.head_eq_of_cons_eq hwt
  cases x
  simp only at e1 e2
  rw [e1, e2]

end generated

/-! ## The exact arithmetic -/

section exact

theorem exact_centroid_list (l : List ℚ) (w : ℚ) (hw : w ≠ 0) :
    List.map (fun x => x * (1 / w))
      (List.zipWith (fun x y => x + y) (List.replicate l.length 0)
        (List.map (fun x => x * w) l)) = l := by
  induction l with
  | nil => rfl
  | cons a t ih =>
    simp only [List.length_cons, List.replicate_succ, List.map_cons, List.zipWith_cons_cons,
      ih]
    congr 1
    field_simp

theorem exact_centroid (N : Nat) (normalize : Vec N → Vec N) (v : Vec N) (W : Nat)
    (hW : 0 < W) :
    (exactArith N normalize).vscale
      ((exactArith N normalize).vadd (exactArith N normalize).vclear
        ((exactArith N normalize).vscale v ((exactArith N normalize).ofNat W)))
      ((exactArith N normalize).div (exactArith N normalize).one
        ((exactArith N normalize).ofNat W)) = v := by
  obtain ⟨l, hl⟩ := v
  apply Subtype.ext
  simp only [exactArith, Vec.map, Vec.zipWith, Vec.splat]
  rw [← hl]
  exact exact_centroid_list l (W : ℚ) (by positivity)

end exact

/-! ## The passes of the relocation loop -/

section passes
variable {V S : Type}

theorem getLast?_cons_of_some {α : Type} (a p : α) (l : List α) (h : l.getLast? = some p) :
    (a :: l).getLast? = some p := by
  cases l with
  | nil => simp at h
  | cons b t => rw [List.getLast?_cons_cons]; exact h

theorem relocation_loop_passes (A : Arith V S) (vectors weightedVectors : List V)
    (weightedDotProducts : List S) (m_begin : Nat) (ms : List VectorInfo) (n : Nat)
    (st : Relocation V S) :
    ((relocation_loop A vectors weightedVectors weightedDotProducts m_begin ms n st).1 = true →
      ∃ p, (relocation_passes A vectors weightedVectors weightedDotProducts m_begin ms n
          st).getLast? = some p ∧
        (weight_sum (ms.filter (goes_left A vectors p.1 p.2)) % UINT64_SIZE = 0 ∨
          weight_sum (ms.filter (fun vi => !goes_left A vectors p.1 p.2 vi)) % UINT64_SIZE
            = 0)) ∧
    ((relocation_loop A vectors weightedVectors weightedDotProducts m_begin ms n st).1 = false →
      (∀ p ∈ relocation_passes A vectors weightedVectors weightedDotProducts m_begin ms n st,
        weight_sum (ms.filter (goes_left A vectors p.1 p.2)) % UINT64_SIZE ≠ 0 ∧
        weight_sum (ms.filter (fun vi => !goes_left A vectors p.1 p.2 vi)) % UINT64_SIZE
          ≠ 0) ∧
      ((n = 0 ∧
          (relocation_loop A vectors weightedVectors weightedDotProducts m_begin ms n st).2
            = st) ∨
        ∃ p, (relocation_passes A vectors weightedVectors weightedDotProducts m_begin ms n
            st).getLast? = some p ∧
          Staged A vectors m_begin ms p.1 p.2
            (relocation_loop A vectors weightedVectors weightedDotProducts m_begin ms n
              st).2)) := by
  induction n generalizing st with
  | zero => simp [relocation_loop, relocation_passes]
  | succ n ih =>
    obtain ⟨r1, r2, r3, r4, r5⟩ := relocation_round_spec A vectors weightedVectors
      weightedDotProducts m_begin st.left_child st.right_child st.m_vectorsInfoLeft
      st.m_vectorsInfoRight ms
    have staged : ∀ (lv rv pv : S) (cl cr : V),
        Staged A vectors m_begin ms st.left_child st.right_child
          { left_child := cl, right_child := cr,
            left_weight := (relocation_round A vectors weightedVectors weightedDotProducts
              m_begin st.left_child st.right_child st.m_vectorsInfoLeft st.m_vectorsInfoRight
              ms).left_weight,
            right_weight := (relocation_round A vectors weightedVectors weightedDotProducts
              m_begin st.left_child st.right_child st.m_vectorsInfoLeft st.m_vectorsInfoRight
              ms).right_weight,
            left_info_index := (relocation_round A vectors weightedVectors weightedDotProducts
              m_begin st.left_child st.right_child st.m_vectorsInfoLeft st.m_vectorsInfoRight
              ms).left_info_index,
            right_info_index := (relocation_round A vectors weightedVectors weightedDotProducts
              m_begin st.left_child st.right_child st.m_vectorsInfoLeft st.m_vectorsInfoRight
              ms).right_info_index,
            prev_total_variance := pv, left_variance := lv, right_variance := rv,
            m_vectorsInfoLeft := (relocation_round A vectors weightedVectors weightedDotProducts
              m_begin st.left_child st.right_child st.m_vectorsInfoLeft st.m_vectorsInfoRight
              ms).m_vectorsInfoLeft,
            m_vectorsInfoRight := (relocation_round A vectors weightedVectors
              weightedDotProducts m_begin st.left_child st.right_child st.m_vectorsInfoLeft
              st.m_vectorsInfoRight ms).m_vectorsInfoRight } :=
      fun _ _ _ _ _ => ⟨st.m_vectorsInfoLeft, st.m_vectorsInfoRight, r1, r2, r3, r4, r5⟩
    simp only [relocation_loop, relocation_passes]
    split_ifs with h0 h1 h2
    · refine ⟨fun _ => ⟨(st.left_child, st.right_child), rfl, ?_⟩, fun h => ?_⟩
      · rw [← r4, ← r5]; exact h0
      · simp at h
    · refine ⟨fun h => by simp at h, fun _ => ⟨?_, Or.inr ⟨(st.left_child, st.right_child),
        rfl, staged _ _ _ _ _⟩⟩⟩
      intro p hp
      rw [List.mem_singleton.mp hp, ← r4, ← r5]
      exact ⟨fun h => h0 (Or.inl h), fun h => h0 (Or.inr h)⟩
    · refine ⟨fun h => by simp at h, fun _ => ⟨?_, Or.inr ⟨(st.left_child, st.right_child),
        rfl, staged _ _ _ _ _⟩⟩⟩
      intro p hp
      rw [List.mem_singleton.mp hp, ← r4, ← r5]
      exact ⟨fun h => h0 (Or.inl h), fun h => h0 (Or.inr h)⟩
    · obtain ⟨i1, i2⟩ := ih _
      refine ⟨fun h => ?_, fun h => ?_⟩
      · obtain ⟨p, e1, e2⟩ := i1 h
        exact ⟨p, getLast?_cons_of_some _ _ _ e1, e2⟩
      · obtain ⟨j1, j2⟩ := i2 h
        refine ⟨?_, Or.inr ?_⟩
        · intro p hp
          rcases List.mem_cons.mp hp with hp | hp
          · rw [hp, ← r4, ← r5]
            exact ⟨fun h => h0 (Or.inl h), fun h => h0 (Or.inr h)⟩
          · exact j1 p hp
        · rcases j2 with ⟨hn, hst⟩ | ⟨p, e1, e2⟩
          · subst hn
            refine ⟨(st.left_child, st.right_child), rfl, ?_⟩
            rw [hst]
            exact staged _ _ _ _ _
          · exact ⟨p, getLast?_cons_of_some _ _ _ e1, e2⟩

theorem relocate_passes (A : Arith V S) (s : tree_clusterizer V S) (i : Nat) :
    ((relocate A s i).1 = true ↔
      ∃ p ∈ passes A s i,
        weight_sum (lefts A s (node_at A s i) p.1 p.2) % UINT64_SIZE = 0 ∨
        weight_sum (rights A s (node_at A s i) p.1 p.2) % UINT64_SIZE = 0) ∧
    ((relocate A s i).1 = false →
      ∃ p, (passes A s i).getLast? = some p ∧
        Staged A s.m_vectors (node_at A s i).m_begin (members s (node_at A s i)) p.1 p.2
          (relocate A s i).2) := by
  obtain ⟨l1, l2⟩ := relocation_loop_passes A s.m_vectors s.m_weightedVectors
    s.m_weightedDotProducts (node_at A s i).m_begin (members s (node_at A s i)) cMaxLoops
    { left_child := (seeds A s.m_vectors s.m_weightedVectors (node_at A s i)
        (members s (node_at A s i))).1,
      right_child := (seeds A s.m_vectors s.m_weightedVectors (node_at A s i)
        (members s (node_at A s i))).2,
      left_weight := 0, right_weight := 0,
      left_info_index := 0, right_info_index := 0, prev_total_variance := A.huge,
      left_variance := A.zero, right_variance := A.zero,
      m_vectorsInfoLeft := s.m_vectorsInfoLeft, m_vectorsInfoRight := s.m_vectorsInfoRight }
  refine ⟨⟨fun h => ?_, fun h => ?_⟩, fun h => ?_⟩
  · obtain ⟨p, e1, e2⟩ := l1 h
    exact ⟨p, List.mem_of_getLast?_eq_some e1, e2⟩
  · obtain ⟨p, hp, e⟩ := h
    by_contra hc
    obtain ⟨c1, c2⟩ := (l2 (Bool.eq_false_iff.mpr hc)).1 p hp
    rcases e with e | e
    · exact c1 e
    · exact c2 e
  · rcases (l2 h).2 with ⟨h0, _⟩ | h3
    · exact absurd h0 (by decide)
    · exact h3

theorem split_node_commit (A : Arith V S) (s : tree_clusterizer V S) (i : Nat)
    (hb : (node_at A s i).m_begin ≤ (node_at A s i).m_end)
    (he : (node_at A s i).m_end ≤ s.m_vectorsInfo.length)
    (hL : (node_at A s i).m_end ≤ s.m_vectorsInfoLeft.length)
    (hR : (node_at A s i).m_end ≤ s.m_vectorsInfoRight.length)
    (h1 : (node_at A s i).m_begin + 1 ≠ (node_at A s i).m_end)
    (h2 : (relocate A s i).1 = false) :
    ∃ lc rc : V, (passes A s i).getLast? = some (lc, rc) ∧
      CommittedAt A s (split_node A s i) i lc rc := by
  obtain ⟨l1, l2, _⟩ := relocate_spec A s i
  obtain ⟨hiff, l3⟩ := relocate_passes A s i
  obtain ⟨⟨lc, rc⟩, hlast, L0, R0, f1, f2, f3, f4, f5⟩ := l3 h2
  have hmem := List.mem_of_getLast?_eq_some hlast
  have hnz : ¬ (weight_sum (lefts A s (node_at A s i) lc rc) % UINT64_SIZE = 0 ∨
      weight_sum (rights A s (node_at A s i) lc rc) % UINT64_SIZE = 0) := by
    intro hc
    have := hiff.mpr ⟨(lc, rc), hmem, hc⟩
    rw [h2] at this
    exact absurd this (by decide)
  replace f1 : (relocate A s i).2.left_info_index
      = (node_at A s i).m_begin + (lefts A s (node_at A s i) lc rc).length := f1
  replace f2 : (relocate A s i).2.m_vectorsInfoLeft
      = write_seq L0 (node_at A s i).m_begin (lefts A s (node_at A s i) lc rc) := f2
  replace f3 : (relocate A s i).2.m_vectorsInfoRight
      = write_seq R0 (node_at A s i).m_begin (rights A s (node_at A s i) lc rc) := f3
  replace f4 : (relocate A s i).2.left_weight
      = weight_sum (lefts A s (node_at A s i) lc rc) % UINT64_SIZE := f4
  replace f5 : (relocate A s i).2.right_weight
      = weight_sum (rights A s (node_at A s i) lc rc) % UINT64_SIZE := f5
  have hms : (members s (node_at A s i)).length
      = (node_at A s i).m_end - (node_at A s i).m_begin := slice_length _ _ _ he
  have hsum : (lefts A s (node_at A s i) lc rc).length
      + (rights A s (node_at A s i) lc rc).length = (members s (node_at A s i)).length :=
    filter_length_add (goes_left A s.m_vectors lc rc) (members s (node_at A s i))
  have hL0 : L0.length = s.m_vectorsInfoLeft.length := by
    rw [← l1, f2, write_seq_length]
  have hR0 : R0.length = s.m_vectorsInfoRight.length := by
    rw [← l2, f3, write_seq_length]
  refine ⟨lc, rc, hlast, (relocate A s i).2.left_child, (relocate A s i).2.right_child,
    (relocate A s i).2.left_variance, (relocate A s i).2.right_variance,
    fun h => hnz (Or.inl h), fun h => hnz (Or.inr h), ?_, ?_⟩
  · rw [split_node_eq, if_neg h1, if_neg (by rw [h2]; decide)]
    simp only [f1, f4, f5]
  · rw [split_node_eq, if_neg h1, if_neg (by rw [h2]; decide)]
    simp only [f1, f2, f3]
    have e1 : (node_at A s i).m_begin + (lefts A s (node_at A s i) lc rc).length
        - (node_at A s i).m_begin = (lefts A s (node_at A s i) lc rc).length := by
      omega
    rw [e1]
    exact memcpy_commit s.m_vectorsInfo _ _ _ _ _ _ hb he (by omega)
      (take_drop_write_seq _ _ _ (by omega)) (take_drop_write_seq _ _ _ (by omega))

end passes

/-! ## The scan for the leaf to split -/

section scan
variable {V S : Type}

/-- What the scan of `find_worst` returns, when `a > b` on scalars is a linear order: the
largest variance met among the accumulator and the leaves with the flag clear, with the index
of the first node that attains it. -/
theorem find_worst_max [LinearOrder S] (A : Arith V S)
    (hlt : ∀ a b : S, A.lt a b = decide (a < b)) (nodes : List (vq_node V S)) (i : Nat)
    (acc : Int × S) :
    (∀ k, ∀ h : k < nodes.length, (nodes.get ⟨k, h⟩).m_left = -1 →
      (nodes.get ⟨k, h⟩).m_unsplittable = false →
      (nodes.get ⟨k, h⟩).m_variance ≤ (find_worst A nodes i acc).2) ∧
    acc.2 ≤ (find_worst A nodes i acc).2 ∧
    (find_worst A nodes i acc = acc ∨
      ∃ k, ∃ h : k < nodes.length,
        find_worst A nodes i acc = (((i + k : Nat) : Int), (nodes.get ⟨k, h⟩).m_variance) ∧
        (nodes.get ⟨k, h⟩).m_left = -1 ∧ (nodes.get ⟨k, h⟩).m_unsplittable = false ∧
        acc.2 < (nodes.get ⟨k, h⟩).m_variance ∧
        ∀ j, ∀ hj : j < nodes.length, j < k → (nodes.get ⟨j, hj⟩).m_left = -1 →
          (nodes.get ⟨j, hj⟩).m_unsplittable = false →
          (nodes.get ⟨j, hj⟩).m_variance < (nodes.get ⟨k, h⟩).m_variance) := by
  induction nodes generalizing i acc with
  | nil => exact ⟨fun k h => absurd h (by simp), le_refl _, Or.inl rfl⟩
  | cons node rest ih =>
    unfold find_worst
    split_ifs with h1 h2
    · have skip : ¬ (node.m_left = -1 ∧ node.m_unsplittable = false) := by
        rintro ⟨c1, c2⟩
        rcases h1 with h1 | h1
        · exact h1 c1
        · rw [c2] at h1; exact absurd h1 (by decide)
      obtain ⟨a1, a2, a3⟩ := ih (i + 1) acc
      refine ⟨?_, a2, ?_⟩
      · intro k h e1 e2
        cases k with
        | zero => exact absurd (And.intro e1 e2) skip
        | succ k => exact a1 k (by simpa using h) (by simpa using e1) (by simpa using e2)
      · rcases a3 with a3 | ⟨k, h, b1, b2, b3, b4, b5⟩
        · exact Or.inl a3
        · refine Or.inr ⟨k + 1, by simpa using h, ?_, by simpa using b2, by simpa using b3,
            by simpa using b4, ?_⟩
          · rw [b1]; simp only [List.get_cons_succ]; congr 2; omega
          · intro j hj hjk e1 e2
            cases j with
            | zero => exact absurd (And.intro e1 e2) skip
            | succ j =>
              exact b5 j (by simpa using hj) (by omega) (by simpa using e1) (by simpa using e2)
    · have h2' : acc.2 < node.m_variance := by
        rw [hlt] at h2; exact of_decide_eq_true h2
      obtain ⟨a1, a2, a3⟩ := ih (i + 1) ((i : Int), node.m_variance)
      have a2' : node.m_variance ≤ (find_worst A rest (i + 1) ((i : Int), node.m_variance)).2 :=
        a2
      have hleft : node.m_left = -1 := by
        by_contra hc; exact h1 (Or.inl hc)
      have hflag : node.m_unsplittable = false := by
        cases hu : node.m_unsplittable with
        | false => rfl
        | true => exact absurd (Or.inr hu) h1
      refine ⟨?_, le_trans (le_of_lt h2') a2', ?_⟩
      · intro k h e1 e2
        cases k with
        | zero => exact a2'
        | succ k => exact a1 k (by simpa using h) (by simpa using e1) (by simpa using e2)
      · rcases a3 with a3 | ⟨k, h, b1, b2, b3, b4, b5⟩
        · refine Or.inr ⟨0, by simp, ?_, hleft, hflag, h2', ?_⟩
          · rw [a3]; simp
          · intro j hj hj0; omega
        · have b4' : node.m_variance < (rest.get ⟨k, h⟩).m_variance := b4
          refine Or.inr ⟨k + 1, by simpa using h, ?_, by simpa using b2, by simpa using b3,
            lt_trans h2' b4', ?_⟩
          · rw [b1]; simp only [List.get_cons_succ]; congr 2; omega
          · intro j hj hjk e1 e2
            cases j with
            | zero => exact b4'
            | succ j =>
              exact b5 j (by simpa using hj) (by omega) (by simpa using e1) (by simpa using e2)
    · have h2' : node.m_variance ≤ acc.2 := by
        rw [hlt] at h2
        exact not_lt.mp (fun hc => h2 (decide_eq_true hc))
      obtain ⟨a1, a2, a3⟩ := ih (i + 1) acc
      refine ⟨?_, a2, ?_⟩
      · intro k h e1 e2
        cases k with
        | zero => exact le_trans h2' a2
        | succ k => exact a1 k (by simpa using h) (by simpa using e1) (by simpa using e2)
      · rcases a3 with a3 | ⟨k, h, b1, b2, b3, b4, b5⟩
        · exact Or.inl a3
        · refine Or.inr ⟨k + 1, by simpa using h, ?_, by simpa using b2, by simpa using b3,
            by simpa using b4, ?_⟩
          · rw [b1]; simp only [List.get_cons_succ]; congr 2; omega
          · intro j hj hjk e1 e2
            cases j with
            | zero => exact lt_of_le_of_lt h2' b4
            | succ j =>
              exact b5 j (by simpa using hj) (by omega) (by simpa using e1) (by simpa using e2)

end scan

/-! ## Non-empty ranges -/

section populated
variable {V S : Type}

theorem get?_node_at (A : Arith V S) (s : tree_clusterizer V S) (i : Nat) (node : vq_node V S)
    (h : s.m_nodes.get? i = some node) : node_at A s i = node := by
  unfold node_at
  rw [List.getD_eq_getElem?_getD, ← List.get?_eq_getElem?, h]
  rfl

theorem split_node_populated (A : Arith V S) (s : tree_clusterizer V S) (i : Nat)
    (h : Partitioned s) (hp : Populated s) (hi : i < s.m_nodes.length) :
    Populated (split_node A s i) := by
  have hmem := node_at_mem A s i hi
  have hr := h.range _ hmem
  have hgeti : s.m_nodes.get? i = some (node_at A s i) := by
    rw [List.get?_eq_get hi, node_at_get A s i hi]
  rcases split_node_spec A s i hr.1 (by rw [h.info_len]; exact hr.2)
    (by rw [h.left_len]; exact hr.2) (by rw [h.right_len]; exact hr.2) with e | e | e
  · rw [e]; exact hp
  · obtain ⟨_, e2, _⟩ := e
    constructor
    · intro node hnode
      rw [e2] at hnode
      rcases mem_set_cases _ _ _ _ hnode with ⟨e3, _⟩ | ⟨k, hk, _, e3⟩
      · rw [e3]; exact hp.1 (node_at A s i) hmem
      · rw [← e3]; exact hp.1 _ (List.get_mem _ _ _)
    · intro k node hk hget
      rw [e2] at hget
      by_cases hki : k = i
      · subst hki
        rw [List.get?_eq_getElem?, List.getElem?_set_self hi] at hget
        injection hget with hget
        rw [← hget]
        exact hp.2 k (node_at A s k) hk hgeti
      · rw [List.get?_eq_getElem?, List.getElem?_set_ne (Ne.symm hki),
          ← List.get?_eq_getElem?] at hget
        exact hp.2 k node hk hget
  · obtain ⟨_, lc, rc, cl, cr, lv, rv, w1, w2, e2, _⟩ := e
    have hlen := committed_lengths A s (node_at A s i) lc rc (by rw [h.info_len]; exact hr.2)
    have l1 := weight_sum_pos_length _ w1
    have l2 := weight_sum_pos_length _ w2
    constructor
    · intro node hnode
      rw [e2] at hnode
      rcases List.mem_append.mp hnode with hnode | hnode
      · rcases mem_set_cases _ _ _ _ hnode with ⟨e3, _⟩ | ⟨k, hk, _, e3⟩
        · rw [e3]; exact hp.1 (node_at A s i) hmem
        · rw [← e3]; exact hp.1 _ (List.get_mem _ _ _)
      · simp only [List.mem_cons, List.mem_singleton, List.not_mem_nil, or_false] at hnode
        rcases hnode with e3 | e3
        · rw [e3]
          show (node_at A s i).m_begin
            < (node_at A s i).m_begin + (lefts A s (node_at A s i) lc rc).length
          omega
        · rw [e3]
          show (node_at A s i).m_begin + (lefts A s (node_at A s i) lc rc).length
            < (node_at A s i).m_end
          omega
    · intro k node hk hget
      rw [e2] at hget
      by_cases hklen : k < s.m_nodes.length
      · rw [List.get?_eq_getElem?, List.getElem?_append_left (by simpa using hklen)] at hget
        by_cases hki : k = i
        · subst hki
          rw [List.getElem?_set_self hi] at hget
          injection hget with hget
          rw [← hget]
          exact hp.2 k (node_at A s k) hk hgeti
        · rw [List.getElem?_set_ne (Ne.symm hki), ← List.get?_eq_getElem?] at hget
          exact hp.2 k node hk hget
      · rw [List.get?_eq_getElem?, List.getElem?_append_right (by simpa using hklen)] at hget
        simp only [List.length_set] at hget
        have hcases : k - s.m_nodes.length = 0 ∨ k - s.m_nodes.length = 1
            ∨ 2 ≤ k - s.m_nodes.length := by omega
        rcases hcases with hc | hc | hc
        · rw [hc] at hget
          simp only [List.getElem?_cons_zero] at hget
          injection hget with hget
          rw [← hget]
          exact Nat.pos_of_ne_zero w1
        · rw [hc] at hget
          simp only [List.getElem?_cons_succ, List.getElem?_cons_zero] at hget
          injection hget with hget
          rw [← hget]
          exact Nat.pos_of_ne_zero w2
        · rw [List.getElem?_eq_none (by simpa using hc)] at hget
          exact absurd hget (by simp)

theorem growth_passes_populated (A : Arith V S) (n : Nat) (s : tree_clusterizer V S)
    (h : Partitioned s) (hp : Populated s) :
    Partitioned (growth_passes A n s) ∧ Populated (growth_passes A n s) :=
  growth_passes_induct A (fun t => Partitioned t ∧ Populated t)
    (fun t i ht hi hleaf _ =>
      ⟨split_node_partitioned A t i ht.1 hi hleaf, split_node_populated A t i ht.1 ht.2 hi⟩)
    n s ⟨h, hp⟩

theorem build_root_populated (A : Arith V S) (s : tree_clusterizer V S)
    (hne : s.m_vectorsInfo ≠ []) : Populated (build_root A s) := by
  obtain ⟨root, r1, r2, r3, _⟩ := build_root_spec A s
  rw [Populated, r1]
  constructor
  · intro node hnode
    rw [List.mem_singleton.mp hnode, r2, r3]
    exact List.length_pos.mpr hne
  · intro k node hk hget
    cases k with
    | zero => omega
    | succ k => simp at hget

theorem populated_of_erase (s t : tree_clusterizer V S) (h : Populated s)
    (hn : t.m_nodes.map vq_node.erase_index = s.m_nodes.map vq_node.erase_index) :
    Populated t := by
  constructor
  · intro node hnode
    obtain ⟨n0, h0, e⟩ := mem_of_map_erase s.m_nodes t.m_nodes hn node hnode
    obtain ⟨_, _, e3, e4, _⟩ := erase_fields _ _ e
    rw [← e3, ← e4]
    exact h.1 n0 h0
  · intro k node hk hget
    obtain ⟨n0, h0, e⟩ := get?_of_map_erase t.m_nodes s.m_nodes hn.symm k node hget
    obtain ⟨_, _, _, _, e5, _⟩ := erase_fields _ _ e
    rw [← e5]
    exact h.2 k n0 hk h0

theorem leaf_count_le_cover (nodes : List (vq_node V S)) (n : Nat)
    (h : ∀ node ∈ nodes, node.m_begin < node.m_end ∧ node.m_end ≤ n) :
    leaf_count nodes ≤ ∑ j in Finset.range n, nodes.countP (covers j) := by
  induction nodes with
  | nil => simp [leaf_count]
  | cons node rest ih =>
    have ih' := ih (fun x hx => h x (List.mem_cons_of_mem _ hx))
    have hnode := h node (List.mem_cons_self _ _)
    simp only [leaf_count, List.countP_cons, Finset.sum_add_distrib] at ih' ⊢
    refine Nat.add_le_add ih' ?_
    by_cases hl : node.is_leaf
    · rw [if_pos (by simpa using hl)]
      have hmem : node.m_begin ∈ Finset.range n := by
        rw [Finset.mem_range]; omega
      have hc : covers node.m_begin node = true := by
        simp only [covers, decide_eq_true_eq]
        exact ⟨hl, le_refl _, hnode.1⟩
      calc 1 = (if covers node.m_begin node = true then 1 else 0) := by rw [if_pos hc]
        _ ≤ ∑ j in Finset.range n, (if covers j node = true then 1 else 0) :=
          Finset.single_le_sum (f := fun j => if covers j node = true then 1 else 0)
            (fun _ _ => Nat.zero_le _) hmem
    · rw [if_neg (by simpa using hl)]
      exact Nat.zero_le _

theorem leaf_count_le (t : tree_clusterizer V S) (h : Partitioned t)
    (hp : ∀ node ∈ t.m_nodes, node.m_begin < node.m_end) :
    leaf_count t.m_nodes ≤ t.m_vectors.length := by
  have h1 := leaf_count_le_cover t.m_nodes t.m_vectors.length
    (fun node hnode => ⟨hp node hnode, (h.range node hnode).2⟩)
  have h2 : ∑ j in Finset.range t.m_vectors.length, t.m_nodes.countP (covers j)
      = ∑ _j in Finset.range t.m_vectors.length, 1 := by
    refine Finset.sum_congr rfl (fun j hj => ?_)
    rw [h.cover j, if_pos (Finset.mem_range.mp hj)]
  rw [h2] at h1
  simpa using h1

end populated


section fresh_generate
variable {V S : Type} [LinearOrder V]

theorem codebook_size_eq_leaf_count (A : Arith V S) (s : tree_clusterizer V S)
    (max_size : Nat) (flag : Bool) (hne : s.m_hist ≠ []) :
    get_codebook_size (generate_codebook A s max_size flag).2
      = leaf_count (generate_codebook A s max_size flag).2.m_nodes := by
  obtain ⟨root, r1, _, _, r4, r5, _⟩ := build_root_spec A (aggregate s)
  have hl : Linked (build_root A (aggregate s)).m_nodes := by
    rw [r1]
    intro node hnode
    rw [List.mem_singleton.mp hnode]
    exact ⟨fun _ => r5, fun _ => r4⟩
  obtain ⟨g1, _, _⟩ := growth_passes_leaf_count A (max_size - 1) _ hl
  obtain ⟨e1, e2⟩ := extract_loop_spec A
    (growth_passes A (max_size - 1) (build_root A (aggregate s))).m_vectors
    (growth_passes A (max_size - 1) (build_root A (aggregate s))).m_vectorsInfo flag
    (growth_passes A (max_size - 1) (build_root A (aggregate s))).m_nodes []
    (growth_passes A (max_size - 1) (build_root A (aggregate s))).m_node_index_map
  rw [countP_left_eq_leaf_count _ g1] at e1
  simp only [List.length_nil, Nat.zero_add] at e1
  rw [generate_codebook_eq A s max_size flag hne]
  simp only [get_codebook_size, extract]
  rw [e1, e2]

/-- A generation on a fresh instance trained with `hist`: the arrays are the aggregation of
`hist`, permuted by the growth of the tree, and the tree partitions the live array. -/
theorem fresh_generate_spec (A : Arith V S) (s : tree_clusterizer V S)
    (hist : List (V × Nat)) (max_size : Nat) (flag : Bool) (hs : Fresh s) (hne : hist ≠ []) :
    (train s hist).m_hist ≠ [] ∧
    Partitioned (generate_codebook A (train s hist) max_size flag).2 ∧
    (generate_codebook A (train s hist) max_size flag).2.m_vectors.Sorted (fun a b => a < b) ∧
    (∀ v, v ∈ (generate_codebook A (train s hist) max_size flag).2.m_vectors
      ↔ v ∈ hist.map Prod.fst) ∧
    ((generate_codebook A (train s hist) max_size flag).2.m_vectorsInfo.map
      VectorInfo.index).Perm
      (List.range (generate_codebook A (train s hist) max_size flag).2.m_vectors.length) ∧
    (generate_codebook A (train s hist) max_size flag).2.m_vectors.length
      = (hist.map Prod.fst).dedup.length ∧
    (generate_codebook A (train s hist) max_size flag).2.m_vectors
      = (aggregate (train s hist)).m_vectors ∧
    (aggregate (train s hist)).m_vectorsInfo.length
      = (aggregate (train s hist)).m_vectors.length := by
  obtain ⟨s1, s2, s3, _⟩ := hs
  have hh : (train s hist).m_hist = hist := by rw [train_fields]; simp [s1]
  have hne' : (train s hist).m_hist ≠ [] := by rw [hh]; exact hne
  have hagg := aggregate_fresh (train s hist) (by rw [train_fields]; exact s2)
    (by rw [train_fields]; exact s3)
  rw [hh] at hagg
  have hlen : (aggregate (train s hist)).m_vectorsInfo.length
      = (aggregate (train s hist)).m_vectors.length := by
    have := congrArg List.length hagg.index
    simpa using this
  obtain ⟨p1, p2, p3⟩ := generate_codebook_partitioned A (train s hist) max_size flag hne' hlen
  have hmem : ∀ v, v ∈ (aggregate (train s hist)).m_vectors ↔ v ∈ hist.map Prod.fst := by
    intro v
    rw [hagg.mem v]
    exact (sort_hist_perm hist).map Prod.fst |>.mem_iff
  refine ⟨hne', p1, ?_, ?_, ?_, ?_, p2, hlen⟩
  · rw [p2]; exact hagg.sorted
  · rw [p2]; exact hmem
  · rw [p2, ← hagg.index]
    exact p3.map _
  · rw [p2]
    apply List.Perm.length_eq
    rw [List.perm_ext_iff_of_nodup hagg.sorted.nodup (List.nodup_dedup _)]
    intro v
    rw [hmem v, List.mem_dedup]

theorem generate_codebook_populated (A : Arith V S) (s : tree_clusterizer V S)
    (max_size : Nat) (flag : Bool) (hne : s.m_hist ≠ [])
    (hlen : (aggregate s).m_vectorsInfo.length = (aggregate s).m_vectors.length)
    (hinfo : (aggregate s).m_vectorsInfo ≠ []) :
    Populated (generate_codebook A s max_size flag).2 := by
  rw [generate_codebook_eq A s max_size flag hne]
  have hp := build_root_partitioned A (aggregate s) hlen
  have hq := build_root_populated A (aggregate s) hinfo
  obtain ⟨_, g2⟩ := growth_passes_populated A (max_size - 1) _ hp hq
  exact populated_of_erase _ _ g2 (extract_fields A flag _).1

end fresh_generate

/-! ## Child links -/

section links
variable {V S : Type}

theorem split_node_internal (A : Arith V S) (s : tree_clusterizer V S) (i : Nat)
    (hleaf : (node_at A s i).m_left = -1) (k : Nat) (node : vq_node V S)
    (hget : s.m_nodes.get? k = some node) (hint : node.m_left ≠ -1) :
    (split_node A s i).m_nodes.get? k = some node := by
  have hk : k < s.m_nodes.length := (List.get?_eq_some.mp hget).1
  have hki : k ≠ i := by
    intro hc
    rw [hc] at hget
    rw [get?_node_at A s i node hget] at hleaf
    exact hint hleaf
  rcases split_node_nodes A s i with e | e | ⟨l, r, _, _, e⟩
  · rw [e]; exact hget
  · rw [e, List.get?_eq_getElem?, List.getElem?_set_ne (Ne.symm hki), ← List.get?_eq_getElem?]
    exact hget
  · rw [e, List.get?_eq_getElem?, List.getElem?_append_left (by simpa using hk),
      List.getElem?_set_ne (Ne.symm hki), ← List.get?_eq_getElem?]
    exact hget

theorem growth_passes_internal (A : Arith V S) (m : Nat) (s : tree_clusterizer V S)
    (k : Nat) (node : vq_node V S) (hget : s.m_nodes.get? k = some node)
    (hint : node.m_left ≠ -1) : (growth_passes A m s).m_nodes.get? k = some node := by
  induction m generalizing s with
  | zero => exact hget
  | succ m ih =>
    rw [growth_passes_succ]
    split_ifs with h
    · exact hget
    · obtain ⟨_, v2, _⟩ := find_worst_valid A s h
      exact ih _ (split_node_internal A s _ v2 k node hget hint)

theorem extract_loop_internal (A : Arith V S) (vectors : List V) (infos : List VectorInfo)
    (flag : Bool) (nodes : List (vq_node V S)) (codebook : List V) (m : List (V × Nat))
    (k : Nat) (node : vq_node V S) (hget : nodes.get? k = some node)
    (hint : node.m_left ≠ -1) :
    (extract_loop A vectors infos flag nodes codebook m).1.get? k = some node := by
  induction nodes generalizing codebook m k with
  | nil => simp at hget
  | cons n0 rest ih =>
    cases k with
    | zero =>
      have e : n0 = node := by simpa using hget
      rw [e, extract_loop_inner A vectors infos flag node rest codebook m hint]
      rfl
    | succ k =>
      have hget' : rest.get? k = some node := by simpa using hget
      by_cases h0 : n0.m_left = -1
      · rw [extract_loop_leaf A vectors infos flag n0 rest codebook m h0]
        exact ih _ _ k hget'
      · rw [extract_loop_inner A vectors infos flag n0 rest codebook m h0]
        exact ih _ _ k hget'

theorem linked_of_erase (nodes nodes' : List (vq_node V S)) (h : Linked nodes)
    (hn : nodes'.map vq_node.erase_index = nodes.map vq_node.erase_index) : Linked nodes' := by
  intro node hnode
  obtain ⟨n0, h0, e⟩ := mem_of_map_erase nodes nodes' hn node hnode
  obtain ⟨e1, e2, _⟩ := erase_fields _ _ e
  rw [← e1, ← e2]
  exact h n0 h0

theorem extract_asserts_of_linked (nodes : List (vq_node V S)) (h : Linked nodes) :
    ∀ node ∈ nodes, extract_asserts node := by
  intro node hnode
  unfold extract_asserts
  split_ifs with c
  · exact fun hr => c ((h node hnode).mpr hr)
  · have c' : node.m_left = -1 := by simpa using c
    exact ⟨c', (h node hnode).mp c'⟩

theorem build_root_linked (A : Arith V S) (s : tree_clusterizer V S) :
    Linked (build_root A s).m_nodes := by
  obtain ⟨root, r1, _, _, r4, r5, _⟩ := build_root_spec A s
  rw [r1]
  intro node hnode
  rw [List.mem_singleton.mp hnode]
  exact ⟨fun _ => r5, fun _ => r4⟩

end links


section links_generate
variable {V S : Type} [LinearOrder V]

theorem generate_codebook_linked (A : Arith V S) (s : tree_clusterizer V S) (max_size : Nat)
    (flag : Bool) (h : Linked s.m_nodes) :
    Linked (generate_codebook A s max_size flag).2.m_nodes := by
  by_cases hne : s.m_hist = []
  · simp only [generate_codebook, hne, if_true]
    exact h
  · rw [generate_codebook_eq A s max_size flag hne]
    exact linked_of_erase _ _
      (growth_passes_leaf_count A (max_size - 1) _ (build_root_linked A (aggregate s))).1
      (extract_fields A flag _).1

theorem run_linked (A : Arith V S) (calls : List (Call V)) : Linked (run A calls).m_nodes := by
  induction calls using List.reverseRecOn with
  | nil => intro node hnode; simp [run, tree_clusterizer.new] at hnode
  | append_singleton calls c ih =>
    rw [run_concat]
    cases c with
    | clear => intro node hnode; simp [Call.apply, clear] at hnode
    | add_training_vec v w => exact ih
    | generate_codebook max_size flag => exact generate_codebook_linked A _ max_size flag ih

end links_generate

/-! ## The reverse map -/

section lookup_lists
variable {α : Type}

theorem mem_slice_iff (l : List α) (b e : Nat) (x : α) :
    x ∈ slice l b e ↔ ∃ j, b ≤ j ∧ j < e ∧ l.get? j = some x := by
  unfold slice
  rw [List.mem_iff_getElem?]
  constructor
  · rintro ⟨n, hn⟩
    rw [List.getElem?_drop, List.getElem?_take] at hn
    split_ifs at hn with h
    exact ⟨b + n, by omega, h, by rw [List.get?_eq_getElem?]; exact hn⟩
  · rintro ⟨j, h1, h2, h3⟩
    refine ⟨j - b, ?_⟩
    rw [List.getElem?_drop, List.getElem?_take, if_pos (by omega)]
    rw [List.get?_eq_getElem?] at h3
    rw [← h3]
    congr 1
    omega

theorem hash_map_find_mem {V : Type} [DecidableEq V] (m : List (V × Nat)) (v : V)
    (h : ∃ k, (v, k) ∈ m) : ∃ k, hash_map_find m v = some k ∧ (v, k) ∈ m := by
  obtain ⟨k0, hk0⟩ := h
  unfold hash_map_find
  cases hf : m.find? (fun p => decide (p.1 = v)) with
  | none =>
    rw [List.find?_eq_none] at hf
    exact absurd (by simp) (hf _ hk0)
  | some p =>
    have h1 := List.find?_some hf
    have h2 := List.mem_of_find?_eq_some hf
    have h3 : p.1 = v := by simpa using h1
    refine ⟨p.2, rfl, ?_⟩
    rw [← h3]
    exact h2

end lookup_lists


section lookup
variable {V S : Type}

theorem mem_map_members (A : Arith V S) (vectors : List V) (codebook_index : Nat)
    (m : List (V × Nat)) (ms : List VectorInfo) (v : V) (k : Nat) :
    (v, k) ∈ map_members A vectors codebook_index m ms ↔
      (v, k) ∈ m ∨
        (k = codebook_index ∧ ∃ vi ∈ ms, vectors.getD vi.index A.vclear = v) := by
  unfold map_members
  induction ms generalizing m with
  | nil => simp
  | cons vi rest ih =>
    rw [List.foldl_cons, ih]
    simp only [hash_map_insert, List.mem_cons, Prod.mk.injEq]
    constructor
    · rintro ((⟨e1, e2⟩ | h) | ⟨e, vi', h1, h2⟩)
      · exact Or.inr ⟨e2, vi, Or.inl rfl, e1.symm⟩
      · exact Or.inl h
      · exact Or.inr ⟨e, vi', Or.inr h1, h2⟩
    · rintro (h | ⟨e, vi', h1 | h1, h2⟩)
      · exact Or.inl (Or.inr h)
      · rw [h1] at h2
        exact Or.inl (Or.inl ⟨h2.symm, e⟩)
      · exact Or.inr ⟨e, vi', h1, h2⟩

/-- The extraction loop with the reverse map requested: every binding of the map is an old
one or binds a member of a leaf to the codebook index of that leaf, every member of a leaf
is bound, and the codebook index of a leaf is the position of its centroid in the
codebook. -/
theorem extract_loop_map (A : Arith V S) (vectors : List V) (infos : List VectorInfo)
    (nodes : List (vq_node V S)) (codebook : List V) (m : List (V × Nat)) :
    (∀ v k, (v, k) ∈ (extract_loop A vectors infos true nodes codebook m).2.2 →
      (v, k) ∈ m ∨
      ∃ node ∈ (extract_loop A vectors infos true nodes codebook m).1,
        node.m_left = -1 ∧ node.m_codebook_index = (k : Int) ∧
        ∃ vi ∈ slice infos node.m_begin node.m_end, vectors.getD vi.index A.vclear = v) ∧
    (∀ node ∈ (extract_loop A vectors infos true nodes codebook m).1, node.m_left = -1 →
      ∀ vi ∈ slice infos node.m_begin node.m_end,
        ∃ k, (vectors.getD vi.index A.vclear, k)
          ∈ (extract_loop A vectors infos true nodes codebook m).2.2) ∧
    (∀ node ∈ (extract_loop A vectors infos true nodes codebook m).1, node.m_left = -1 →
      ∃ k : Nat, node.m_codebook_index = (k : Int) ∧ codebook.length ≤ k ∧
        (extract_loop A vectors infos true nodes codebook m).2.1.get? k
          = some node.m_centroid) ∧
    (∃ ext, (extract_loop A vectors infos true nodes codebook m).2.1 = codebook ++ ext) ∧
    (∀ p ∈ m, p ∈ (extract_loop A vectors infos true nodes codebook m).2.2) := by
  induction nodes generalizing codebook m with
  | nil =>
    refine ⟨fun v k h => Or.inl h, ?_, ?_, ⟨[], by simp [extract_loop]⟩, fun p h => h⟩
    · intro node hnode; simp [extract_loop] at hnode
    · intro node hnode; simp [extract_loop] at hnode
  | cons n0 rest ih =>
    by_cases h0 : n0.m_left = -1
    · rw [extract_loop_leaf A vectors infos true n0 rest codebook m h0]
      simp only [if_true]
      obtain ⟨a, b, c, ⟨ext, d⟩, e⟩ := ih (codebook ++ [n0.m_centroid])
        (map_members A vectors codebook.length m (slice infos n0.m_begin n0.m_end))
      refine ⟨?_, ?_, ?_, ⟨n0.m_centroid :: ext, by rw [d]; simp⟩, ?_⟩
      · intro v k hvk
        rcases a v k hvk with h | ⟨node, h1, h2⟩
        · rcases (mem_map_members A vectors _ m _ v k).mp h with h | ⟨e1, vi, e2, e3⟩
          · exact Or.inl h
          · refine Or.inr ⟨_, List.mem_cons_self _ _, h0, ?_, vi, e2, e3⟩
            rw [e1]
        · exact Or.inr ⟨node, List.mem_cons_of_mem _ h1, h2⟩
      · intro node hnode hl vi hvi
        rcases List.mem_cons.mp hnode with h | h
        · rw [h] at hvi
          exact ⟨codebook.length, e _ ((mem_map_members A vectors _ m _ _ _).mpr
            (Or.inr ⟨rfl, vi, hvi, rfl⟩))⟩
        · exact b node h hl vi hvi
      · intro node hnode hl
        rcases List.mem_cons.mp hnode with h | h
        · refine ⟨codebook.length, by rw [h], le_refl _, ?_⟩
          rw [h, d, List.get?_eq_getElem?, List.append_assoc,
            List.getElem?_append_right (le_refl _)]
          simp
        · obtain ⟨k, c1, c2, c3⟩ := c node h hl
          refine ⟨k, c1, ?_, c3⟩
          simp only [List.length_append, List.length_singleton] at c2
          omega
      · intro p hp
        exact e p ((mem_map_members A vectors _ m _ p.1 p.2).mpr (Or.inl hp))
    · rw [extract_loop_inner A vectors infos true n0 rest codebook m h0]
      obtain ⟨a, b, c, d, e⟩ := ih codebook m
      refine ⟨?_, ?_, ?_, d, e⟩
      · intro v k hvk
        rcases a v k hvk with h | ⟨node, h1, h2⟩
        · exact Or.inl h
        · exact Or.inr ⟨node, List.mem_cons_of_mem _ h1, h2⟩
      · intro node hnode hl vi hvi
        rcases List.mem_cons.mp hnode with h | h
        · rw [h] at hl; exact absurd hl h0
        · exact b node h hl vi hvi
      · intro node hnode hl
        rcases List.mem_cons.mp hnode with h | h
        · rw [h] at hl; exact absurd hl h0
        · exact c node h hl

end lookup

section lookup_generate
variable {V S : Type} [LinearOrder V]

theorem sorted_get?_inj (l : List V) (h : l.Sorted (fun a b => a < b)) (i j : Nat) (v : V)
    (hi : l.get? i = some v) (hj : l.get? j = some v) : i = j := by
  have hnd : l.Nodup := h.nodup
  obtain ⟨hil, ei⟩ := List.get?_eq_some.mp hi
  obtain ⟨hjl, ej⟩ := List.get?_eq_some.mp hj
  have := (List.Nodup.get_inj_iff hnd (i := ⟨i, hil⟩) (j := ⟨j, hjl⟩)).mp (by rw [ei, ej])
  exact Fin.mk.inj_iff.mp this

/-- The reverse map after a generation with the map requested, on a fresh instance: a
trained vector `v`, the entry `i` of the unique-vector array, is bound to the codebook index
of a leaf that holds `i`, whose centroid is the codebook entry of that index. -/
theorem fresh_generate_lookup [DecidableEq V] (A : Arith V S) (s : tree_clusterizer V S)
    (hist : List (V × Nat)) (max_size : Nat) (hs : Fresh s) (v : V)
    (hv : v ∈ hist.map Prod.fst) :
    ∃ k i : Nat, ∃ node ∈ (generate_codebook A (train s hist) max_size true).2.m_nodes,
      get_node_index (generate_codebook A (train s hist) max_size true).2 v = some k ∧
      (generate_codebook A (train s hist) max_size true).2.m_vectors.get? i = some v ∧
      node.is_leaf ∧ holds (generate_codebook A (train s hist) max_size true).2 node i ∧
      node.m_codebook_index = (k : Int) ∧
      get_codebook_entry (generate_codebook A (train s hist) max_size true).2 k
        = some node.m_centroid := by
  have hne : hist ≠ [] := by
    intro hc; rw [hc] at hv; simp at hv
  obtain ⟨hne', p1, hsorted, hmem, hperm, _, p2, hlen⟩ :=
    fresh_generate_spec A s hist max_size true hs hne
  -- the instance before the extraction loop
  have hgen := generate_codebook_eq A (train s hist) max_size true hne'
  have hbp := build_root_partitioned A (aggregate (train s hist)) hlen
  obtain ⟨_, _, _, _, gmap⟩ := growth_passes_arrays A (max_size - 1) _ hbp
  have hmap0 : (growth_passes A (max_size - 1)
      (build_root A (aggregate (train s hist)))).m_node_index_map = [] := by
    rw [gmap, (build_root_fields A _).2.2.2]
    show (train s hist).m_node_index_map = []
    rw [train_fields]
    exact hs.2.2.2.2.2
  obtain ⟨xa, xb, xc, _, _⟩ := extract_loop_map A
    (growth_passes A (max_size - 1) (build_root A (aggregate (train s hist)))).m_vectors
    (growth_passes A (max_size - 1) (build_root A (aggregate (train s hist)))).m_vectorsInfo
    (growth_passes A (max_size - 1) (build_root A (aggregate (train s hist)))).m_nodes []
    (growth_passes A (max_size - 1) (build_root A (aggregate (train s hist)))).m_node_index_map
  rw [hmap0] at xa xb xc
  have hlinks := p1.links
  rw [hgen] at p1 hsorted hmem hperm hlinks ⊢
  have en : (extract A true (growth_passes A (max_size - 1)
      (build_root A (aggregate (train s hist))))).m_nodes
      = (extract_loop A
        (growth_passes A (max_size - 1) (build_root A (aggregate (train s hist)))).m_vectors
        (growth_passes A (max_size - 1) (build_root A (aggregate (train s hist)))).m_vectorsInfo
        true
        (growth_passes A (max_size - 1) (build_root A (aggregate (train s hist)))).m_nodes []
        []).1 := by
    simp only [extract, hmap0]
  have em : (extract A true (growth_passes A (max_size - 1)
      (build_root A (aggregate (train s hist))))).m_node_index_map
      = (extract_loop A
        (growth_passes A (max_size - 1) (build_root A (aggregate (train s hist)))).m_vectors
        (growth_passes A (max_size - 1) (build_root A (aggregate (train s hist)))).m_vectorsInfo
        true
        (growth_passes A (max_size - 1) (build_root A (aggregate (train s hist)))).m_nodes []
        []).2.2 := by
    simp only [extract, hmap0]
  have ec : (extract A true (growth_passes A (max_size - 1)
      (build_root A (aggregate (train s hist))))).m_codebook
      = (extract_loop A
        (growth_passes A (max_size - 1) (build_root A (aggregate (train s hist)))).m_vectors
        (growth_passes A (max_size - 1) (build_root A (aggregate (train s hist)))).m_vectorsInfo
        true
        (growth_passes A (max_size - 1) (build_root A (aggregate (train s hist)))).m_nodes []
        []).2.1 := by
    simp only [extract, hmap0]
  obtain ⟨_, ev, ei, _⟩ := extract_fields A true
    (growth_passes A (max_size - 1) (build_root A (aggregate (train s hist))))
  rw [← en, ← em] at xa xb
  rw [← en, ← ec] at xc
  rw [← ev, ← ei] at xa xb
  -- abbreviate the final instance
  generalize extract A true (growth_passes A (max_size - 1)
    (build_root A (aggregate (train s hist)))) = t at *
  -- the entry of `v` and a position referring to it
  obtain ⟨i, hi⟩ := List.mem_iff_get?.mp ((hmem v).mpr hv)
  have hilt : i < t.m_vectors.length := (List.get?_eq_some.mp hi).1
  have hidx : i ∈ t.m_vectorsInfo.map VectorInfo.index :=
    hperm.mem_iff.mpr (List.mem_range.mpr hilt)
  obtain ⟨vi, hvi, hvii⟩ := List.mem_map.mp hidx
  obtain ⟨j, hj⟩ := List.mem_iff_get?.mp hvi
  have hjlt : j < t.m_vectors.length := by
    rw [← p1.info_len]; exact (List.get?_eq_some.mp hj).1
  obtain ⟨leaf, hleaf, hl1, hl2, hl3⟩ := (partitioned_cover t p1 j).mp hjlt
  have hgetD : ∀ x : VectorInfo, x.index = i → t.m_vectors.getD x.index A.vclear = v := by
    intro x hx
    rw [hx, List.getD_eq_getElem?_getD, ← List.get?_eq_getElem?, hi]
    rfl
  -- the vector is bound
  obtain ⟨k0, hk0⟩ := xb leaf hleaf hl1.1 vi ((mem_slice_iff _ _ _ _).mpr ⟨j, hl2, hl3, hj⟩)
  rw [hgetD vi hvii] at hk0
  obtain ⟨k, hfind, hbind⟩ := hash_map_find_mem t.m_node_index_map v ⟨k0, hk0⟩
  -- the binding comes from a leaf that holds the entry
  rcases xa v k hbind with hnil | ⟨node, hnode, hnl, hcb, vi2, hvi2, hv2⟩
  · exact absurd hnil (List.not_mem_nil _)
  · obtain ⟨j2, b1, b2, b3⟩ := (mem_slice_iff _ _ _ _).mp hvi2
    have hvi2mem : vi2 ∈ t.m_vectorsInfo := List.get?_mem b3
    have hi2lt : vi2.index < t.m_vectors.length :=
      List.mem_range.mp (hperm.mem_iff.mp (List.mem_map_of_mem _ hvi2mem))
    have hi2 : t.m_vectors.get? vi2.index = some v := by
      rw [List.getD_eq_getElem?_getD, List.getElem?_eq_getElem hi2lt] at hv2
      rw [List.get?_eq_getElem?, List.getElem?_eq_getElem hi2lt]
      exact congrArg some hv2
    have hsame : vi2.index = i := sorted_get?_inj _ hsorted _ _ v hi2 hi
    obtain ⟨k', c1, _, c3⟩ := xc node hnode hnl
    have hkk : k' = k := by
      rw [hcb] at c1
      exact (Int.ofNat_inj.mp c1).symm
    rw [hkk] at c3
    exact ⟨k, i, node, hnode, hfind, hi, ⟨hnl, (hlinks node hnode).mp hnl⟩,
      ⟨j2, b1, b2, vi2, b3, hsame⟩, hcb, c3⟩

end lookup_generate

section lookup_onto
variable {V S : Type}

end lookup_onto


section lookup_onto_generate
variable {V S : Type} [LinearOrder V]

end lookup_onto_generate

/-! ## The scratch arrays -/

section scratch
variable {V S : Type}

theorem assign_member_core (A : Arith V S) (vectors weightedVectors : List V)
    (weightedDotProducts : List S) (lc rc : V) (r : Round V S) (vi : VectorInfo) :
    (assign_member A vectors weightedVectors weightedDotProducts lc rc r vi).core
      = (assign_member A vectors weightedVectors weightedDotProducts lc rc r.core vi).core := by
  unfold assign_member
  simp only []
  split_ifs <;> rfl

theorem assign_fold_core (A : Arith V S) (vectors weightedVectors : List V)
    (weightedDotProducts : List S) (lc rc : V) (ms : List VectorInfo) (r r2 : Round V S)
    (h : r.core = r2.core) :
    (ms.foldl (assign_member A vectors weightedVectors weightedDotProducts lc rc) r).core
      = (ms.foldl (assign_member A vectors weightedVectors weightedDotProducts lc rc)
          r2).core := by
  induction ms generalizing r r2 with
  | nil => exact h
  | cons vi rest ih =>
    simp only [List.foldl_cons]
    apply ih
    rw [assign_member_core A _ _ _ _ _ r, assign_member_core A _ _ _ _ _ r2, h]

theorem relocation_round_core (A : Arith V S) (vectors weightedVectors : List V)
    (weightedDotProducts : List S) (m_begin : Nat) (lc rc : V)
    (L R L2 R2 ms : List VectorInfo) :
    (relocation_round A vectors weightedVectors weightedDotProducts m_begin lc rc L R ms).core
      = (relocation_round A vectors weightedVectors weightedDotProducts m_begin lc rc L2 R2
          ms).core :=
  assign_fold_core A vectors weightedVectors weightedDotProducts lc rc ms _ _ rfl

theorem relocation_loop_core (A : Arith V S) (vectors weightedVectors : List V)
    (weightedDotProducts : List S) (m_begin : Nat) (ms : List VectorInfo) (n : Nat)
    (st st2 : Relocation V S) (h : st.core = st2.core) :
    (relocation_loop A vectors weightedVectors weightedDotProducts m_begin ms n st).1
      = (relocation_loop A vectors weightedVectors weightedDotProducts m_begin ms n st2).1 ∧
    (relocation_loop A vectors weightedVectors weightedDotProducts m_begin ms n st).2.core
      = (relocation_loop A vectors weightedVectors weightedDotProducts m_begin ms n
          st2).2.core ∧
    relocation_passes A vectors weightedVectors weightedDotProducts m_begin ms n st
      = relocation_passes A vectors weightedVectors weightedDotProducts m_begin ms n st2 := by
  induction n generalizing st st2 with
  | zero => exact ⟨rfl, h, rfl⟩
  | succ n ih =>
    have c1 : st.left_child = st2.left_child := by
      have hh := congrArg Relocation.left_child h
      exact hh
    have c2 : st.right_child = st2.right_child := by
      have hh := congrArg Relocation.right_child h
      exact hh
    have c3 : st.prev_total_variance = st2.prev_total_variance := by
      have hh := congrArg Relocation.prev_total_variance h
      exact hh
    have c4 : st.left_variance = st2.left_variance := by
      have hh := congrArg Relocation.left_variance h
      exact hh
    have c5 : st.right_variance = st2.right_variance := by
      have hh := congrArg Relocation.right_variance h
      exact hh
    have hr := relocation_round_core A vectors weightedVectors weightedDotProducts m_begin
      st.left_child st.right_child st.m_vectorsInfoLeft st.m_vectorsInfoRight
      st2.m_vectorsInfoLeft st2.m_vectorsInfoRight ms
    simp only [relocation_loop, relocation_passes]
    rw [← c1, ← c2, ← c3]
    generalize relocation_round A vectors weightedVectors weightedDotProducts m_begin
      st.left_child st.right_child st.m_vectorsInfoLeft st.m_vectorsInfoRight ms = r at hr ⊢
    generalize relocation_round A vectors weightedVectors weightedDotProducts m_begin
      st.left_child st.right_child st2.m_vectorsInfoLeft st2.m_vectorsInfoRight ms = r2 at hr ⊢
    have e1 : r.new_left_child = r2.new_left_child := by
      have hh := congrArg Round.new_left_child hr
      exact hh
    have e2 : r.new_right_child = r2.new_right_child := by
      have hh := congrArg Round.new_right_child hr
      exact hh
    have e3 : r.left_ttsum = r2.left_ttsum := by
      have hh := congrArg Round.left_ttsum hr
      exact hh
    have e4 : r.right_ttsum = r2.right_ttsum := by
      have hh := congrArg Round.right_ttsum hr
      exact hh
    have e5 : r.left_weight = r2.left_weight := by
      have hh := congrArg Round.left_weight hr
      exact hh
    have e6 : r.right_weight = r2.right_weight := by
      have hh := congrArg Round.right_weight hr
      exact hh
    have e7 : r.left_info_index = r2.left_info_index := by
      have hh := congrArg Round.left_info_index hr
      exact hh
    have e8 : r.right_info_index = r2.right_info_index := by
      have hh := congrArg Round.right_info_index hr
      exact hh
    rw [← e1, ← e2, ← e3, ← e4, ← e5, ← e6, ← e7, ← e8]
    split_ifs with h0 h1 h2
    · refine ⟨rfl, ?_, rfl⟩
      simp only [Relocation.core, c4, c5]
    · exact ⟨rfl, rfl, rfl⟩
    · exact ⟨rfl, rfl, rfl⟩
    · obtain ⟨i1, i2, i3⟩ := ih
        { left_child := A.vscale r.new_left_child (A.div A.one (A.ofNat r.left_weight)),
          right_child := A.vscale r.new_right_child (A.div A.one (A.ofNat r.right_weight)),
          left_weight := r.left_weight, right_weight := r.right_weight,
          left_info_index := r.left_info_index, right_info_index := r.right_info_index,
          prev_total_variance := A.add
            (A.toFloat (A.sub r.left_ttsum
              (A.div (A.dot r.new_left_child r.new_left_child) (A.ofNat r.left_weight))))
            (A.toFloat (A.sub r.right_ttsum
              (A.div (A.dot r.new_right_child r.new_right_child) (A.ofNat r.right_weight)))),
          left_variance := A.toFloat (A.sub r.left_ttsum
            (A.div (A.dot r.new_left_child r.new_left_child) (A.ofNat r.left_weight))),
          right_variance := A.toFloat (A.sub r.right_ttsum
            (A.div (A.dot r.new_right_child r.new_right_child) (A.ofNat r.right_weight))),
          m_vectorsInfoLeft := r.m_vectorsInfoLeft,
          m_vectorsInfoRight := r.m_vectorsInfoRight }
        { left_child := A.vscale r.new_left_child (A.div A.one (A.ofNat r.left_weight)),
          right_child := A.vscale r.new_right_child (A.div A.one (A.ofNat r.right_weight)),
          left_weight := r.left_weight, right_weight := r.right_weight,
          left_info_index := r.left_info_index, right_info_index := r.right_info_index,
          prev_total_variance := A.add
            (A.toFloat (A.sub r.left_ttsum
              (A.div (A.dot r.new_left_child r.new_left_child) (A.ofNat r.left_weight))))
            (A.toFloat (A.sub r.right_ttsum
              (A.div (A.dot r.new_right_child r.new_right_child) (A.ofNat r.right_weight)))),
          left_variance := A.toFloat (A.sub r.left_ttsum
            (A.div (A.dot r.new_left_child r.new_left_child) (A.ofNat r.left_weight))),
          right_variance := A.toFloat (A.sub r.right_ttsum
            (A.div (A.dot r.new_right_child r.new_right_child) (A.ofNat r.right_weight))),
          m_vectorsInfoLeft := r2.m_vectorsInfoLeft,
          m_vectorsInfoRight := r2.m_vectorsInfoRight } rfl
      exact ⟨i1, i2, by rw [i3]⟩

end scratch

section scratch_root
variable {V S : Type}

theorem root_fold_scratch (A : Arith V S) (vectors : List V) (infos : List VectorInfo)
    (is : List Nat) (r0 r1 : RootAcc V S) (hroot : r0.root = r1.root)
    (hsum : r0.ttsum = r1.ttsum)
    (hv : r0.m_weightedVectors.length = r1.m_weightedVectors.length)
    (hd : r0.m_weightedDotProducts.length = r1.m_weightedDotProducts.length)
    (hvk : ∀ k, k ∉ is → r0.m_weightedVectors[k]? = r1.m_weightedVectors[k]?)
    (hdk : ∀ k, k ∉ is → r0.m_weightedDotProducts[k]? = r1.m_weightedDotProducts[k]?) :
    is.foldl (root_step A vectors infos) r0 = is.foldl (root_step A vectors infos) r1 := by
  induction is generalizing r0 r1 with
  | nil =>
    have e1 : r0.m_weightedVectors = r1.m_weightedVectors :=
      List.ext_getElem? (fun k => hvk k (List.not_mem_nil k))
    have e2 : r0.m_weightedDotProducts = r1.m_weightedDotProducts :=
      List.ext_getElem? (fun k => hdk k (List.not_mem_nil k))
    cases r0; cases r1
    simp only at hroot hsum e1 e2
    simp only [List.foldl_nil, hroot, hsum, e1, e2]
  | cons i rest ih =>
    simp only [List.foldl_cons]
    apply ih
    · simp only [root_step, hroot]
    · simp only [root_step, hsum]
    · simp only [root_step, List.length_set, hv]
    · simp only [root_step, List.length_set, hd]
    · intro k hk
      simp only [root_step]
      rw [List.getElem?_set, List.getElem?_set, hv]
      split_ifs with c1 c2
      · rfl
      · rfl
      · exact hvk k (by simp [Ne.symm c1, hk])
    · intro k hk
      simp only [root_step]
      rw [List.getElem?_set, List.getElem?_set, hd]
      split_ifs with c1 c2
      · rfl
      · rfl
      · exact hdk k (by simp [Ne.symm c1, hk])

theorem resize_length {α : Type} (l : List α) (n : Nat) (d : α) : (resize l n d).length = n := by
  simp only [resize, List.length_append, List.length_take, List.length_replicate]
  omega

theorem build_root_twin (A : Arith V S) (s t : tree_clusterizer V S) (h : Alike s t) :
    Twin (build_root A s) (build_root A t) := by
  obtain ⟨h1, h2, h3, h4, h5, h6⟩ := h
  cases s with
  | mk hist vectors wv wd infos L R map nodes codebook =>
  cases t with
  | mk hist2 vectors2 wv2 wd2 infos2 L2 R2 map2 nodes2 codebook2 =>
  simp only at h1 h2 h3 h4 h5 h6
  subst h1 h2 h3 h4 h5 h6
  have hfold := root_fold_scratch A vectors infos (List.range vectors.length)
    { root := { vq_node.new A with m_begin := 0, m_end := infos.length },
      ttsum := A.zero
      m_weightedVectors := resize wv vectors.length A.vclear
      m_weightedDotProducts := resize wd vectors.length A.zero }
    { root := { vq_node.new A with m_begin := 0, m_end := infos.length },
      ttsum := A.zero
      m_weightedVectors := resize wv2 vectors.length A.vclear
      m_weightedDotProducts := resize wd2 vectors.length A.zero }
    rfl rfl (by simp only [resize_length]) (by simp only [resize_length])
    (by
      intro k hk
      have hk2 : vectors.length ≤ k := by simpa using hk
      rw [List.getElem?_eq_none (by rw [resize_length]; exact hk2),
        List.getElem?_eq_none (by rw [resize_length]; exact hk2)])
    (by
      intro k hk
      have hk2 : vectors.length ≤ k := by simpa using hk
      rw [List.getElem?_eq_none (by rw [resize_length]; exact hk2),
        List.getElem?_eq_none (by rw [resize_length]; exact hk2)])
  refine ⟨⟨rfl, rfl, rfl, rfl, ?_, rfl⟩, ?_, ?_, ?_, ?_⟩
  · simp only [build_root]
    rw [hfold]
  · simp only [build_root]
    rw [hfold]
  · simp only [build_root]
    rw [hfold]
  · simp only [build_root, resize_length]
  · simp only [build_root, resize_length]

theorem split_node_twin (A : Arith V S) (s t : tree_clusterizer V S) (i : Nat) (h : Twin s t)
    (hb : (node_at A s i).m_begin ≤ (node_at A s i).m_end)
    (he : (node_at A s i).m_end ≤ s.m_vectorsInfo.length)
    (hL : (node_at A s i).m_end ≤ s.m_vectorsInfoLeft.length)
    (hR : (node_at A s i).m_end ≤ s.m_vectorsInfoRight.length) :
    Twin (split_node A s i) (split_node A t i) := by
  obtain ⟨⟨h1, h2, h3, h4, h5, h6⟩, h7, h8, h9, h10⟩ := h
  obtain ⟨f1, f2, f3, f4, f5, f6, f7, f8⟩ := split_node_frame A s i
  obtain ⟨g1, g2, g3, g4, g5, g6, g7, g8⟩ := split_node_frame A t i
  have n12 : node_at A t i = node_at A s i := by unfold node_at; rw [h5]
  have m12 : ∀ p : vq_node V S, members t p = members s p := by
    intro p; unfold members; rw [h3]
  have l12 : ∀ (p : vq_node V S) (lc rc : V), lefts A t p lc rc = lefts A s p lc rc := by
    intro p lc rc; unfold lefts; rw [m12, h2]
  have r12 : ∀ (p : vq_node V S) (lc rc : V), rights A t p lc rc = rights A s p lc rc := by
    intro p lc rc; unfold rights; rw [m12, h2]
  have hcore := relocation_loop_core A s.m_vectors s.m_weightedVectors s.m_weightedDotProducts
    (node_at A s i).m_begin (members s (node_at A s i)) cMaxLoops
    { left_child := (seeds A s.m_vectors s.m_weightedVectors (node_at A s i)
        (members s (node_at A s i))).1,
      right_child := (seeds A s.m_vectors s.m_weightedVectors (node_at A s i)
        (members s (node_at A s i))).2,
      left_weight := 0, right_weight := 0,
      left_info_index := 0, right_info_index := 0, prev_total_variance := A.huge,
      left_variance := A.zero, right_variance := A.zero,
      m_vectorsInfoLeft := s.m_vectorsInfoLeft, m_vectorsInfoRight := s.m_vectorsInfoRight }
    { left_child := (seeds A s.m_vectors s.m_weightedVectors (node_at A s i)
        (members s (node_at A s i))).1,
      right_child := (seeds A s.m_vectors s.m_weightedVectors (node_at A s i)
        (members s (node_at A s i))).2,
      left_weight := 0, right_weight := 0,
      left_info_index := 0, right_info_index := 0, prev_total_variance := A.huge,
      left_variance := A.zero, right_variance := A.zero,
      m_vectorsInfoLeft := t.m_vectorsInfoLeft, m_vectorsInfoRight := t.m_vectorsInfoRight }
    rfl
  have k1 : (relocate A t i).1 = (relocate A s i).1 := by
    unfold relocate
    rw [n12, m12, ← h2, ← h7, ← h8]
    exact hcore.1.symm
  have k2 : (relocate A t i).2.core = (relocate A s i).2.core := by
    unfold relocate
    rw [n12, m12, ← h2, ← h7, ← h8]
    exact hcore.2.1.symm
  have k3 : passes A t i = passes A s i := by
    unfold passes
    rw [n12, m12, ← h2, ← h7, ← h8]
    exact hcore.2.2.symm
  have q1 : (relocate A t i).2.left_info_index = (relocate A s i).2.left_info_index := by
    have hh := congrArg Relocation.left_info_index k2
    exact hh
  have q2 : (relocate A t i).2.left_child = (relocate A s i).2.left_child := by
    have hh := congrArg Relocation.left_child k2
    exact hh
  have q3 : (relocate A t i).2.right_child = (relocate A s i).2.right_child := by
    have hh := congrArg Relocation.right_child k2
    exact hh
  have q4 : (relocate A t i).2.left_weight = (relocate A s i).2.left_weight := by
    have hh := congrArg Relocation.left_weight k2
    exact hh
  have q5 : (relocate A t i).2.right_weight = (relocate A s i).2.right_weight := by
    have hh := congrArg Relocation.right_weight k2
    exact hh
  have q6 : (relocate A t i).2.left_variance = (relocate A s i).2.left_variance := by
    have hh := congrArg Relocation.left_variance k2
    exact hh
  have q7 : (relocate A t i).2.right_variance = (relocate A s i).2.right_variance := by
    have hh := congrArg Relocation.right_variance k2
    exact hh
  refine ⟨⟨f1.trans (h1.trans g1.symm), f2.trans (h2.trans g2.symm), ?_,
    f6.trans (h4.trans g6.symm), ?_, f5.trans (h6.trans g5.symm)⟩,
    f3.trans (h7.trans g3.symm), f4.trans (h8.trans g4.symm), by rw [f7, g7]; exact h9,
    by rw [f8, g8]; exact h10⟩
  · -- the live array
    by_cases c1 : (node_at A s i).m_begin + 1 = (node_at A s i).m_end
    · rw [split_node_eq A s i, split_node_eq A t i, n12, if_pos c1, if_pos c1]
      exact h3
    · by_cases c2 : (relocate A s i).1 = true
      · rw [split_node_eq A s i, split_node_eq A t i, n12, k1, if_neg c1, if_neg c1, if_pos c2,
          if_pos c2]
        exact h3
      · have c2f := Bool.eq_false_iff.mpr c2
        obtain ⟨lc, rc, e1, _, _, _, _, _, _, _, e2⟩ :=
          split_node_commit A s i hb he hL hR c1 c2f
        obtain ⟨lc2, rc2, e3, _, _, _, _, _, _, _, e4⟩ :=
          split_node_commit A t i (by rw [n12]; exact hb) (by rw [n12, ← h3]; exact he)
            (by rw [n12, ← h9]; exact hL) (by rw [n12, ← h10]; exact hR)
            (by rw [n12]; exact c1) (by rw [k1]; exact c2f)
        rw [k3, e1] at e3
        have e5 : lc = lc2 := congrArg Prod.fst (Option.some.inj e3)
        have e6 : rc = rc2 := congrArg Prod.snd (Option.some.inj e3)
        rw [e2, e4, n12, l12, r12, ← h3, e5, e6]
  · -- the nodes
    rw [split_node_eq A s i, split_node_eq A t i, n12, k1, q1, q2, q3, q4, q5, q6, q7, ← h5]
    split_ifs
    · exact h5
    · rfl
    · rfl

theorem partitioned_of_twin (s t : tree_clusterizer V S) (h : Twin s t) (hp : Partitioned s) :
    Partitioned t := by
  obtain ⟨⟨_, h2, h3, _, h5, _⟩, _, _, h9, h10⟩ := h
  exact
    { info_len := by rw [← h3, ← h2]; exact hp.info_len
      left_len := by rw [← h9, ← h2]; exact hp.left_len
      right_len := by rw [← h10, ← h2]; exact hp.right_len
      range := by rw [← h5, ← h2]; exact hp.range
      links := by rw [← h5]; exact hp.links
      cover := by rw [← h5, ← h2]; exact hp.cover }

theorem growth_passes_twin (A : Arith V S) (n : Nat) (s t : tree_clusterizer V S)
    (h : Twin s t) (hp : Partitioned s) :
    Twin (growth_passes A n s) (growth_passes A n t) := by
  induction n generalizing s t with
  | zero => exact h
  | succ n ih =>
    rw [growth_passes_succ, growth_passes_succ, ← h.1.2.2.2.2.1]
    split_ifs with c
    · exact h
    · obtain ⟨v1, v2, _, _⟩ := find_worst_valid A s c
      have hr := hp.range _ (node_at_mem A s _ v1)
      exact ih _ _
        (split_node_twin A s t _ h hr.1 (by rw [hp.info_len]; exact hr.2)
          (by rw [hp.left_len]; exact hr.2) (by rw [hp.right_len]; exact hr.2))
        (split_node_partitioned A s _ hp v1 v2)

theorem extract_alike (A : Arith V S) (flag : Bool) (s t : tree_clusterizer V S)
    (h : Alike s t) : Alike (extract A flag s) (extract A flag t) := by
  obtain ⟨h1, h2, h3, h4, h5, h6⟩ := h
  unfold extract
  simp only [← h2, ← h3, ← h5, ← h6]
  exact ⟨h1, rfl, rfl, rfl, rfl, rfl⟩

end scratch_root


section scratch_generate
variable {V S : Type} [LinearOrder V]

theorem aggregate_alike (s t : tree_clusterizer V S) (h : Alike s t) :
    Alike (aggregate s) (aggregate t) := by
  obtain ⟨h1, h2, h3, h4, h5, h6⟩ := h
  unfold aggregate
  simp only [← h1, ← h2, ← h3]
  exact ⟨rfl, rfl, rfl, h4, h5, h6⟩

theorem aggregate_loop_parallel (prev : Option V) (rest : List (V × Nat)) (vs : List V)
    (infos : List VectorInfo) (h : infos.length = vs.length) :
    (aggregate_loop prev rest (vs, infos)).2.length
      = (aggregate_loop prev rest (vs, infos)).1.length := by
  induction rest generalizing prev vs infos with
  | nil => exact h
  | cons p rest ih =>
    obtain ⟨v, w⟩ := p
    unfold aggregate_loop
    split_ifs with c
    · exact ih _ _ _ (by simp [h])
    · exact ih _ _ _ (by rw [update_back_weight_length]; exact h)

theorem aggregate_parallel (s : tree_clusterizer V S) (h : Parallel s) :
    Parallel (aggregate s) :=
  aggregate_loop_parallel none (sort_hist s.m_hist) s.m_vectors s.m_vectorsInfo h

theorem generate_codebook_parallel (A : Arith V S) (s : tree_clusterizer V S) (max_size : Nat)
    (flag : Bool) (h : Parallel s) : Parallel (generate_codebook A s max_size flag).2 := by
  by_cases hne : s.m_hist = []
  · simp only [generate_codebook, hne, if_true]
    exact h
  · exact (generate_codebook_partitioned A s max_size flag hne (aggregate_parallel s h)).1.info_len

theorem generate_codebook_alike (A : Arith V S) (s t : tree_clusterizer V S) (max_size : Nat)
    (flag : Bool) (h : Alike s t) (hp : Parallel s) :
    (generate_codebook A s max_size flag).1 = (generate_codebook A t max_size flag).1 ∧
    Alike (generate_codebook A s max_size flag).2 (generate_codebook A t max_size flag).2 := by
  by_cases hne : s.m_hist = []
  · have hne2 : t.m_hist = [] := by rw [← h.1]; exact hne
    simp only [generate_codebook, hne, hne2, if_true]
    exact ⟨trivial, h⟩
  · have hne2 : t.m_hist ≠ [] := by rw [← h.1]; exact hne
    rw [generate_codebook_eq A s max_size flag hne, generate_codebook_eq A t max_size flag hne2]
    refine ⟨by simp only [generate_codebook, hne, hne2, if_false], ?_⟩
    have hb := build_root_twin A _ _ (aggregate_alike s t h)
    have hq := build_root_partitioned A (aggregate s) (aggregate_parallel s hp)
    exact extract_alike A flag _ _ (growth_passes_twin A (max_size - 1) _ _ hb hq).1

theorem run_parallel (A : Arith V S) (calls : List (Call V)) : Parallel (run A calls) := by
  induction calls using List.reverseRecOn with
  | nil => rfl
  | append_singleton calls c ih =>
    rw [run_concat]
    cases c with
    | clear => rfl
    | add_training_vec v w => exact ih
    | generate_codebook max_size flag => exact generate_codebook_parallel A _ max_size flag ih

/-- After a `clear()` the same later calls lead to instances alike those they lead to from
construction. -/
theorem run_clear_alike (A : Arith V S) (before later : List (Call V)) :
    Alike (run A (before ++ Call.clear :: later)) (run A later) := by
  induction later using List.reverseRecOn with
  | nil =>
    rw [run_concat]
    exact ⟨rfl, rfl, rfl, rfl, rfl, rfl⟩
  | append_singleton later c ih =>
    have e : before ++ Call.clear :: (later ++ [c]) = (before ++ Call.clear :: later) ++ [c] := by
      simp
    rw [e, run_concat, run_concat]
    cases c with
    | clear => exact ⟨rfl, rfl, rfl, rfl, rfl, rfl⟩
    | add_training_vec v w =>
      obtain ⟨h1, h2, h3, h4, h5, h6⟩ := ih
      exact ⟨by simp only [Call.apply, add_training_vec, h1], h2, h3, h4, h5, h6⟩
    | generate_codebook max_size flag =>
      exact (generate_codebook_alike A _ _ max_size flag ih (run_parallel A _)).2

end scratch_generate

/-! ## The exact reading: every split of distinct vectors of positive weight succeeds -/

section exact_components
variable {N : Nat}

theorem sum_zipWith_range (f : ℚ → ℚ → ℚ) (a b : List ℚ) (h : a.length = b.length) :
    (List.zipWith f a b).sum = ∑ i in Finset.range a.length, f (a.getD i 0) (b.getD i 0) := by
  induction a generalizing b with
  | nil => simp
  | cons x t ih =>
    cases b with
    | nil => simp at h
    | cons y u =>
      simp only [List.length_cons, Nat.succ.injEq] at h
      rw [List.zipWith_cons_cons, List.sum_cons, ih u h, List.length_cons, Finset.sum_range_succ']
      simp [add_comm]

theorem vec_sum_zipWith (f : ℚ → ℚ → ℚ) (a b : Vec N) :
    (List.zipWith f a.1 b.1).sum = ∑ i in Finset.range N, f (a.comp i) (b.comp i) := by
  rw [sum_zipWith_range f a.1 b.1 (by rw [a.2, b.2]), a.2]
  rfl

end exact_components

section exact_sums
variable {N : Nat}

end exact_sums

section exact_hull
variable {N : Nat}

theorem squared_distance_eq (nz : Vec N → Vec N) (a b : Vec N) :
    (exactArith N nz).squared_distance a b
      = ∑ i in Finset.range N, (a.comp i - b.comp i) * (a.comp i - b.comp i) :=
  vec_sum_zipWith _ a b

theorem squared_distance_comm (nz : Vec N → Vec N) (a b : Vec N) :
    (exactArith N nz).squared_distance a b = (exactArith N nz).squared_distance b a := by
  rw [squared_distance_eq, squared_distance_eq]
  apply Finset.sum_congr rfl
  intro i _
  ring

end exact_hull

section exact_variance
variable {N : Nat}

end exact_variance

section round_sums
variable {V S : Type}

end round_sums

section exact_seeds
variable {N : Nat}

end exact_seeds

section exact_relocation
variable {N : Nat}

end exact_relocation

section exact_split
variable {N : Nat}

end exact_split

section exact_split_centered
variable {N : Nat}

end exact_split_centered

section wide_leaf
variable {V S : Type}

end wide_leaf

section exact_growth
variable {N : Nat}

end exact_growth

section root_centered
variable {V S : Type}

end root_centered

section distinct_observations
variable {V : Type} [LinearOrder V]

end distinct_observations

section exact_generate
variable {N : Nat}

end exact_generate

section lookup_three
variable {V S : Type} [LinearOrder V]

end lookup_three

/-! ## The claims -/

section claims
variable {V S : Type} [LinearOrder V]

/-- C1: on the instance reached by any sequence of calls, `generate_codebook` returns failure
if and only if no observation was added since construction or the last `clear()`; when it
returns failure the instance is left as it was, field by field; and when no observation was
ever added, `get_codebook_size()` is 0 afterwards. -/
theorem generate_codebook_failure (A : Arith V S) (calls : List (Call V)) (max_size : Nat)
    (flag : Bool) :
    ((generate_codebook A (run A calls) max_size flag).1 = false
      ↔ added_since_clear calls = false) ∧
    ((generate_codebook A (run A calls) max_size flag).1 = false →
      (generate_codebook A (run A calls) max_size flag).2 = run A calls) ∧
    ((∀ c ∈ calls, c.is_add = false) →
      get_codebook_size (generate_codebook A (run A calls) max_size flag).2 = 0) := by
  obtain ⟨h1, h2⟩ := run_hist A calls
  refine ⟨?_, ?_, ?_⟩
  · rw [← h1]
    unfold generate_codebook
    split_ifs with h <;> simp [h]
  · unfold generate_codebook
    split_ifs with h <;> simp
  · intro h
    have h3 : added_since_clear calls = false := added_since_clear_of_no_add calls h
    have h4 := h1.mpr h3
    simp only [generate_codebook, h4, if_true, get_codebook_size]
    rw [h2 h]
    rfl

/-- C2: whenever at least one observation is held and `max_size >= 1`, `generate_codebook`
succeeds, and afterwards `1 <= get_codebook_size() <= max_size` and `get_codebook_size()` is
the number of leaf nodes of the tree. -/
theorem generate_codebook_size (A : Arith V S) (s : tree_clusterizer V S) (max_size : Nat)
    (flag : Bool) (hist : s.m_hist ≠ []) (hmax : 1 ≤ max_size) :
    (generate_codebook A s max_size flag).1 = true ∧
    1 ≤ get_codebook_size (generate_codebook A s max_size flag).2 ∧
    get_codebook_size (generate_codebook A s max_size flag).2 ≤ max_size ∧
    get_codebook_size (generate_codebook A s max_size flag).2
      = leaf_count (generate_codebook A s max_size flag).2.m_nodes := by
  obtain ⟨root, r1, _, _, r4, r5, _⟩ := build_root_spec A (aggregate s)
  have hl : Linked (build_root A (aggregate s)).m_nodes := by
    rw [r1]
    intro node hnode
    rw [List.mem_singleton.mp hnode]
    exact ⟨fun _ => r5, fun _ => r4⟩
  have hc : leaf_count (build_root A (aggregate s)).m_nodes = 1 := by
    rw [r1]
    simp [leaf_count, vq_node.is_leaf, r4, r5]
  obtain ⟨g1, g2, g3⟩ := growth_passes_leaf_count A (max_size - 1) _ hl
  obtain ⟨e1, e2⟩ := extract_loop_spec A
    (growth_passes A (max_size - 1) (build_root A (aggregate s))).m_vectors
    (growth_passes A (max_size - 1) (build_root A (aggregate s))).m_vectorsInfo flag
    (growth_passes A (max_size - 1) (build_root A (aggregate s))).m_nodes []
    (growth_passes A (max_size - 1) (build_root A (aggregate s))).m_node_index_map
  rw [countP_left_eq_leaf_count _ g1] at e1
  simp only [generate_codebook, hist, if_false, get_codebook_size, extract, grow_eq]
  simp only [List.length_nil, Nat.zero_add] at e1
  rw [e1, e2]
  refine ⟨trivial, ?_, ?_, rfl⟩ <;> omega

/-- C2 at work: two observations in dimension 1 and `max_size = 4`. -/
theorem generate_codebook_size_witness :
    (train fresh1 [(vec1 3, 5), (vec1 1, 2)]).m_hist ≠ [] ∧ 1 ≤ 4 ∧
    (generate_codebook exact1 (train fresh1 [(vec1 3, 5), (vec1 1, 2)]) 4 false).1 = true ∧
    1 ≤ get_codebook_size
      (generate_codebook exact1 (train fresh1 [(vec1 3, 5), (vec1 1, 2)]) 4 false).2 ∧
    get_codebook_size
      (generate_codebook exact1 (train fresh1 [(vec1 3, 5), (vec1 1, 2)]) 4 false).2 ≤ 4 ∧
    get_codebook_size
      (generate_codebook exact1 (train fresh1 [(vec1 3, 5), (vec1 1, 2)]) 4 false).2
      = leaf_count
        (generate_codebook exact1 (train fresh1 [(vec1 3, 5), (vec1 1, 2)]) 4 false).2.m_nodes :=
  ⟨by decide, by decide,
    generate_codebook_size exact1 (train fresh1 [(vec1 3, 5), (vec1 1, 2)]) 4 false
      (by decide) (by decide)⟩

/-- C3: after a successful `generate_codebook` on a freshly constructed or cleared instance
trained with the observations `hist`, the unique-vector array has one entry per distinct
training vector, the ranges of two different leaves share no position, the positions in a
leaf range are exactly the positions of the live array, the index fields of the live array
are a permutation of `0 .. n - 1`, and every unique vector is referenced from the range of
exactly one leaf. -/
theorem leaf_ranges_partition (A : Arith V S) (s : tree_clusterizer V S)
    (hist : List (V × Nat)) (max_size : Nat) (flag : Bool) (hs : Fresh s) (hne : hist ≠ []) :
    (generate_codebook A (train s hist) max_size flag).1 = true ∧
    (generate_codebook A (train s hist) max_size flag).2.m_vectors.length
      = (hist.map Prod.fst).dedup.length ∧
    (generate_codebook A (train s hist) max_size flag).2.m_vectorsInfo.length
      = (generate_codebook A (train s hist) max_size flag).2.m_vectors.length ∧
    (∀ p q : Fin (generate_codebook A (train s hist) max_size flag).2.m_nodes.length, p ≠ q →
      ((generate_codebook A (train s hist) max_size flag).2.m_nodes.get p).is_leaf →
      ((generate_codebook A (train s hist) max_size flag).2.m_nodes.get q).is_leaf →
      ∀ j, ¬ (((generate_codebook A (train s hist) max_size flag).2.m_nodes.get p).m_begin ≤ j ∧
        j < ((generate_codebook A (train s hist) max_size flag).2.m_nodes.get p).m_end ∧
        ((generate_codebook A (train s hist) max_size flag).2.m_nodes.get q).m_begin ≤ j ∧
        j < ((generate_codebook A (train s hist) max_size flag).2.m_nodes.get q).m_end)) ∧
    (∀ j, j < (generate_codebook A (train s hist) max_size flag).2.m_vectors.length ↔
      ∃ node ∈ (generate_codebook A (train s hist) max_size flag).2.m_nodes,
        node.is_leaf ∧ node.m_begin ≤ j ∧ j < node.m_end) ∧
    ((generate_codebook A (train s hist) max_size flag).2.m_vectorsInfo.map
      VectorInfo.index).Perm
      (List.range (generate_codebook A (train s hist) max_size flag).2.m_vectors.length) ∧
    (∀ i, i < (generate_codebook A (train s hist) max_size flag).2.m_vectors.length →
      ∃! p : Fin (generate_codebook A (train s hist) max_size flag).2.m_nodes.length,
        ((generate_codebook A (train s hist) max_size flag).2.m_nodes.get p).is_leaf ∧
        ∃ j, ((generate_codebook A (train s hist) max_size flag).2.m_nodes.get p).m_begin ≤ j ∧
          j < ((generate_codebook A (train s hist) max_size flag).2.m_nodes.get p).m_end ∧
          ∃ vi, (generate_codebook A (train s hist) max_size flag).2.m_vectorsInfo.get? j
            = some vi ∧ vi.index = i) := by
  obtain ⟨s1, s2, s3, _⟩ := hs
  have hh : (train s hist).m_hist = hist := by rw [train_fields]; simp [s1]
  have hne' : (train s hist).m_hist ≠ [] := by rw [hh]; exact hne
  have hagg := aggregate_fresh (train s hist) (by rw [train_fields]; exact s2)
    (by rw [train_fields]; exact s3)
  rw [hh] at hagg
  have hlen : (aggregate (train s hist)).m_vectorsInfo.length
      = (aggregate (train s hist)).m_vectors.length := by
    have := congrArg List.length hagg.index
    simpa using this
  obtain ⟨p1, p2, p3⟩ := generate_codebook_partitioned A (train s hist) max_size flag hne' hlen
  have hperm : ((generate_codebook A (train s hist) max_size flag).2.m_vectorsInfo.map
      VectorInfo.index).Perm
      (List.range (generate_codebook A (train s hist) max_size flag).2.m_vectors.length) := by
    rw [p2, ← hagg.index]
    exact p3.map _
  refine ⟨?_, ?_, p1.info_len, partitioned_disjoint _ p1, partitioned_cover _ p1, hperm,
    partitioned_unique_leaf _ p1 hperm⟩
  · unfold generate_codebook
    rw [if_neg hne']
  · rw [p2]
    apply List.Perm.length_eq
    rw [List.perm_ext_iff_of_nodup hagg.sorted.nodup (List.nodup_dedup _)]
    intro v
    rw [hagg.mem v, List.mem_dedup]
    exact (sort_hist_perm hist).map Prod.fst |>.mem_iff

/-- C3 at work: three observations of two distinct vectors in dimension 1. -/
theorem leaf_ranges_partition_witness :
    Fresh fresh1 ∧ [(vec1 5, 5), (vec1 12, 1), (vec1 5, 2)] ≠ [] ∧
    (generate_codebook exact1
      (train fresh1 [(vec1 5, 5), (vec1 12, 1), (vec1 5, 2)]) 2 false).2.m_vectors.length
      = ([(vec1 5, 5), (vec1 12, 1), (vec1 5, 2)].map Prod.fst).dedup.length ∧
    ((generate_codebook exact1
      (train fresh1 [(vec1 5, 5), (vec1 12, 1), (vec1 5, 2)]) 2 false).2.m_vectorsInfo.map
      VectorInfo.index).Perm
      (List.range (generate_codebook exact1
        (train fresh1 [(vec1 5, 5), (vec1 12, 1), (vec1 5, 2)]) 2 false).2.m_vectors.length) :=
  ⟨fresh_new, by decide,
    (leaf_ranges_partition exact1 fresh1 [(vec1 5, 5), (vec1 12, 1), (vec1 5, 2)] 2 false
      fresh_new (by decide)).2.1,
    (leaf_ranges_partition exact1 fresh1 [(vec1 5, 5), (vec1 12, 1), (vec1 5, 2)] 2 false
      fresh_new (by decide)).2.2.2.2.2.1⟩

/-- The weights 5 and 1 are `uint` values. -/
theorem uint_weights_sample :
    uint_weights [Call.add_training_vec (vec1 5) 5, Call.add_training_vec (vec1 12) 1] := by
  intro c hc v w e
  simp only [List.mem_cons, List.mem_singleton, List.not_mem_nil, or_false] at hc
  rcases hc with hc | hc
  · rw [hc] at e
    injection e with _ e2
    rw [← e2]; decide
  · rw [hc] at e
    injection e with _ e2
    rw [← e2]; decide

/-- C4: on every instance reached by calls whose weights are `uint` values and whose arrays
fit the 32-bit size of a `crnlib::vector`, after `generate_codebook` every internal node has
two children among the nodes whose total weights add up to its own total weight, the sum
staying below `2 ^ 64`. -/
theorem weight_conservation (A : Arith V S) (calls : List (Call V)) (max_size : Nat)
    (flag : Bool) (hw : uint_weights calls)
    (hsize : (run A calls).m_vectors.length + (run A calls).m_hist.length ≤ UINT_SIZE) :
    ∀ node ∈ (generate_codebook A (run A calls) max_size flag).2.m_nodes, node.m_left ≠ -1 →
      ∃ l r : Nat, ∃ nl nr : vq_node V S,
        node.m_left = (l : Int) ∧ node.m_right = (r : Int) ∧
        (generate_codebook A (run A calls) max_size flag).2.m_nodes.get? l = some nl ∧
        (generate_codebook A (run A calls) max_size flag).2.m_nodes.get? r = some nr ∧
        nl.m_total_weight + nr.m_total_weight = node.m_total_weight ∧
        nl.m_total_weight + nr.m_total_weight < UINT64_SIZE := by
  obtain ⟨h1, h2, h3, h4⟩ := run_sane A calls hw
  intro node hnode hl
  by_cases hne : (run A calls).m_hist = []
  · have : (generate_codebook A (run A calls) max_size flag).2 = run A calls := by
      unfold generate_codebook; rw [if_pos hne]
    rw [this, h4 hne] at hnode
    simp at hnode
  · obtain ⟨a1, a2, a3⟩ := aggregate_sane (run A calls) h1 h2 h3
    have hwt := generate_codebook_weighted A (run A calls) max_size flag hne a1 a2
      (by rw [a1]; omega)
    obtain ⟨l, r, nl, nr, e1, e2, e3, e4, e5⟩ := hwt.inner node hnode hl
    exact ⟨l, r, nl, nr, e1, e2, e3, e4, e5, by rw [e5]; exact hwt.total node hnode⟩

/-- C4 at work: two observations added to a new instance. -/
theorem weight_conservation_witness :
    uint_weights [Call.add_training_vec (vec1 5) 5, Call.add_training_vec (vec1 12) 1] ∧
    (run exact1 [Call.add_training_vec (vec1 5) 5,
        Call.add_training_vec (vec1 12) 1]).m_vectors.length
      + (run exact1 [Call.add_training_vec (vec1 5) 5,
        Call.add_training_vec (vec1 12) 1]).m_hist.length ≤ UINT_SIZE ∧
    ∀ node ∈ (generate_codebook exact1
        (run exact1 [Call.add_training_vec (vec1 5) 5, Call.add_training_vec (vec1 12) 1])
        2 false).2.m_nodes, node.m_left ≠ -1 →
      ∃ l r : Nat, ∃ nl nr : vq_node (Vec 1) ℚ,
        node.m_left = (l : Int) ∧ node.m_right = (r : Int) ∧
        (generate_codebook exact1
          (run exact1 [Call.add_training_vec (vec1 5) 5, Call.add_training_vec (vec1 12) 1])
          2 false).2.m_nodes.get? l = some nl ∧
        (generate_codebook exact1
          (run exact1 [Call.add_training_vec (vec1 5) 5, Call.add_training_vec (vec1 12) 1])
          2 false).2.m_nodes.get? r = some nr ∧
        nl.m_total_weight + nr.m_total_weight = node.m_total_weight ∧
        nl.m_total_weight + nr.m_total_weight < UINT64_SIZE :=
  ⟨uint_weights_sample, by decide,
    weight_conservation exact1
      [Call.add_training_vec (vec1 5) 5, Call.add_training_vec (vec1 12) 1] 2 false
      uint_weights_sample (by decide)⟩

/-- C5: on a freshly constructed or cleared instance trained with observations `hist` whose
weights are `uint` values, after `generate_codebook` every observed vector `v` has an entry
in the live array, and every entry for `v` carries the weight
`min (sum of the weights of the observations of v) UINT_MAX`; in particular two observations
of one vector whose weights sum past `UINT_MAX` give the single entry of weight `UINT_MAX`. -/
theorem aggregated_weight_saturates (A : Arith V S) (s : tree_clusterizer V S)
    (hist : List (V × Nat)) (max_size : Nat) (flag : Bool) (hs : Fresh s)
    (hw : ∀ p ∈ hist, p.2 ≤ UINT_MAX) :
    (∀ v ∈ hist.map Prod.fst,
      ∃ vi ∈ (generate_codebook A (train s hist) max_size flag).2.m_vectorsInfo,
        (generate_codebook A (train s hist) max_size flag).2.m_vectors.get? vi.index = some v ∧
        vi.weight = min (obs_weight hist v) UINT_MAX) ∧
    (∀ vi ∈ (generate_codebook A (train s hist) max_size flag).2.m_vectorsInfo, ∀ v,
      (generate_codebook A (train s hist) max_size flag).2.m_vectors.get? vi.index = some v →
      vi.weight = min (obs_weight hist v) UINT_MAX) ∧
    (∀ v w1 w2, hist = [(v, w1), (v, w2)] → UINT_MAX < w1 + w2 →
      (generate_codebook A (train s hist) max_size flag).2.m_vectors = [v] ∧
      (generate_codebook A (train s hist) max_size flag).2.m_vectorsInfo
        = [{ index := 0, weight := UINT_MAX }]) := by
  obtain ⟨s1, s2, s3, _⟩ := hs
  have hh : (train s hist).m_hist = hist := by rw [train_fields]; simp [s1]
  by_cases hne : hist = []
  · have h0 : train s hist = s := by rw [hne]; rfl
    have h1 : (generate_codebook A (train s hist) max_size flag).2 = s := by
      rw [h0]; unfold generate_codebook; rw [if_pos s1]
    rw [h1, s3, hne]
    simp
  · have hagg := aggregate_fresh (train s hist) (by rw [train_fields]; exact s2)
      (by rw [train_fields]; exact s3)
    rw [hh] at hagg
    have hlen : (aggregate (train s hist)).m_vectorsInfo.length
        = (aggregate (train s hist)).m_vectors.length := by
      have := congrArg List.length hagg.index
      simpa using this
    obtain ⟨_, p2, p3⟩ := generate_codebook_partitioned A (train s hist) max_size flag
      (by rw [hh]; exact hne) hlen
    have hw' : ∀ p ∈ sort_hist hist, p.2 ≤ UINT_MAX := fun p hp =>
      hw p ((sort_hist_perm hist).mem_iff.mp hp)
    obtain ⟨g1, g2⟩ := aggregated_entry _ _ _ hagg hw'
    have hobs : ∀ v, obs_weight (sort_hist hist) v = obs_weight hist v :=
      obs_weight_perm _ _ (sort_hist_perm hist)
    have part2 : ∀ vi ∈ (generate_codebook A (train s hist) max_size flag).2.m_vectorsInfo,
        ∀ v, (generate_codebook A (train s hist) max_size flag).2.m_vectors.get? vi.index
          = some v → vi.weight = min (obs_weight hist v) UINT_MAX := by
      intro vi hvi v hv
      obtain ⟨v', e1, e2⟩ := g1 vi (p3.mem_iff.mp hvi)
      rw [p2, e1] at hv
      rw [e2, hobs, Option.some.inj hv]
    refine ⟨?_, part2, ?_⟩
    · intro v hv
      have hv' : v ∈ (aggregate (train s hist)).m_vectors := by
        rw [hagg.mem v]
        exact ((sort_hist_perm hist).map Prod.fst).mem_iff.mpr hv
      obtain ⟨vi, hvi, e⟩ := g2 v hv'
      have hvi' := p3.mem_iff.mpr hvi
      have e' : (generate_codebook A (train s hist) max_size flag).2.m_vectors.get? vi.index
          = some v := by rw [p2]; exact e
      exact ⟨vi, hvi', e', part2 vi hvi' v e'⟩
    · intro v w1 w2 hist_eq hsum
      have hvs : (aggregate (train s hist)).m_vectors = [v] := by
        apply List.perm_singleton.mp
        rw [List.perm_ext_iff_of_nodup hagg.sorted.nodup (List.nodup_singleton v)]
        intro x
        rw [hagg.mem x]
        have := ((sort_hist_perm hist).map Prod.fst).mem_iff (a := x)
        rw [this, hist_eq]
        simp
      have hidx := hagg.index
      have hwt := hagg.weight hw'
      rw [hvs] at hidx hwt
      have hob : obs_weight hist v = w1 + w2 := by
        rw [hist_eq]
        simp [obs_weight]
      have hinfo : (aggregate (train s hist)).m_vectorsInfo
          = [{ index := 0, weight := UINT_MAX }] := by
        rw [hvs] at hlen
        obtain ⟨x, hx⟩ := List.length_eq_one.mp hlen
        rw [hx] at hidx hwt ⊢
        simp only [List.map_cons, List.map_nil, List.length_singleton, hobs, hob] at hidx hwt
        have e1 : x.index = 0 := by
          have := List.head_eq_of_cons_eq hidx
          simpa using this
        have e2 : x.weight = UINT_MAX := by
          have := List.head_eq_of_cons_eq hwt
          rw [this]
          exact Nat.min_eq_right (Nat.le_of_lt hsum)
        cases x
        simp only at e1 e2
        rw [e1, e2]
      refine ⟨by rw [p2, hvs], ?_⟩
      rw [hinfo] at p3
      exact List.perm_singleton.mp p3

/-- C5 at work: the weights `4294967290` and `10` of one vector sum past `UINT_MAX`. -/
theorem aggregated_weight_saturates_witness :
    Fresh fresh1 ∧ (∀ p ∈ [(vec1 5, 4294967290), (vec1 5, 10)], p.2 ≤ UINT_MAX) ∧
    (generate_codebook exact1 (train fresh1 [(vec1 5, 4294967290), (vec1 5, 10)])
      2 false).2.m_vectors = [vec1 5] ∧
    (generate_codebook exact1 (train fresh1 [(vec1 5, 4294967290), (vec1 5, 10)])
      2 false).2.m_vectorsInfo = [{ index := 0, weight := UINT_MAX }] :=
  ⟨fresh_new, by decide,
    (aggregated_weight_saturates exact1 fresh1 [(vec1 5, 4294967290), (vec1 5, 10)] 2 false
      fresh_new (by decide)).2.2 (vec1 5) 4294967290 10 rfl (by decide)⟩

/-- C6: on a freshly constructed or cleared instance trained with `hist`, the aggregation
step of `generate_codebook` leaves a unique-vector array that is strictly increasing and
holds exactly the vectors of the observations, each once, and a `VectorInfo` array of the
same length whose `i`-th entry has index `i`; the unique-vector array is the one the instance
holds after `generate_codebook`. -/
theorem aggregation_output (A : Arith V S) (s : tree_clusterizer V S)
    (hist : List (V × Nat)) (max_size : Nat) (flag : Bool) (hs : Fresh s) :
    (aggregate (train s hist)).m_vectors.Sorted (fun a b => a < b) ∧
    (∀ v, v ∈ (aggregate (train s hist)).m_vectors ↔ v ∈ hist.map Prod.fst) ∧
    (aggregate (train s hist)).m_vectors.Nodup ∧
    (aggregate (train s hist)).m_vectorsInfo.length
      = (aggregate (train s hist)).m_vectors.length ∧
    (∀ i : Fin (aggregate (train s hist)).m_vectorsInfo.length,
      ((aggregate (train s hist)).m_vectorsInfo.get i).index = i.1) ∧
    (generate_codebook A (train s hist) max_size flag).2.m_vectors
      = (aggregate (train s hist)).m_vectors := by
  obtain ⟨s1, s2, s3, _⟩ := hs
  have hh : (train s hist).m_hist = hist := by rw [train_fields]; simp [s1]
  have hagg := aggregate_fresh (train s hist) (by rw [train_fields]; exact s2)
    (by rw [train_fields]; exact s3)
  rw [hh] at hagg
  have hlen : (aggregate (train s hist)).m_vectorsInfo.length
      = (aggregate (train s hist)).m_vectors.length := by
    have := congrArg List.length hagg.index
    simpa using this
  refine ⟨hagg.sorted, ?_, hagg.sorted.nodup, hlen, ?_, ?_⟩
  · intro v
    rw [hagg.mem v]
    exact (sort_hist_perm hist).map Prod.fst |>.mem_iff
  · intro i
    have h1 := getElem_of_map_eq VectorInfo.index (aggregate (train s hist)).m_vectorsInfo
      (List.range (aggregate (train s hist)).m_vectors.length) hagg.index i.1 i.2
      (by simp; rw [← hlen]; exact i.2)
    simpa using h1
  · by_cases hne : hist = []
    · rw [hne]
      have h0 : train s ([] : List (V × Nat)) = s := rfl
      rw [h0]
      unfold generate_codebook
      rw [if_pos s1]
      simp [aggregate, s1, s2, sort_hist, aggregate_loop]
    · exact (generate_codebook_partitioned A (train s hist) max_size flag
        (by rw [hh]; exact hne) hlen).2.1

/-- C6 at work: three observations of two distinct vectors in dimension 1. -/
theorem aggregation_output_witness :
    Fresh fresh1 ∧
    (aggregate (train fresh1 [(vec1 5, 5), (vec1 12, 1), (vec1 5, 2)])).m_vectors.Sorted
      (fun a b => a < b) ∧
    (generate_codebook exact1 (train fresh1 [(vec1 5, 5), (vec1 12, 1), (vec1 5, 2)])
      2 false).2.m_vectors
      = (aggregate (train fresh1 [(vec1 5, 5), (vec1 12, 1), (vec1 5, 2)])).m_vectors :=
  ⟨fresh_new,
    (aggregation_output exact1 fresh1 [(vec1 5, 5), (vec1 12, 1), (vec1 5, 2)] 2 false
      fresh_new).1,
    (aggregation_output exact1 fresh1 [(vec1 5, 5), (vec1 12, 1), (vec1 5, 2)] 2 false
      fresh_new).2.2.2.2.2⟩

/-- C7, evaluated: the observations `(5)` with weight 5 and `(12)` with weight 1 are added to
a fresh instance of dimension 1 and `generate_codebook(2, false)` is called twice.  The first
call leaves the unique vectors `(5), (12)`, three nodes, two leaves and the codebook
`(12), (5)`; the second call leaves the unique vectors `(5), (12), (5), (12)`, one node, one
leaf and the codebook `(17/2)`. -/
theorem regenerate_accumulates :
    (generate_codebook exact1 (train fresh1 [(vec1 5, 5), (vec1 12, 1)]) 2 false).2.m_vectors
      = [vec1 5, vec1 12] ∧
    (generate_codebook exact1 (train fresh1 [(vec1 5, 5), (vec1 12, 1)]) 2 false).2.m_nodes.length
      = 3 ∧
    leaf_count
      (generate_codebook exact1 (train fresh1 [(vec1 5, 5), (vec1 12, 1)]) 2 false).2.m_nodes
      = 2 ∧
    get_codebook (generate_codebook exact1 (train fresh1 [(vec1 5, 5), (vec1 12, 1)]) 2 false).2
      = [vec1 12, vec1 5] ∧
    (generate_codebook exact1
      (generate_codebook exact1 (train fresh1 [(vec1 5, 5), (vec1 12, 1)]) 2 false).2
      2 false).2.m_vectors = [vec1 5, vec1 12, vec1 5, vec1 12] ∧
    (generate_codebook exact1
      (generate_codebook exact1 (train fresh1 [(vec1 5, 5), (vec1 12, 1)]) 2 false).2
      2 false).2.m_nodes.length = 1 ∧
    leaf_count (generate_codebook exact1
      (generate_codebook exact1 (train fresh1 [(vec1 5, 5), (vec1 12, 1)]) 2 false).2
      2 false).2.m_nodes = 1 ∧
    get_codebook (generate_codebook exact1
      (generate_codebook exact1 (train fresh1 [(vec1 5, 5), (vec1 12, 1)]) 2 false).2
      2 false).2 = [vec1 (17 / 2)] := by
  decide!

/-- C8: for the same instance and `max_size` values `k1 <= k2`, the codebook produced by
`generate_codebook(k1, _)` is not larger than the one produced by `generate_codebook(k2, _)`. -/
theorem codebook_size_monotone (A : Arith V S) (s : tree_clusterizer V S) (k1 k2 : Nat)
    (flag1 flag2 : Bool) (h : k1 ≤ k2) :
    get_codebook_size (generate_codebook A s k1 flag1).2
      ≤ get_codebook_size (generate_codebook A s k2 flag2).2 := by
  by_cases hist : s.m_hist = []
  · simp [generate_codebook, hist]
  · obtain ⟨root, r1, _, _, r4, r5, _⟩ := build_root_spec A (aggregate s)
    have hl : Linked (build_root A (aggregate s)).m_nodes := by
      rw [r1]
      intro node hnode
      rw [List.mem_singleton.mp hnode]
      exact ⟨fun _ => r5, fun _ => r4⟩
    have size_eq : ∀ (k : Nat) (f : Bool),
        get_codebook_size (generate_codebook A s k f).2
          = leaf_count (growth_passes A (k - 1) (build_root A (aggregate s))).m_nodes := by
      intro k f
      obtain ⟨g1, _, _⟩ := growth_passes_leaf_count A (k - 1) _ hl
      obtain ⟨e1, _⟩ := extract_loop_spec A
        (growth_passes A (k - 1) (build_root A (aggregate s))).m_vectors
        (growth_passes A (k - 1) (build_root A (aggregate s))).m_vectorsInfo f
        (growth_passes A (k - 1) (build_root A (aggregate s))).m_nodes []
        (growth_passes A (k - 1) (build_root A (aggregate s))).m_node_index_map
      rw [countP_left_eq_leaf_count _ g1] at e1
      simp only [generate_codebook, hist, if_false, get_codebook_size, extract, grow_eq]
      simp only [List.length_nil, Nat.zero_add] at e1
      exact e1
    rw [size_eq k1 flag1, size_eq k2 flag2]
    have e : k2 - 1 = (k1 - 1) + (k2 - k1 - (if k1 = 0 then 1 else 0)) := by
      split_ifs <;> omega
    rw [e, growth_passes_add]
    obtain ⟨g1, _, _⟩ := growth_passes_leaf_count A (k1 - 1) _ hl
    exact (growth_passes_leaf_count A _ _ g1).2.1

/-- C8 at work: the same two observations with `max_size` 1 and 3. -/
theorem codebook_size_monotone_witness :
    1 ≤ 3 ∧
    get_codebook_size
      (generate_codebook exact1 (train fresh1 [(vec1 3, 5), (vec1 1, 2)]) 1 false).2
      ≤ get_codebook_size
        (generate_codebook exact1 (train fresh1 [(vec1 3, 5), (vec1 1, 2)]) 3 false).2 :=
  ⟨by decide,
    codebook_size_monotone exact1 (train fresh1 [(vec1 3, 5), (vec1 1, 2)]) 1 3 false false
      (by decide)⟩

/-- C9: two freshly constructed instances fed the same observations in different orders
give, for the same arguments, the same returned status, the same codebook, entry by entry,
and indeed the same instance. -/
theorem generate_codebook_order_independent (A : Arith V S) (hist1 hist2 : List (V × Nat))
    (max_size : Nat) (flag : Bool) (h : hist1.Perm hist2) :
    (generate_codebook A (train tree_clusterizer.new hist1) max_size flag).1
      = (generate_codebook A (train tree_clusterizer.new hist2) max_size flag).1 ∧
    get_codebook (generate_codebook A (train tree_clusterizer.new hist1) max_size flag).2
      = get_codebook (generate_codebook A (train tree_clusterizer.new hist2) max_size flag).2 ∧
    (generate_codebook A (train tree_clusterizer.new hist1) max_size flag).2
      = (generate_codebook A (train tree_clusterizer.new hist2) max_size flag).2 := by
  have key : generate_codebook A (train tree_clusterizer.new hist1) max_size flag
      = generate_codebook A (train tree_clusterizer.new hist2) max_size flag := by
    by_cases hne : hist1 = []
    · rw [hne] at h ⊢
      rw [List.nil_perm.mp h]
    · have hne2 : hist2 ≠ [] := fun hc => hne (by rw [hc] at h; exact List.perm_nil.mp h)
      have e : aggregate (train (tree_clusterizer.new : tree_clusterizer V S) hist1)
          = aggregate (train tree_clusterizer.new hist2) := by
        rw [train_fields, train_fields]
        simp only [aggregate, tree_clusterizer.new, List.nil_append]
        rw [sort_hist_congr hist1 hist2 h]
      unfold generate_codebook
      rw [if_neg (by rw [train_fields]; simpa [tree_clusterizer.new] using hne),
        if_neg (by rw [train_fields]; simpa [tree_clusterizer.new] using hne2), e]
  rw [key]
  exact ⟨rfl, rfl, rfl⟩

/-- C9 at work: two observations added in the two possible orders. -/
theorem generate_codebook_order_independent_witness :
    [(vec1 5, 5), (vec1 12, 1)].Perm [(vec1 12, 1), (vec1 5, 5)] ∧
    get_codebook (generate_codebook exact1
      (train tree_clusterizer.new [(vec1 5, 5), (vec1 12, 1)]) 2 false).2
      = get_codebook (generate_codebook exact1
        (train tree_clusterizer.new [(vec1 12, 1), (vec1 5, 5)]) 2 false).2 :=
  ⟨List.Perm.swap _ _ _,
    (generate_codebook_order_independent exact1 [(vec1 5, 5), (vec1 12, 1)]
      [(vec1 12, 1), (vec1 5, 5)] 2 false (List.Perm.swap _ _ _)).2.1⟩

/-- C10: with the arithmetic read exactly, on a freshly constructed or cleared instance whose
observations all carry the vector `v`, with `uint` weights and a positive aggregated weight,
`generate_codebook` returns success for every `max_size`, `get_codebook_size()` is 1 and
`get_codebook_entry(0)` is `v`. -/
theorem single_vector_codebook (N : Nat) (normalize : Vec N → Vec N)
    (s : tree_clusterizer (Vec N) ℚ) (hist : List (Vec N × Nat)) (v : Vec N) (max_size : Nat)
    (flag : Bool) (hs : Fresh s) (hv : ∀ p ∈ hist, p.1 = v) (hw : ∀ p ∈ hist, p.2 ≤ UINT_MAX)
    (hpos : 0 < min (obs_weight hist v) UINT_MAX) :
    (generate_codebook (exactArith N normalize) (train s hist) max_size flag).1 = true ∧
    get_codebook_size
      (generate_codebook (exactArith N normalize) (train s hist) max_size flag).2 = 1 ∧
    get_codebook_entry
      (generate_codebook (exactArith N normalize) (train s hist) max_size flag).2 0
        = some v := by
  have hne : hist ≠ [] := by
    intro hc
    rw [hc] at hpos
    simp [obs_weight] at hpos
  have hh : (train s hist).m_hist = hist := by rw [train_fields]; simp [hs.1]
  have hne' : (train s hist).m_hist ≠ [] := by rw [hh]; exact hne
  obtain ⟨a1, a2⟩ := aggregate_single s hist v hs hne hv hw
  obtain ⟨root, r1, r2, r3, r4, r5⟩ := build_root_single (exactArith N normalize)
    (aggregate (train s hist)) v _ a1 a2
  have hW : min (obs_weight hist v) UINT_MAX % UINT64_SIZE = min (obs_weight hist v) UINT_MAX := by
    apply Nat.mod_eq_of_lt
    have : min (obs_weight hist v) UINT_MAX ≤ UINT_MAX := Nat.min_le_right _ _
    have h2 : UINT_MAX < UINT64_SIZE := by decide
    omega
  rw [hW, exact_centroid N normalize v _ hpos] at r5
  have hg := growth_passes_single (exactArith N normalize) (max_size - 1)
    (build_root (exactArith N normalize) (aggregate (train s hist))) root r1 (by rw [r2, r3])
  have hcb : (generate_codebook (exactArith N normalize) (train s hist) max_size flag).2.m_codebook
      = [v] := by
    rw [generate_codebook_eq _ _ _ _ hne', hg]
    simp only [extract, r1]
    rw [extract_loop_leaf _ _ _ _ _ _ _ _ r4]
    simp [extract_loop, r5]
  refine ⟨?_, ?_, ?_⟩
  · unfold generate_codebook
    rw [if_neg hne']
  · simp [get_codebook_size, hcb]
  · simp [get_codebook_entry, hcb]

/-- C10 at work: the vector `(3)` added once with weight 5. -/
theorem single_vector_codebook_witness :
    Fresh fresh1 ∧ (∀ p ∈ [(vec1 3, 5)], p.1 = vec1 3) ∧
    (∀ p ∈ [(vec1 3, 5)], p.2 ≤ UINT_MAX) ∧ 0 < min (obs_weight [(vec1 3, 5)] (vec1 3)) UINT_MAX ∧
    get_codebook_size (generate_codebook exact1 (train fresh1 [(vec1 3, 5)]) 4 false).2 = 1 ∧
    get_codebook_entry (generate_codebook exact1 (train fresh1 [(vec1 3, 5)]) 4 false).2 0
      = some (vec1 3) :=
  ⟨fresh_new, by decide, by decide, by decide!,
    (single_vector_codebook 1 _ fresh1 [(vec1 3, 5)] (vec1 3) 4 false fresh_new
      (by decide) (by decide) (by decide!)).2⟩

end claims

section claims_lookup
variable {V S : Type} [LinearOrder V]

/-- C11: after `generate_codebook(max_size, true)` on a freshly constructed or cleared
instance trained with the observations `hist`, which succeeds, for every vector `v` among the
observations `get_node_index(v)` returns an index `k` below `get_codebook_size()`; `v` is
the entry `i` of the unique-vector array and of no other index, exactly one leaf holds the
entry `i` in its range, `k` is the codebook index of that leaf, and `get_codebook_entry(k)` is
its centroid. -/
theorem get_node_index_leaf [DecidableEq V] (A : Arith V S) (s : tree_clusterizer V S)
    (hist : List (V × Nat)) (max_size : Nat) (hs : Fresh s) (v : V)
    (hv : v ∈ hist.map Prod.fst) :
    (generate_codebook A (train s hist) max_size true).1 = true ∧
    ∃ k i : Nat, ∃ p : Fin (generate_codebook A (train s hist) max_size true).2.m_nodes.length,
      get_node_index (generate_codebook A (train s hist) max_size true).2 v = some k ∧
      k < get_codebook_size (generate_codebook A (train s hist) max_size true).2 ∧
      (generate_codebook A (train s hist) max_size true).2.m_vectors.get? i = some v ∧
      (∀ i2, (generate_codebook A (train s hist) max_size true).2.m_vectors.get? i2 = some v →
        i2 = i) ∧
      ((generate_codebook A (train s hist) max_size true).2.m_nodes.get p).is_leaf ∧
      holds (generate_codebook A (train s hist) max_size true).2
        ((generate_codebook A (train s hist) max_size true).2.m_nodes.get p) i ∧
      (∀ q : Fin (generate_codebook A (train s hist) max_size true).2.m_nodes.length,
        ((generate_codebook A (train s hist) max_size true).2.m_nodes.get q).is_leaf →
        holds (generate_codebook A (train s hist) max_size true).2
          ((generate_codebook A (train s hist) max_size true).2.m_nodes.get q) i →
        q = p) ∧
      ((generate_codebook A (train s hist) max_size true).2.m_nodes.get p).m_codebook_index
        = (k : Int) ∧
      get_codebook_entry (generate_codebook A (train s hist) max_size true).2 k
        = some ((generate_codebook A (train s hist) max_size true).2.m_nodes.get p).m_centroid := by
  have hne : hist ≠ [] := by
    intro hc; rw [hc] at hv; simp at hv
  obtain ⟨hne', p1, hsorted, _, hperm, _, _, _⟩ :=
    fresh_generate_spec A s hist max_size true hs hne
  obtain ⟨k, i, node, hnode, h1, h2, h3, h4, h5, h6⟩ :=
    fresh_generate_lookup A s hist max_size hs v hv
  obtain ⟨p, hp⟩ := List.mem_iff_get.mp hnode
  have hilt := (List.get?_eq_some.mp h2).1
  obtain ⟨p0, _, huniq⟩ := partitioned_unique_leaf _ p1 hperm i hilt
  refine ⟨?_, k, i, p, h1, ?_, h2, ?_, ?_, ?_, ?_, ?_, ?_⟩
  · unfold generate_codebook
    rw [if_neg hne']
  · exact (List.get?_eq_some.mp h6).1
  · intro i2 hi2
    exact sorted_get?_inj _ hsorted _ _ v hi2 h2
  · rw [hp]; exact h3
  · rw [hp]; exact h4
  · intro q hq1 hq2
    rw [huniq q ⟨hq1, hq2⟩, huniq p ⟨by rw [hp]; exact h3, by rw [hp]; exact h4⟩]
  · rw [hp]; exact h5
  · rw [hp]; exact h6

/-- C11 at work: the vector `(12)` among three observations of two distinct vectors. -/
theorem get_node_index_leaf_witness :
    Fresh fresh1 ∧ vec1 12 ∈ three_obs.map Prod.fst ∧
    (generate_codebook exact1 (train fresh1 three_obs) 2 true).1 = true ∧
    ∃ k i : Nat, ∃ p : Fin three_obs_tree.m_nodes.length,
      get_node_index three_obs_tree (vec1 12) = some k ∧
      k < get_codebook_size three_obs_tree ∧
      three_obs_tree.m_vectors.get? i = some (vec1 12) ∧
      (∀ i2, three_obs_tree.m_vectors.get? i2 = some (vec1 12) → i2 = i) ∧
      (three_obs_tree.m_nodes.get p).is_leaf ∧
      holds three_obs_tree (three_obs_tree.m_nodes.get p) i ∧
      (∀ q : Fin three_obs_tree.m_nodes.length,
        (three_obs_tree.m_nodes.get q).is_leaf →
        holds three_obs_tree (three_obs_tree.m_nodes.get q) i → q = p) ∧
      (three_obs_tree.m_nodes.get p).m_codebook_index = (k : Int) ∧
      get_codebook_entry three_obs_tree k = some (three_obs_tree.m_nodes.get p).m_centroid :=
  ⟨fresh_new, by decide,
    get_node_index_leaf exact1 fresh1 three_obs 2 fresh_new (vec1 12) (by decide)⟩

/-- C13: `clear()` empties the observations, the unique-vector array, the live array, the
node array, the codebook and the reverse map; and whatever calls came before a `clear()`, the
calls `later` that follow it leave the instance with the same six data members as they leave
a newly constructed one, so that a following `generate_codebook` returns the same status and
`get_codebook_size`, `get_codebook_entry`, `get_codebook` and `get_node_index` return the
same values on both. -/
theorem clear_is_fresh [DecidableEq V] (A : Arith V S) (s : tree_clusterizer V S)
    (before later : List (Call V)) (max_size : Nat) (flag : Bool) (index : Nat) (v : V) :
    ((clear s).m_hist = [] ∧ (clear s).m_vectors = [] ∧ (clear s).m_vectorsInfo = [] ∧
      (clear s).m_nodes = [] ∧ (clear s).m_codebook = [] ∧ (clear s).m_node_index_map = []) ∧
    Alike (run A (before ++ Call.clear :: later)) (run A later) ∧
    (generate_codebook A (run A (before ++ Call.clear :: later)) max_size flag).1
      = (generate_codebook A (run A later) max_size flag).1 ∧
    get_codebook_size (run A (before ++ Call.clear :: later))
      = get_codebook_size (run A later) ∧
    get_codebook_entry (run A (before ++ Call.clear :: later)) index
      = get_codebook_entry (run A later) index ∧
    get_codebook (run A (before ++ Call.clear :: later)) = get_codebook (run A later) ∧
    get_node_index (run A (before ++ Call.clear :: later)) v
      = get_node_index (run A later) v := by
  have h := run_clear_alike A before later
  have h4 := h.2.2.2.1
  have h6 := h.2.2.2.2.2
  refine ⟨⟨rfl, rfl, rfl, rfl, rfl, rfl⟩, h, ?_, ?_, ?_, ?_, ?_⟩
  · exact (generate_codebook_alike A _ _ max_size flag h (run_parallel A _)).1
  · simp only [get_codebook_size, h4]
  · simp only [get_codebook_entry, h4]
  · simp only [get_codebook, h4]
  · simp only [get_node_index, h6]

end claims_lookup

section claims_counter

/-- C14, evaluated: with the observations `diagonal_hist` and `max_size = 2` the growth loop
runs one pass, in which `split_node(0)` marks the root unsplittable and appends no node; the
loop leaves with `total_leaves = 2` while the tree has the one node, one leaf, and the
codebook has one entry. -/
theorem total_leaves_overcounts :
    (growth_loop exact2 2 (2 - 1) 1
      (build_root exact2 (aggregate (train tree_clusterizer.new diagonal_hist)))).1 = 2 ∧
    (growth_loop exact2 2 (2 - 1) 1
      (build_root exact2 (aggregate (train tree_clusterizer.new diagonal_hist)))).2.m_nodes.length
      = 1 ∧
    leaf_count (growth_loop exact2 2 (2 - 1) 1
      (build_root exact2 (aggregate (train tree_clusterizer.new diagonal_hist)))).2.m_nodes
      = 1 ∧
    (node_at exact2 (build_root exact2 (aggregate (train tree_clusterizer.new diagonal_hist)))
      0).m_unsplittable = false ∧
    (node_at exact2 (build_root exact2 (aggregate (train tree_clusterizer.new diagonal_hist)))
      0).m_variance = 4 ∧
    (node_at exact2 (growth_loop exact2 2 (2 - 1) 1
      (build_root exact2 (aggregate (train tree_clusterizer.new diagonal_hist)))).2
      0).m_unsplittable = true ∧
    passes exact2 (build_root exact2 (aggregate (train tree_clusterizer.new diagonal_hist))) 0
      = [(vec2 (11 / 2) (-11 / 2), vec2 (23 / 2) (-23 / 2))] ∧
    (generate_codebook exact2 (train tree_clusterizer.new diagonal_hist) 2 false).1 = true ∧
    get_codebook_size
      (generate_codebook exact2 (train tree_clusterizer.new diagonal_hist) 2 false).2 = 1 ∧
    leaf_count
      (generate_codebook exact2 (train tree_clusterizer.new diagonal_hist) 2 false).2.m_nodes
      = 1 := by
  decide!

end claims_counter

section claims_splitter
variable {V S : Type}

/-- C15, amended: in a relocation pass a member whose squared distance to the left seed
centroid is smaller than the one to the right seed centroid is assigned to the left side
(staged in `m_vectorsInfoLeft`, counted and accumulated there); every other member, and so one
whose two squared distances are equal, is assigned to the right side. -/
theorem assign_member_nearer [LinearOrder S] (A : Arith V S)
    (hlt : ∀ a b : S, A.lt a b = decide (a < b)) (vectors weightedVectors : List V)
    (weightedDotProducts : List S) (left_child right_child : V) (r : Round V S)
    (vectorInfo : VectorInfo) :
    (A.squared_distance left_child (vectors.getD vectorInfo.index A.vclear)
        < A.squared_distance right_child (vectors.getD vectorInfo.index A.vclear) →
      assign_member A vectors weightedVectors weightedDotProducts left_child right_child r
          vectorInfo
        = { r with
            new_left_child :=
              A.vadd r.new_left_child (weightedVectors.getD vectorInfo.index A.vclear)
            left_ttsum := A.add r.left_ttsum (weightedDotProducts.getD vectorInfo.index A.zero)
            left_weight := (r.left_weight + vectorInfo.weight) % UINT64_SIZE
            m_vectorsInfoLeft := r.m_vectorsInfoLeft.set r.left_info_index vectorInfo
            left_info_index := r.left_info_index + 1 }) ∧
    (A.squared_distance right_child (vectors.getD vectorInfo.index A.vclear)
        ≤ A.squared_distance left_child (vectors.getD vectorInfo.index A.vclear) →
      assign_member A vectors weightedVectors weightedDotProducts left_child right_child r
          vectorInfo
        = { r with
            new_right_child :=
              A.vadd r.new_right_child (weightedVectors.getD vectorInfo.index A.vclear)
            right_ttsum := A.add r.right_ttsum (weightedDotProducts.getD vectorInfo.index A.zero)
            right_weight := (r.right_weight + vectorInfo.weight) % UINT64_SIZE
            m_vectorsInfoRight := r.m_vectorsInfoRight.set r.right_info_index vectorInfo
            right_info_index := r.right_info_index + 1 }) := by
  constructor
  · intro h
    simp only [assign_member, hlt, h, decide_True, if_true]
  · intro h
    have h2 := not_lt.mpr h
    simp only [assign_member, hlt, h2, decide_False, Bool.false_eq_true, if_false]

/-- C15 at work: the member `(1)` between the seed centroids `(0)` and `(2)`. -/
theorem assign_member_nearer_witness :
    (∀ a b : ℚ, exact1.lt a b = decide (a < b)) ∧
    exact1.squared_distance (vec1 2) ([vec1 1].getD 0 exact1.vclear)
      ≤ exact1.squared_distance (vec1 0) ([vec1 1].getD 0 exact1.vclear) ∧
    assign_member exact1 [vec1 1] [vec1 1] [1] (vec1 0) (vec1 2) pass_start
        { index := 0, weight := 1 }
      = { pass_start with
          new_right_child :=
            exact1.vadd pass_start.new_right_child ([vec1 1].getD 0 exact1.vclear)
          right_ttsum := exact1.add pass_start.right_ttsum ([(1 : ℚ)].getD 0 exact1.zero)
          right_weight := (pass_start.right_weight + 1) % UINT64_SIZE
          m_vectorsInfoRight :=
            pass_start.m_vectorsInfoRight.set pass_start.right_info_index
              { index := 0, weight := 1 }
          right_info_index := pass_start.right_info_index + 1 } :=
  ⟨fun _ _ => rfl, by decide!,
    (assign_member_nearer exact1 (fun _ _ => rfl) [vec1 1] [vec1 1] [1] (vec1 0) (vec1 2)
      pass_start { index := 0, weight := 1 }).2 (by decide!)⟩

/-- C15 refuted: with the seed centroids `(0)` and `(2)` the member `(1)` has the squared
distance 1 to both, and the relocation pass assigns it to the right side: nothing is staged
or counted on the left, the member is staged and counted on the right. -/
theorem tie_goes_right :
    exact1.squared_distance (vec1 0) (vec1 1) = exact1.squared_distance (vec1 2) (vec1 1) ∧
    (relocation_round exact1 [vec1 1] [vec1 1] [1] 0 (vec1 0) (vec1 2)
      [{ index := 7, weight := 7 }] [{ index := 7, weight := 7 }]
      [{ index := 0, weight := 1 }]).left_info_index = 0 ∧
    (relocation_round exact1 [vec1 1] [vec1 1] [1] 0 (vec1 0) (vec1 2)
      [{ index := 7, weight := 7 }] [{ index := 7, weight := 7 }]
      [{ index := 0, weight := 1 }]).m_vectorsInfoLeft = [{ index := 7, weight := 7 }] ∧
    (relocation_round exact1 [vec1 1] [vec1 1] [1] 0 (vec1 0) (vec1 2)
      [{ index := 7, weight := 7 }] [{ index := 7, weight := 7 }]
      [{ index := 0, weight := 1 }]).left_weight = 0 ∧
    (relocation_round exact1 [vec1 1] [vec1 1] [1] 0 (vec1 0) (vec1 2)
      [{ index := 7, weight := 7 }] [{ index := 7, weight := 7 }]
      [{ index := 0, weight := 1 }]).right_info_index = 1 ∧
    (relocation_round exact1 [vec1 1] [vec1 1] [1] 0 (vec1 0) (vec1 2)
      [{ index := 7, weight := 7 }] [{ index := 7, weight := 7 }]
      [{ index := 0, weight := 1 }]).m_vectorsInfoRight = [{ index := 0, weight := 1 }] ∧
    (relocation_round exact1 [vec1 1] [vec1 1] [1] 0 (vec1 0) (vec1 2)
      [{ index := 7, weight := 7 }] [{ index := 7, weight := 7 }]
      [{ index := 0, weight := 1 }]).right_weight = 1 := by
  decide!

/-- C16, amended: `split_node`, called on a node with at least two members, marks the node
unsplittable and returns with the node array otherwise as it was (its length, every range
and every child link) and the live array unchanged if and only if some relocation pass
leaves one of the two sides with a zero total weight, the 64-bit sum of the weights of the
members assigned to it; this is so in particular when a pass assigns no member to a side.
Otherwise it commits two children. -/
theorem split_node_unsplittable_iff (A : Arith V S) (s : tree_clusterizer V S) (i : Nat)
    (hm : (node_at A s i).m_begin + 2 ≤ (node_at A s i).m_end) :
    (((split_node A s i).m_nodes
          = s.m_nodes.set i { node_at A s i with m_unsplittable := true } ∧
        (split_node A s i).m_vectorsInfo = s.m_vectorsInfo) ↔
      ∃ p ∈ passes A s i,
        weight_sum (lefts A s (node_at A s i) p.1 p.2) % UINT64_SIZE = 0 ∨
        weight_sum (rights A s (node_at A s i) p.1 p.2) % UINT64_SIZE = 0) ∧
    ((∃ p ∈ passes A s i,
        lefts A s (node_at A s i) p.1 p.2 = [] ∨ rights A s (node_at A s i) p.1 p.2 = []) →
      (split_node A s i).m_nodes
          = s.m_nodes.set i { node_at A s i with m_unsplittable := true } ∧
        (split_node A s i).m_vectorsInfo = s.m_vectorsInfo) ∧
    ((¬ ∃ p ∈ passes A s i,
        weight_sum (lefts A s (node_at A s i) p.1 p.2) % UINT64_SIZE = 0 ∨
        weight_sum (rights A s (node_at A s i) p.1 p.2) % UINT64_SIZE = 0) →
      ∃ l r : vq_node V S, l.is_leaf ∧ r.is_leaf ∧
        (split_node A s i).m_nodes
          = s.m_nodes.set i { node_at A s i with
              m_left := (s.m_nodes.length : Int),
              m_right := ((s.m_nodes.length + 1 : Nat) : Int) } ++ [l, r]) := by
  have h1 : (node_at A s i).m_begin + 1 ≠ (node_at A s i).m_end := by omega
  obtain ⟨hiff, _⟩ := relocate_passes A s i
  have hyes : (relocate A s i).1 = true →
      (split_node A s i).m_nodes
          = s.m_nodes.set i { node_at A s i with m_unsplittable := true } ∧
        (split_node A s i).m_vectorsInfo = s.m_vectorsInfo := by
    intro h
    rw [split_node_eq, if_neg h1, if_pos h]
    exact ⟨rfl, rfl⟩
  have hno : ¬ (relocate A s i).1 = true →
      ∃ l r : vq_node V S, l.is_leaf ∧ r.is_leaf ∧
        (split_node A s i).m_nodes
          = s.m_nodes.set i { node_at A s i with
              m_left := (s.m_nodes.length : Int),
              m_right := ((s.m_nodes.length + 1 : Nat) : Int) } ++ [l, r] := by
    intro h
    rw [split_node_eq, if_neg h1, if_neg h]
    exact ⟨_, _, ⟨rfl, rfl⟩, ⟨rfl, rfl⟩, rfl⟩
  refine ⟨⟨fun h => ?_, fun h => hyes (hiff.mpr h)⟩, fun h => ?_, fun h => ?_⟩
  · by_contra hc
    obtain ⟨l, r, _, _, e⟩ := hno (fun hr => hc (hiff.mp hr))
    have := congrArg List.length (h.1.symm.trans e)
    simp at this
  · obtain ⟨p, hp, e⟩ := h
    refine hyes (hiff.mpr ⟨p, hp, ?_⟩)
    rcases e with e | e
    · exact Or.inl (by rw [e]; rfl)
    · exact Or.inr (by rw [e]; rfl)
  · exact hno (fun hr => h (hiff.mp hr))

/-- C16 at work: `split_node(0)` on the root of `two_points_root` commits two children. -/
theorem split_node_unsplittable_iff_witness :
    (node_at exact1 two_points_root 0).m_begin + 2 ≤ (node_at exact1 two_points_root 0).m_end ∧
    (¬ ∃ p ∈ passes exact1 two_points_root 0,
        weight_sum (lefts exact1 two_points_root (node_at exact1 two_points_root 0) p.1 p.2)
          % UINT64_SIZE = 0 ∨
        weight_sum (rights exact1 two_points_root (node_at exact1 two_points_root 0) p.1 p.2)
          % UINT64_SIZE = 0) ∧
    ∃ l r : vq_node (Vec 1) ℚ, l.is_leaf ∧ r.is_leaf ∧
      (split_node exact1 two_points_root 0).m_nodes
        = two_points_root.m_nodes.set 0
            { node_at exact1 two_points_root 0 with
              m_left := (two_points_root.m_nodes.length : Int),
              m_right := ((two_points_root.m_nodes.length + 1 : Nat) : Int) } ++ [l, r] :=
  ⟨by decide!, by decide!,
    (split_node_unsplittable_iff exact1 two_points_root 0 (by decide!)).2.2 (by decide!)⟩

/-- C16 refuted: in `zero_weight_tree` the node 2 is a leaf with the two members `(10)`
(weight 1) and `(20)` (weight 0).  `split_node(2)` marks it unsplittable and leaves the length
of the node array, every range and child link and the live array as they were, although the
one relocation pass, with the seed centroids `(15)` and `(10)`, assigned a member to each
side: `(20)` left and `(10)` right. -/
theorem unsplittable_with_members_on_both_sides :
    (node_at exact1 zero_weight_tree 2).is_leaf ∧
    (node_at exact1 zero_weight_tree 2).m_begin + 2
      ≤ (node_at exact1 zero_weight_tree 2).m_end ∧
    (node_at exact1 zero_weight_tree 2).m_unsplittable = false ∧
    (node_at exact1 (split_node exact1 zero_weight_tree 2) 2).m_unsplittable = true ∧
    (split_node exact1 zero_weight_tree 2).m_nodes.length = zero_weight_tree.m_nodes.length ∧
    (split_node exact1 zero_weight_tree 2).m_nodes.map
        (fun node => (node.m_begin, node.m_end, node.m_left, node.m_right))
      = zero_weight_tree.m_nodes.map
          (fun node => (node.m_begin, node.m_end, node.m_left, node.m_right)) ∧
    (split_node exact1 zero_weight_tree 2).m_vectorsInfo = zero_weight_tree.m_vectorsInfo ∧
    passes exact1 zero_weight_tree 2 = [(vec1 15, vec1 10)] ∧
    lefts exact1 zero_weight_tree (node_at exact1 zero_weight_tree 2) (vec1 15) (vec1 10)
      = [{ index := 2, weight := 0 }] ∧
    rights exact1 zero_weight_tree (node_at exact1 zero_weight_tree 2) (vec1 15) (vec1 10)
      = [{ index := 1, weight := 1 }] ∧
    ¬ ∃ p ∈ passes exact1 zero_weight_tree 2,
        (lefts exact1 zero_weight_tree (node_at exact1 zero_weight_tree 2) p.1 p.2).length = 0 ∨
        (rights exact1 zero_weight_tree (node_at exact1 zero_weight_tree 2) p.1 p.2).length
          = 0 := by
  decide!

/-- C17: a call of `split_node` on the node `p = m_nodes[i]` that appends nodes appends
exactly two, the children `l` and `r`; `p` keeps every field but its two child links, which
become the indices of `l` and `r`; every other node is as before; outside
`[p.m_begin, p.m_end)` the live array is as before, and inside it holds the members the last
relocation pass (seed centroids `lc`, `rc`) assigned left, in their previous order, over the
range of `l`, followed by the members it assigned right, in their previous order, over the
range of `r`, a permutation of the old entries.  Every other data member is as before, the
two staging arrays (scratch of the split) keeping their length. -/
theorem split_node_commit_frame (A : Arith V S) (s : tree_clusterizer V S) (i : Nat)
    (hi : i < s.m_nodes.length)
    (hb : (node_at A s i).m_begin ≤ (node_at A s i).m_end)
    (he : (node_at A s i).m_end ≤ s.m_vectorsInfo.length)
    (hL : (node_at A s i).m_end ≤ s.m_vectorsInfoLeft.length)
    (hR : (node_at A s i).m_end ≤ s.m_vectorsInfoRight.length)
    (hsplit : (split_node A s i).m_nodes.length ≠ s.m_nodes.length) :
    ∃ lc rc : V, ∃ l r : vq_node V S,
      (passes A s i).getLast? = some (lc, rc) ∧
      (split_node A s i).m_nodes
        = s.m_nodes.set i { node_at A s i with
            m_left := (s.m_nodes.length : Int),
            m_right := ((s.m_nodes.length + 1 : Nat) : Int) } ++ [l, r] ∧
      (∀ k node, k ≠ i → s.m_nodes.get? k = some node →
        (split_node A s i).m_nodes.get? k = some node) ∧
      (split_node A s i).m_nodes.get? i
        = some { node_at A s i with
            m_left := (s.m_nodes.length : Int),
            m_right := ((s.m_nodes.length + 1 : Nat) : Int) } ∧
      l.m_begin = (node_at A s i).m_begin ∧
      l.m_end = (node_at A s i).m_begin + (lefts A s (node_at A s i) lc rc).length ∧
      r.m_begin = l.m_end ∧ r.m_end = (node_at A s i).m_end ∧
      (split_node A s i).m_vectorsInfo
        = s.m_vectorsInfo.take (node_at A s i).m_begin ++ lefts A s (node_at A s i) lc rc
          ++ rights A s (node_at A s i) lc rc ++ s.m_vectorsInfo.drop (node_at A s i).m_end ∧
      members (split_node A s i) l = lefts A s (node_at A s i) lc rc ∧
      members (split_node A s i) r = rights A s (node_at A s i) lc rc ∧
      (lefts A s (node_at A s i) lc rc ++ rights A s (node_at A s i) lc rc).Perm
        (members s (node_at A s i)) ∧
      Frame s (split_node A s i) := by
  have h1 : (node_at A s i).m_begin + 1 ≠ (node_at A s i).m_end := by
    intro hc
    apply hsplit
    rw [split_node_eq, if_pos hc]
  have h2 : (relocate A s i).1 = false := by
    by_contra hc
    apply hsplit
    rw [split_node_eq, if_neg h1, if_pos (by simpa using hc)]
    simp
  obtain ⟨lc, rc, hlast, cl, cr, lv, rv, _, _, hn, hv⟩ :=
    split_node_commit A s i hb he hL hR h1 h2
  have hlen := committed_lengths A s (node_at A s i) lc rc he
  refine ⟨lc, rc, _, _, hlast, hn, ?_, ?_, rfl, rfl, rfl, rfl, hv, ?_, ?_, ?_,
    split_node_frame A s i⟩
  · intro k node hk hget
    have hk2 : k < s.m_nodes.length := (List.get?_eq_some.mp hget).1
    rw [hn, List.get?_eq_getElem?, List.getElem?_append_left (by simpa using hk2),
      List.getElem?_set_ne (Ne.symm hk), ← List.get?_eq_getElem?]
    exact hget
  · rw [hn, List.get?_eq_getElem?, List.getElem?_append_left (by simpa using hi),
      List.getElem?_set_self hi]
  · unfold members
    rw [hv]
    show slice _ (node_at A s i).m_begin
      ((node_at A s i).m_begin + (lefts A s (node_at A s i) lc rc).length) = _
    rw [List.append_assoc]
    exact slice_left _ _ _ _ (by simp; omega)
  · unfold members
    rw [hv]
    show slice _ ((node_at A s i).m_begin + (lefts A s (node_at A s i) lc rc).length)
      (node_at A s i).m_end = _
    have e : (node_at A s i).m_end
        = ((node_at A s i).m_begin + (lefts A s (node_at A s i) lc rc).length)
          + (rights A s (node_at A s i) lc rc).length := by omega
    conv_lhs => rw [e]
    exact slice_left _ _ _ _ (by simp; omega)
  · exact List.filter_append_perm _ _

/-- C17 at work: `split_node(0)` on the root of `two_points_root`. -/
theorem split_node_commit_frame_witness :
    0 < two_points_root.m_nodes.length ∧
    (node_at exact1 two_points_root 0).m_begin ≤ (node_at exact1 two_points_root 0).m_end ∧
    (node_at exact1 two_points_root 0).m_end ≤ two_points_root.m_vectorsInfo.length ∧
    (node_at exact1 two_points_root 0).m_end ≤ two_points_root.m_vectorsInfoLeft.length ∧
    (node_at exact1 two_points_root 0).m_end ≤ two_points_root.m_vectorsInfoRight.length ∧
    (split_node exact1 two_points_root 0).m_nodes.length ≠ two_points_root.m_nodes.length ∧
    ∃ lc rc : Vec 1, ∃ l r : vq_node (Vec 1) ℚ,
      (passes exact1 two_points_root 0).getLast? = some (lc, rc) ∧
      (split_node exact1 two_points_root 0).m_nodes
        = two_points_root.m_nodes.set 0 { node_at exact1 two_points_root 0 with
            m_left := (two_points_root.m_nodes.length : Int),
            m_right := ((two_points_root.m_nodes.length + 1 : Nat) : Int) } ++ [l, r] ∧
      (∀ k node, k ≠ 0 → two_points_root.m_nodes.get? k = some node →
        (split_node exact1 two_points_root 0).m_nodes.get? k = some node) ∧
      (split_node exact1 two_points_root 0).m_nodes.get? 0
        = some { node_at exact1 two_points_root 0 with
            m_left := (two_points_root.m_nodes.length : Int),
            m_right := ((two_points_root.m_nodes.length + 1 : Nat) : Int) } ∧
      l.m_begin = (node_at exact1 two_points_root 0).m_begin ∧
      l.m_end = (node_at exact1 two_points_root 0).m_begin
        + (lefts exact1 two_points_root (node_at exact1 two_points_root 0) lc rc).length ∧
      r.m_begin = l.m_end ∧ r.m_end = (node_at exact1 two_points_root 0).m_end ∧
      (split_node exact1 two_points_root 0).m_vectorsInfo
        = two_points_root.m_vectorsInfo.take (node_at exact1 two_points_root 0).m_begin
          ++ lefts exact1 two_points_root (node_at exact1 two_points_root 0) lc rc
          ++ rights exact1 two_points_root (node_at exact1 two_points_root 0) lc rc
          ++ two_points_root.m_vectorsInfo.drop (node_at exact1 two_points_root 0).m_end ∧
      members (split_node exact1 two_points_root 0) l
        = lefts exact1 two_points_root (node_at exact1 two_points_root 0) lc rc ∧
      members (split_node exact1 two_points_root 0) r
        = rights exact1 two_points_root (node_at exact1 two_points_root 0) lc rc ∧
      (lefts exact1 two_points_root (node_at exact1 two_points_root 0) lc rc
        ++ rights exact1 two_points_root (node_at exact1 two_points_root 0) lc rc).Perm
        (members two_points_root (node_at exact1 two_points_root 0)) ∧
      Frame two_points_root (split_node exact1 two_points_root 0) :=
  ⟨by decide!, by decide!, by decide!, by decide!, by decide!, by decide!,
    split_node_commit_frame exact1 two_points_root 0 (by decide!) (by decide!) (by decide!)
      (by decide!) (by decide!) (by decide!)⟩

/-- C18: in a pass of the growth loop, when some leaf with the unsplittable flag clear has a
variance above zero, `split_node` is called, and the node it is called on is a leaf with the
flag clear and a variance above zero, its variance is at least that of every leaf with the
flag clear, and no node of a lower index attains it; when no leaf with the flag clear has a
variance above zero, the loop stops without calling `split_node`.  The comparisons `>` and
`<=` of the scalars are those of a linear order, and every node has both child links or
none, as in every state of the loop. -/
theorem growth_loop_selects_worst [LinearOrder S] (A : Arith V S)
    (hlt : ∀ a b : S, A.lt a b = decide (a < b)) (hle : ∀ a b : S, A.le a b = decide (a ≤ b))
    (max_size n total_leaves : Nat) (s : tree_clusterizer V S) (hlinked : Linked s.m_nodes)
    (hrun : total_leaves < max_size) :
    ((∃ node ∈ s.m_nodes, node.is_leaf ∧ node.m_unsplittable = false ∧
        A.zero < node.m_variance) →
      ∃ i, ∃ hi : i < s.m_nodes.length,
        growth_loop A max_size (n + 1) total_leaves s
          = growth_loop A max_size n (total_leaves + 1) (split_node A s i) ∧
        (s.m_nodes.get ⟨i, hi⟩).is_leaf ∧
        (s.m_nodes.get ⟨i, hi⟩).m_unsplittable = false ∧
        A.zero < (s.m_nodes.get ⟨i, hi⟩).m_variance ∧
        ∀ k, ∀ hk : k < s.m_nodes.length, (s.m_nodes.get ⟨k, hk⟩).is_leaf →
          (s.m_nodes.get ⟨k, hk⟩).m_unsplittable = false →
          (s.m_nodes.get ⟨k, hk⟩).m_variance ≤ (s.m_nodes.get ⟨i, hi⟩).m_variance ∧
          ((s.m_nodes.get ⟨k, hk⟩).m_variance = (s.m_nodes.get ⟨i, hi⟩).m_variance →
            i ≤ k)) ∧
    ((¬ ∃ node ∈ s.m_nodes, node.is_leaf ∧ node.m_unsplittable = false ∧
        A.zero < node.m_variance) →
      growth_loop A max_size (n + 1) total_leaves s = (total_leaves, s)) := by
  obtain ⟨a1, a2, a3⟩ := find_worst_max A hlt s.m_nodes 0 (-1, A.neg_one)
  have hneg : A.neg_one ≤ A.zero := by
    have h := A.le_neg_one_zero
    rw [hle] at h
    exact of_decide_eq_true h
  constructor
  · rintro ⟨node, hnode, ⟨hl, _⟩, hflag, hpos⟩
    obtain ⟨k0, rfl⟩ := List.mem_iff_get.mp hnode
    have hbig : A.zero < (find_worst A s.m_nodes 0 (-1, A.neg_one)).2 :=
      lt_of_lt_of_le hpos (a1 k0.1 k0.2 hl hflag)
    have hno : A.le (find_worst A s.m_nodes 0 (-1, A.neg_one)).2 A.zero = false := by
      rw [hle]
      exact decide_eq_false (not_le.mpr hbig)
    rcases a3 with a3 | ⟨k, h, b1, b2, b3, b4, b5⟩
    · rw [a3] at hbig
      exact absurd hbig (not_lt.mpr hneg)
    · refine ⟨k, h, ?_, ?_, b3, ?_, ?_⟩
      · have e : (find_worst A s.m_nodes 0 (-1, A.neg_one)).1.toNat = k := by
          rw [b1]; simp
        simp only [growth_loop, hrun, if_true, hno, Bool.false_eq_true, if_false, e]
      · exact ⟨b2, (hlinked _ (List.get_mem _ _ _)).mp b2⟩
      · rw [b1] at hbig; exact hbig
      · intro j hj ⟨l1, _⟩ l2
        have c1 := a1 j hj l1 l2
        rw [b1] at c1
        refine ⟨c1, fun heq => ?_⟩
        by_contra hc
        have := b5 j hj (by omega) l1 l2
        rw [heq] at this
        exact lt_irrefl _ this
  · intro hnone
    have hstop : A.le (find_worst A s.m_nodes 0 (-1, A.neg_one)).2 A.zero = true := by
      rw [hle]
      refine decide_eq_true ?_
      rcases a3 with a3 | ⟨k, h, b1, b2, b3, _, _⟩
      · rw [a3]; exact hneg
      · rw [b1]
        refine not_lt.mp
          (fun hc => hnone ⟨s.m_nodes.get ⟨k, h⟩, List.get_mem _ _ _, ?_, b3, hc⟩)
        exact ⟨b2, (hlinked _ (List.get_mem _ _ _)).mp b2⟩
    simp only [growth_loop, hrun, if_true, hstop]

/-- C18 at work: in the first pass on `two_points_root` the root is the leaf to split. -/
theorem growth_loop_selects_worst_witness :
    (∀ a b : ℚ, exact1.lt a b = decide (a < b)) ∧
    (∀ a b : ℚ, exact1.le a b = decide (a ≤ b)) ∧
    Linked two_points_root.m_nodes ∧ 1 < 2 ∧
    (∃ node ∈ two_points_root.m_nodes,
      node.is_leaf ∧ node.m_unsplittable = false ∧ exact1.zero < node.m_variance) ∧
    ∃ i, ∃ hi : i < two_points_root.m_nodes.length,
      growth_loop exact1 2 (0 + 1) 1 two_points_root
        = growth_loop exact1 2 0 (1 + 1) (split_node exact1 two_points_root i) ∧
      (two_points_root.m_nodes.get ⟨i, hi⟩).is_leaf ∧
      (two_points_root.m_nodes.get ⟨i, hi⟩).m_unsplittable = false ∧
      exact1.zero < (two_points_root.m_nodes.get ⟨i, hi⟩).m_variance ∧
      ∀ k, ∀ hk : k < two_points_root.m_nodes.length,
        (two_points_root.m_nodes.get ⟨k, hk⟩).is_leaf →
        (two_points_root.m_nodes.get ⟨k, hk⟩).m_unsplittable = false →
        (two_points_root.m_nodes.get ⟨k, hk⟩).m_variance
          ≤ (two_points_root.m_nodes.get ⟨i, hi⟩).m_variance ∧
        ((two_points_root.m_nodes.get ⟨k, hk⟩).m_variance
          = (two_points_root.m_nodes.get ⟨i, hi⟩).m_variance → i ≤ k) :=
  ⟨fun _ _ => rfl, fun _ _ => rfl, by unfold Linked; decide!, by decide, by decide!,
    (growth_loop_selects_worst exact1 (fun _ _ => rfl) (fun _ _ => rfl) 2 0 1
      two_points_root (by unfold Linked; decide!) (by decide)).1 (by decide!)⟩

end claims_splitter

section claims_tree
variable {V S : Type} [LinearOrder V]

/-- C19: on the instance reached by any sequence of calls every node has both child links or
none, and `add_training_vec` leaves the nodes alone.  In the growth loop of a generation
started there, a node that has a left child after `n` passes has a right child too and is the
same node, child links included, after any further passes and after the extraction loop; and
at every node the extraction loop visits the two `CRNLIB_ASSERT`s hold. -/
theorem links_never_revert (A : Arith V S) (calls : List (Call V)) (max_size : Nat)
    (flag : Bool) :
    (∀ node ∈ (run A calls).m_nodes, (node.m_left = -1 ↔ node.m_right = -1)) ∧
    (∀ v weight, (add_training_vec (run A calls) v weight).m_nodes = (run A calls).m_nodes) ∧
    (∀ n m k node,
      (growth_passes A n (build_root A (aggregate (run A calls)))).m_nodes.get? k = some node →
      node.m_left ≠ -1 →
      node.m_right ≠ -1 ∧
      (growth_passes A (n + m) (build_root A (aggregate (run A calls)))).m_nodes.get? k
        = some node) ∧
    (∀ k node,
      (grow A max_size (build_root A (aggregate (run A calls)))).m_nodes.get? k = some node →
      node.m_left ≠ -1 →
      (extract A flag (grow A max_size (build_root A (aggregate (run A calls))))).m_nodes.get? k
        = some node) ∧
    (∀ node ∈ (grow A max_size (build_root A (aggregate (run A calls)))).m_nodes,
      extract_asserts node) := by
  have hroot := build_root_linked A (aggregate (run A calls))
  refine ⟨run_linked A calls, fun _ _ => rfl, ?_, ?_, ?_⟩
  · intro n m k node hget hint
    refine ⟨?_, ?_⟩
    · have hl := (growth_passes_leaf_count A n _ hroot).1 node (List.get?_mem hget)
      exact fun hr => hint (hl.mpr hr)
    · rw [growth_passes_add]
      exact growth_passes_internal A m _ k node hget hint
  · intro k node hget hint
    exact extract_loop_internal A _ _ flag _ _ _ k node hget hint
  · rw [grow_eq]
    exact extract_asserts_of_linked _ (growth_passes_leaf_count A (max_size - 1) _ hroot).1

/-- C20: after a successful `generate_codebook` on a freshly constructed or cleared instance
trained with the observations `hist`, every node has a non-empty range, every node but the
root has a total weight above zero, and `get_codebook_size()` is at most the number of
distinct vectors among the observations, whatever `max_size` is. -/
theorem nodes_populated (A : Arith V S) (s : tree_clusterizer V S) (hist : List (V × Nat))
    (max_size : Nat) (flag : Bool) (hs : Fresh s) (hne : hist ≠ []) :
    (generate_codebook A (train s hist) max_size flag).1 = true ∧
    (∀ node ∈ (generate_codebook A (train s hist) max_size flag).2.m_nodes,
      node.m_begin < node.m_end) ∧
    (∀ k node, 0 < k →
      (generate_codebook A (train s hist) max_size flag).2.m_nodes.get? k = some node →
      0 < node.m_total_weight) ∧
    get_codebook_size (generate_codebook A (train s hist) max_size flag).2
      ≤ (hist.map Prod.fst).dedup.length := by
  obtain ⟨hne', p1, _, hmem, _, hlen, p2, hlen3⟩ :=
    fresh_generate_spec A s hist max_size flag hs hne
  have hinfo : (aggregate (train s hist)).m_vectorsInfo ≠ [] := by
    intro hc
    obtain ⟨p, hp⟩ := List.exists_mem_of_ne_nil _ hne
    have h1 := (hmem p.1).mpr (List.mem_map_of_mem _ hp)
    rw [hc] at hlen3
    rw [p2, List.length_eq_zero.mp hlen3.symm] at h1
    exact absurd h1 (List.not_mem_nil _)
  have hpop := generate_codebook_populated A (train s hist) max_size flag hne' hlen3 hinfo
  refine ⟨?_, hpop.1, hpop.2, ?_⟩
  · unfold generate_codebook
    rw [if_neg hne']
  · rw [codebook_size_eq_leaf_count A _ max_size flag hne', ← hlen]
    exact leaf_count_le _ p1 hpop.1

/-- C20 at work: two distinct vectors and `max_size = 4`. -/
theorem nodes_populated_witness :
    Fresh fresh1 ∧ [(vec1 5, 5), (vec1 12, 1), (vec1 5, 2)] ≠ [] ∧
    get_codebook_size
        (generate_codebook exact1
          (train fresh1 [(vec1 5, 5), (vec1 12, 1), (vec1 5, 2)]) 4 false).2
      ≤ ([(vec1 5, 5), (vec1 12, 1), (vec1 5, 2)].map Prod.fst).dedup.length :=
  ⟨fresh_new, by decide,
    (nodes_populated exact1 fresh1 [(vec1 5, 5), (vec1 12, 1), (vec1 5, 2)] 4 false
      fresh_new (by decide)).2.2.2⟩

end claims_tree

end crnlib
